import Mathlib

/-! Concurrent data structures: hash table, Michael–Scott queue, Bloom filter.

A verification development for the three components of the repository:

* `HashTable` embeds `src/Hash_table/hash_table.cpp` (class `PthreadHashTable`);
* `MSQ` embeds `src/problem2/ms_queue.cpp`;
* `Bloom` embeds `src/problem3/bloom_filter.cpp`.

Every operation is embedded as it executes when no other thread interferes.
-/

set_option autoImplicit false

/-! # Definitions -/

/-! ## Striped-lock hash table -/

namespace HashTable

/-- A chain node (`struct Node`).  `addr` is the address of the node, i.e. the
value of the `Node*` that refers to it; `0` is `nullptr`.  The `next` field is
represented by the position of the node in its chain: a bucket chain is the list
of the nodes reached from the bucket head by following `next` until `nullptr`. -/
structure Node where
  addr : Nat
  key : Nat
  value : Nat
deriving DecidableEq, Repr

/-- A node as `allocate_node` returns it, before it is linked into a chain: its
address and the three fields of `struct Node` as the method has written them; the
`next` field is a node address, `0` is `nullptr`. -/
structure FreshNode where
  addr : Nat
  key : Nat
  value : Nat
  next : Nat
deriving DecidableEq, Repr

/-- The node once `insert_thread_func` has linked it at the head of a chain: the
statement `newNode->next = buckets[bucket]` overwrites the `next` field with the old
head, which in a chain is the position of the node in the list. -/
def FreshNode.cell (n : FreshNode) : Node :=
  { addr := n.addr, key := n.key, value := n.value }

/-- The state of a `PthreadHashTable`.  The mutexes carry no data and are left
out.  `heap_next` is the state of `std::malloc`: the next address it hands out
(addresses are handed out in increasing order, starting at 1). -/
structure PthreadHashTable where
  capacity : Nat
  buckets : List (List Node)
  node_pool : List Nat
  pool_index : Nat
  free_list : List Nat
  heap_next : Nat
deriving DecidableEq, Repr

/-- The constant `PthreadHashTable::POOL_SIZE`. -/
def POOL_SIZE : Nat := 10000000

/-- The method `size()`: returns `capacity`. -/
def PthreadHashTable.size (ht : PthreadHashTable) : Nat := ht.capacity

/-- The constructor `PthreadHashTable(cap)`: `cap` empty buckets, a pool of
`min(POOL_SIZE, cap * 10)` freshly allocated nodes, pool index 0, empty free list. -/
def create (cap : Nat) : PthreadHashTable :=
  let initial_pool_size := min POOL_SIZE (cap * 10)
  { capacity := cap
    buckets := List.replicate cap []
    node_pool := (List.range initial_pool_size).map (fun i => i + 1)
    pool_index := 0
    free_list := []
    heap_next := initial_pool_size + 1 }

/-- The method `allocate_node(key, value)`: pop the back of the free list if it is
not empty; if that gave no node, take `node_pool[pool_index++]` when the old index
is inside the pool and a fresh `malloc` otherwise; then fill in the fields:
`node->key = key; node->value = value; node->next = nullptr`. -/
def allocate_node (ht : PthreadHashTable) (key value : Nat) : PthreadHashTable × FreshNode :=
  let node : Nat := if ht.free_list ≠ [] then ht.free_list.getLast?.getD 0 else 0
  let ht1 : PthreadHashTable :=
    if ht.free_list ≠ [] then { ht with free_list := ht.free_list.dropLast } else ht
  if node = 0 then
    let idx := ht1.pool_index
    let ht2 : PthreadHashTable := { ht1 with pool_index := idx + 1 }
    if idx < ht2.node_pool.length then
      (ht2, { addr := ht2.node_pool[idx]?.getD 0, key := key, value := value, next := 0 })
    else
      ({ ht2 with heap_next := ht2.heap_next + 1 },
        { addr := ht2.heap_next, key := key, value := value, next := 0 })
  else
    (ht1, { addr := node, key := key, value := value, next := 0 })

/-- The method `free_node(node)`: a null pointer is ignored, any other node is
pushed on the back of the free list. -/
def free_node (ht : PthreadHashTable) (node : Nat) : PthreadHashTable :=
  if node = 0 then ht else { ht with free_list := ht.free_list ++ [node] }

/-- The scan loop of `insert_thread_func`:
`while (curr) { if (curr->key == key) { exists = true; break; } curr = curr->next; }`. -/
def chain_exists : List Node → Nat → Bool
  | [], _ => false
  | n :: rest, key => if n.key = key then true else chain_exists rest key

/-- The scan loop of `lookup_thread_func`: `value` starts at 0 and receives
`curr->value` of the first node whose key matches. -/
def chain_lookup : List Node → Nat → Nat
  | [], _ => 0
  | n :: rest, key => if n.key = key then n.value else chain_lookup rest key

/-- The scan loop of `delete_thread_func`.  At the first node whose key matches,
the node is unlinked (`prev->next = curr->next`, or the bucket head is replaced
when there is no predecessor); the result is the unlinked node (`to_free`) and the
chain that remains.  `none` when no node matches (`found` stays false). -/
def chain_unlink : List Node → Nat → Option (Node × List Node)
  | [], _ => none
  | n :: rest, key =>
    if n.key = key then some (n, rest)
    else
      match chain_unlink rest key with
      | none => none
      | some (victim, rest1) => some (victim, n :: rest1)

/-- One iteration of the loop of `insert_thread_func` for the pair `(key, val)`:
the new table and the byte written to `results[i]`. -/
def insert_one (ht : PthreadHashTable) (key val : Nat) : PthreadHashTable × Nat :=
  let bucket := key % ht.size
  let chain := ht.buckets[bucket]?.getD []
  if chain_exists chain key then
    (ht, 0)
  else
    let (ht1, newNode) := allocate_node ht key val
    ({ ht1 with buckets := ht1.buckets.set bucket (newNode.cell :: chain) }, 1)

/-- One iteration of the loop of `lookup_thread_func` for `key`: the table after
the iteration and the value written to `results[i]`. -/
def lookup_one (ht : PthreadHashTable) (key : Nat) : PthreadHashTable × Nat :=
  let bucket := key % ht.size
  (ht, chain_lookup (ht.buckets[bucket]?.getD []) key)

/-- One iteration of the loop of `delete_thread_func` for `key`: the new table and
the byte written to `results[i]`. -/
def delete_one (ht : PthreadHashTable) (key : Nat) : PthreadHashTable × Nat :=
  let bucket := key % ht.size
  match chain_unlink (ht.buckets[bucket]?.getD []) key with
  | none => (ht, 0)
  | some (victim, rest) =>
    (free_node { ht with buckets := ht.buckets.set bucket rest } victim.addr, 1)

/-- The loop `for (i = start; i < end; ++i)` of `insert_thread_func`; `cnt` is the
number of iterations left. -/
def insert_loop (keys vals : List Nat) :
    Nat → Nat → PthreadHashTable → List Nat → PthreadHashTable × List Nat
  | 0, _, ht, results => (ht, results)
  | cnt + 1, i, ht, results =>
    let r := insert_one ht (keys[i]?.getD 0) (vals[i]?.getD 0)
    insert_loop keys vals cnt (i + 1) r.1 (results.set i r.2)

/-- The worker `insert_thread_func` on the slice `[start, stop)`. -/
def insert_thread_func (ht : PthreadHashTable) (start stop : Nat) (keys vals : List Nat)
    (results : List Nat) : PthreadHashTable × List Nat :=
  insert_loop keys vals (stop - start) start ht results

/-- The loop of `lookup_thread_func`. -/
def lookup_loop (keys : List Nat) :
    Nat → Nat → PthreadHashTable → List Nat → PthreadHashTable × List Nat
  | 0, _, ht, results => (ht, results)
  | cnt + 1, i, ht, results =>
    let r := lookup_one ht (keys[i]?.getD 0)
    lookup_loop keys cnt (i + 1) r.1 (results.set i r.2)

/-- The worker `lookup_thread_func` on the slice `[start, stop)`. -/
def lookup_thread_func (ht : PthreadHashTable) (start stop : Nat) (keys : List Nat)
    (results : List Nat) : PthreadHashTable × List Nat :=
  lookup_loop keys (stop - start) start ht results

/-- The loop of `delete_thread_func`. -/
def delete_loop (keys : List Nat) :
    Nat → Nat → PthreadHashTable → List Nat → PthreadHashTable × List Nat
  | 0, _, ht, results => (ht, results)
  | cnt + 1, i, ht, results =>
    let r := delete_one ht (keys[i]?.getD 0)
    delete_loop keys cnt (i + 1) r.1 (results.set i r.2)

/-- The worker `delete_thread_func` on the slice `[start, stop)`. -/
def delete_thread_func (ht : PthreadHashTable) (start stop : Nat) (keys : List Nat)
    (results : List Nat) : PthreadHashTable × List Nat :=
  delete_loop keys (stop - start) start ht results

/-- The thread count used by the batch operations: `std::max(1, numThreads)`. -/
def clamp_threads (numThreads : Int) : Nat := (max 1 numThreads).toNat

/-- The slice size of the batch operations: `(n + numThreads - 1) / numThreads`,
computed after the clamp. -/
def chunk_size (n : Nat) (numThreads : Int) : Nat :=
  (n + clamp_threads numThreads - 1) / clamp_threads numThreads

/-- The slice loop shared by the three batch operations: for `t = 0 .. T-1` the
slice is `[t * chunk, min(n, (t+1) * chunk))`, an empty slice is skipped, and the
worker is run on every other slice.  The workers are run one after the other in
the order of `t`.  The source starts one thread per slice and joins them all: when
a single worker is started (one thread, or all indices in one slice) or none, this
is the execution of the batch; when several are started it is only the execution in
which each thread finishes before the next one begins, and the executions of the
batch are the interleavings of the workers (`Interleaving`, `run_steps`). -/
def run_slices (worker : PthreadHashTable → Nat → Nat → List Nat → PthreadHashTable × List Nat)
    (n chunk : Nat) : List Nat → PthreadHashTable → List Nat → PthreadHashTable × List Nat
  | [], ht, results => (ht, results)
  | t :: ts, ht, results =>
    let start := t * chunk
    let stop := min n ((t + 1) * chunk)
    if start ≥ stop then run_slices worker n chunk ts ht results
    else
      let r := worker ht start stop results
      run_slices worker n chunk ts r.1 r.2

/-- The method `batch_insert(keys, vals, n, results, numThreads)`, its workers run
one after the other (see `run_slices`). -/
def batch_insert (ht : PthreadHashTable) (keys vals : List Nat) (n : Nat) (results : List Nat)
    (numThreads : Int) : PthreadHashTable × List Nat :=
  run_slices (fun h s e res => insert_thread_func h s e keys vals res) n
    (chunk_size n numThreads) (List.range (clamp_threads numThreads)) ht results

/-- The method `batch_lookup(keys, n, results, numThreads)`, its workers run one
after the other (see `run_slices`). -/
def batch_lookup (ht : PthreadHashTable) (keys : List Nat) (n : Nat) (results : List Nat)
    (numThreads : Int) : PthreadHashTable × List Nat :=
  run_slices (fun h s e res => lookup_thread_func h s e keys res) n
    (chunk_size n numThreads) (List.range (clamp_threads numThreads)) ht results

/-- The method `batch_delete(keys, n, results, numThreads)`, its workers run one
after the other (see `run_slices`). -/
def batch_delete (ht : PthreadHashTable) (keys : List Nat) (n : Nat) (results : List Nat)
    (numThreads : Int) : PthreadHashTable × List Nat :=
  run_slices (fun h s e res => delete_thread_func h s e keys res) n
    (chunk_size n numThreads) (List.range (clamp_threads numThreads)) ht results

/-! ### Abstract view of a table -/

/-- The value found under `key` in a chain by a front-to-back scan, if any. -/
def find_value : List Node → Nat → Option Nat
  | [], _ => none
  | n :: rest, key => if n.key = key then some n.value else find_value rest key

/-- The chain of the bucket selected by `key`: `buckets[key % size()]`. -/
def bucket_of (ht : PthreadHashTable) (key : Nat) : List Node :=
  ht.buckets[key % ht.size]?.getD []

/-- The table seen as a finite map: the value bound to `key`, if any. -/
def get (ht : PthreadHashTable) (key : Nat) : Option Nat :=
  find_value (bucket_of ht key) key

/-- The key occurs somewhere in the table (in any bucket chain). -/
def present (ht : PthreadHashTable) (key : Nat) : Prop :=
  ∃ n ∈ ht.buckets.flatten, n.key = key

/-- Some entry of the table (in any bucket chain) binds `key` to `val`. -/
def stored (ht : PthreadHashTable) (key val : Nat) : Prop :=
  ∃ n ∈ ht.buckets.flatten, n.key = key ∧ n.value = val

/-- The invariants of the data model that concern the chains: there are exactly
`capacity` buckets, every entry sits in the bucket `key mod capacity`, and no chain
holds a key twice. -/
def WF (ht : PthreadHashTable) : Prop :=
  ht.buckets.length = ht.capacity ∧
  (∀ b < ht.buckets.length, ∀ n ∈ ht.buckets[b]?.getD [], n.key % ht.capacity = b) ∧
  (∀ c ∈ ht.buckets, (c.map Node.key).Nodup)

instance (ht : PthreadHashTable) (key : Nat) : Decidable (present ht key) := by
  unfold present; infer_instance

instance (ht : PthreadHashTable) (key val : Nat) : Decidable (stored ht key val) := by
  unfold stored; infer_instance

instance (ht : PthreadHashTable) : Decidable (WF ht) := by
  unfold WF; infer_instance

/-- The value paired with the first index `j` of the slice `[i, i + cnt)` whose
key `keys[j]` is `k`, if there is one. -/
def first_val (keys vals : List Nat) (k : Nat) : Nat → Nat → Option Nat
  | 0, _ => none
  | cnt + 1, i =>
    if keys[i]?.getD 0 = k then some (vals[i]?.getD 0) else first_val keys vals k cnt (i + 1)

/-- A single call on the table: one index of a batch. -/
inductive Op where
  | insert (key val : Nat)
  | lookup (key : Nat)
  | delete (key : Nat)

/-- The effect of a single call: the table after it and the result it writes. -/
def apply_op (ht : PthreadHashTable) : Op → PthreadHashTable × Nat
  | Op.insert key val => insert_one ht key val
  | Op.lookup key => lookup_one ht key
  | Op.delete key => delete_one ht key

/-- A sequence of single calls, one after the other: the table after the last. -/
def run_ops (ht : PthreadHashTable) (ops : List Op) : PthreadHashTable :=
  ops.foldl (fun h op => (apply_op h op).1) ht

/-- The slices on which the slice loop of a batch operation starts a worker, in the
order of the loop: for each `t` of `ts` the pair `(t * chunk, min(n, (t+1) * chunk))`,
left out when `start >= end`. -/
def slice_list (n chunk : Nat) : List Nat → List (Nat × Nat)
  | [] => []
  | t :: ts =>
    if t * chunk ≥ min n ((t + 1) * chunk) then slice_list n chunk ts
    else (t * chunk, min n ((t + 1) * chunk)) :: slice_list n chunk ts

/-- The slices of a batch of `n` indices run with the thread hint `numThreads`. -/
def batch_slices (n : Nat) (numThreads : Int) : List (Nat × Nat) :=
  slice_list n (chunk_size n numThreads) (List.range (clamp_threads numThreads))

/-- A call of one of the three batch operations, with its arguments. -/
inductive BatchOp where
  | insert (keys vals : List Nat) (n : Nat) (results : List Nat) (numThreads : Int)
  | lookup (keys : List Nat) (n : Nat) (results : List Nat) (numThreads : Int)
  | delete (keys : List Nat) (n : Nat) (results : List Nat) (numThreads : Int)

/-- The table after a batch call. -/
def apply_batch (ht : PthreadHashTable) : BatchOp → PthreadHashTable
  | BatchOp.insert keys vals n results numThreads =>
    (batch_insert ht keys vals n results numThreads).1
  | BatchOp.lookup keys n results numThreads => (batch_lookup ht keys n results numThreads).1
  | BatchOp.delete keys n results numThreads => (batch_delete ht keys n results numThreads).1

/-- A sequence of batch calls, one after the other: the table after the last. -/
def run_batches (ht : PthreadHashTable) (ops : List BatchOp) : PthreadHashTable :=
  ops.foldl apply_batch ht

/-- The key that a single call works on. -/
def Op.key : Op → Nat
  | Op.insert key _ => key
  | Op.lookup key => key
  | Op.delete key => key

/-- The destructor `~PthreadHashTable()`: the addresses passed to `std::free`, in
the order of the calls.  The first loop walks the chain of every bucket and frees
each node of it; the second loop frees every pool slot that is not null; the free
list is cleared without a call of `std::free`. -/
def destroy (ht : PthreadHashTable) : List Nat :=
  ((List.range ht.capacity).map (fun i => (ht.buckets[i]?.getD []).map Node.addr)).flatten ++
    ht.node_pool.filter (fun a => decide (a ≠ 0))

/-- The addresses of the nodes that are in a bucket chain. -/
def chain_addrs (ht : PthreadHashTable) : List Nat :=
  ht.buckets.flatten.map Node.addr

/-- The pool slots that have not been handed out: those from `pool_index` on. -/
def unused_pool (ht : PthreadHashTable) : List Nat :=
  ht.node_pool.drop ht.pool_index

/-- The separation of the nodes of a table: the nodes in the chains, the nodes on
the free list and the unused pool slots are pairwise distinct, none of them is null
and all of them lie below the next address of the allocator, which is not null. -/
def Sep (ht : PthreadHashTable) : Prop :=
  (chain_addrs ht ++ (ht.free_list ++ unused_pool ht)).Nodup ∧
  ht.heap_next ≠ 0 ∧
  ∀ a ∈ chain_addrs ht ++ (ht.free_list ++ unused_pool ht), a ≠ 0 ∧ a < ht.heap_next

instance (ht : PthreadHashTable) : Decidable (Sep ht) := by
  unfold Sep; infer_instance

/-- The per-index critical sections of the workers of one `batch_insert`, taking
effect in the order `sched` of their indices: each section, the scan and the prepend
under the bucket mutex, is one atomic step `insert_one` that writes `results[i]`. -/
def run_schedule (keys vals : List Nat) :
    List Nat → PthreadHashTable → List Nat → PthreadHashTable × List Nat
  | [], ht, results => (ht, results)
  | i :: sched, ht, results =>
    let r := insert_one ht (keys[i]?.getD 0) (vals[i]?.getD 0)
    run_schedule keys vals sched r.1 (results.set i r.2)

/-- The index sequences of the workers of a batch: the indices of each slice, in
increasing order. -/
def worker_indices (n : Nat) (numThreads : Int) : List (List Nat) :=
  (batch_slices n numThreads).map (fun sl => List.range' sl.1 (sl.2 - sl.1))

/-- The list `sched` is an interleaving of the index sequences `ws` of the workers:
at each step some worker that has indices left takes its next index. -/
inductive Interleaving : List (List Nat) → List Nat → Prop
  | done (ws : List (List Nat)) : (∀ w ∈ ws, w = []) → Interleaving ws []
  | step (ws : List (List Nat)) (j i : Nat) (rest sched : List Nat) :
      ws[j]? = some (i :: rest) → Interleaving (ws.set j rest) sched →
      Interleaving ws (i :: sched)

/-- The body of the loop of `insert_thread_func` for the index `i`: the critical
section on the pair `(keys[i], vals[i])`; the number is the byte written to
`results[i]`. -/
def insert_step (keys vals : List Nat) (ht : PthreadHashTable) (i : Nat) :
    PthreadHashTable × Nat :=
  insert_one ht (keys[i]?.getD 0) (vals[i]?.getD 0)

/-- The body of the loop of `lookup_thread_func` for the index `i`; the number is
the value written to `results[i]`. -/
def lookup_step (keys : List Nat) (ht : PthreadHashTable) (i : Nat) : PthreadHashTable × Nat :=
  lookup_one ht (keys[i]?.getD 0)

/-- The body of the loop of `delete_thread_func` for the index `i`; the number is
the byte written to `results[i]`. -/
def delete_step (keys : List Nat) (ht : PthreadHashTable) (i : Nat) : PthreadHashTable × Nat :=
  delete_one ht (keys[i]?.getD 0)

/-- The loop bodies of the workers of one batch taking effect in the order `sched`
of their indices: the body for the index `i`, run under the bucket mutex, is one
atomic step `step` on the table, and its result is written to `results[i]`. -/
def run_steps (step : PthreadHashTable → Nat → PthreadHashTable × Nat) :
    List Nat → PthreadHashTable → List Nat → PthreadHashTable × List Nat
  | [], ht, results => (ht, results)
  | i :: sched, ht, results =>
    let r := step ht i
    run_steps step sched r.1 (results.set i r.2)

end HashTable

/-! ## Queue definitions -/

namespace MSQ

/-- The pair `struct CountedNodePtr`: a node address (`0` is `nullptr`) and the
tag counter, an `unsigned int`. -/
structure CountedNodePtr where
  ptr : Nat
  count : Nat
deriving DecidableEq, Repr

/-- The queue node `struct Node`: the value and the tagged `next` link. -/
structure Node where
  value : Int
  next : CountedNodePtr
deriving DecidableEq, Repr

/-- The state a queue operation works on: the two fields `head` and `tail` of the
`MSQueue` object, the nodes that are allocated (`heap`, address to node) and the
address that the next `new Node` returns (`next_addr`; addresses are handed out in
increasing order and a freed address is not handed out again). -/
structure State where
  head : CountedNodePtr
  tail : CountedNodePtr
  heap : Nat → Option Node
  next_addr : Nat

/-- The tag written by a compare-and-swap: the old tag plus one, as `unsigned int`. -/
def bump (c : Nat) : Nat := (c + 1) % 2 ^ 32

/-- The call `slot.compare_exchange_weak(expected, desired)` on a slot that holds
`cur` when no other thread runs: the new content of the slot and the success flag.
The exchange is taken not to fail when `cur = expected`. -/
def cas (cur expected desired : CountedNodePtr) : CountedNodePtr × Bool :=
  if cur = expected then (desired, true) else (cur, false)

/-- The function `createMSQueue()`: the dummy node, with value 0 and a null `next`
with tag 0, is the first node allocated (address 1); `head` and `tail` refer to it
with tag 0. -/
def createMSQueue : State :=
  { head := { ptr := 1, count := 0 }
    tail := { ptr := 1, count := 0 }
    heap := fun a => if a = 1 then some { value := 0, next := { ptr := 0, count := 0 } } else none
    next_addr := 2 }

/-- The `while (true)` loop of `enq`, for at most `fuel` iterations.  The result
is the state at the `break` together with the local `tail` at that point; `none`
when the fuel runs out or a pointer that refers to no allocated node is followed. -/
def enq_loop (newNode : Nat) : Nat → State → Option (State × CountedNodePtr)
  | 0, _ => none
  | fuel + 1, s =>
    let tail := s.tail
    match s.heap tail.ptr with
    | none => none
    | some tnode =>
      let next := tnode.next
      if tail = s.tail then
        if next.ptr = 0 then
          let newNext : CountedNodePtr := { ptr := newNode, count := bump next.count }
          let r := cas tnode.next next newNext
          let linked : Node := { tnode with next := r.1 }
          if r.2 then
            some ({ s with heap := Function.update s.heap tail.ptr (some linked) }, tail)
          else enq_loop newNode fuel s
        else
          let newTail : CountedNodePtr := { ptr := next.ptr, count := bump tail.count }
          let r := cas s.tail tail newTail
          enq_loop newNode fuel { s with tail := r.1 }
      else enq_loop newNode fuel s

/-- The first statement of `enq`, `new Node(value)`: the node gets the address
`next_addr`, the given value and a null `next` with tag 0. -/
def new_node (s : State) (value : Int) : State :=
  let fresh : Node := { value := value, next := { ptr := 0, count := 0 } }
  { s with heap := Function.update s.heap s.next_addr (some fresh), next_addr := s.next_addr + 1 }

/-- The statements of `enq` after the loop: one compare-and-swap that tries to swing
`tail` from the local `tail` of the loop to the new node, then `return true`. -/
def enq_finish (newNode : Nat) (r : State × CountedNodePtr) : State × Bool :=
  let newTail : CountedNodePtr := { ptr := newNode, count := bump r.2.count }
  ({ r.1 with tail := (cas r.1.tail r.2 newTail).1 }, true)

/-- The function `enq(q, value)`: allocate the node, run the loop, then try once to
swing `tail` to the new node. -/
def enq (fuel : Nat) (s : State) (value : Int) : Option (State × Bool) :=
  (enq_loop s.next_addr fuel (new_node s value)).map (enq_finish s.next_addr)

/-- The function `deq(q)`, its loop run for at most `fuel` iterations: the state
after the call and the value returned.  `none` when the fuel runs out or a pointer
that refers to no allocated node is followed. -/
def deq : Nat → State → Option (State × Int)
  | 0, _ => none
  | fuel + 1, s =>
    let head := s.head
    let tail := s.tail
    match s.heap head.ptr with
    | none => none
    | some hnode =>
      let next := hnode.next
      if head = s.head then
        if head.ptr = tail.ptr then
          if next.ptr = 0 then some (s, -1)
          else
            let newTail : CountedNodePtr := { ptr := next.ptr, count := bump tail.count }
            let r := cas s.tail tail newTail
            deq fuel { s with tail := r.1 }
        else
          match s.heap next.ptr with
          | none => none
          | some nnode =>
            let value := nnode.value
            let newHead : CountedNodePtr := { ptr := next.ptr, count := bump head.count }
            let r := cas s.head head newHead
            if r.2 then
              some ({ s with head := r.1, heap := Function.update s.heap head.ptr none }, value)
            else deq fuel s
      else deq fuel s

/-- A run of `enq` calls, one per value, in order. -/
def enq_all (fuel : Nat) : State → List Int → Option State
  | s, [] => some s
  | s, v :: vs =>
    match enq fuel s v with
    | none => none
    | some (s1, _) => enq_all fuel s1 vs

/-- A run of `n` calls of `deq`: the final state and the values returned, in order. -/
def deq_n (fuel : Nat) : State → Nat → Option (State × List Int)
  | s, 0 => some (s, [])
  | s, n + 1 =>
    match deq fuel s with
    | none => none
    | some (s1, v) =>
      match deq_n fuel s1 n with
      | none => none
      | some (s2, vs) => some (s2, v :: vs)

/-- The FIFO list of the specification: `enq` appends at the back and succeeds. -/
def Fifo.enq (l : List Int) (v : Int) : List Int × Bool := (l ++ [v], true)

/-- The FIFO list of the specification: `deq` removes and returns the oldest value,
or returns -1 and leaves the list as it is when there is none. -/
def Fifo.deq : List Int → List Int × Int
  | [] => ([], -1)
  | x :: xs => (xs, x)

/-- The nodes `cells` (address and content) are exactly those visited from the
pointer `p` by following `next` up to the null pointer. -/
def Linked (heap : Nat → Option Node) : Nat → List (Nat × Node) → Prop
  | p, [] => p = 0
  | p, c :: rest => p = c.1 ∧ c.1 ≠ 0 ∧ heap c.1 = some c.2 ∧ Linked heap c.2.next.ptr rest

/-- The state represents the FIFO list `vs`: the nodes linked from `head` are a
dummy followed by nodes that carry `vs` in order, they are distinct, allocated
below `next_addr`, and `tail` refers to the last node or to the one before it. -/
def Represents (s : State) (vs : List Int) : Prop :=
  ∃ (front : List (Nat × Node)) (t : Nat × Node) (back : List (Nat × Node)),
    back.length ≤ 1 ∧
    Linked s.heap s.head.ptr (front ++ t :: back) ∧
    ((front ++ t :: back).map Prod.fst).Nodup ∧
    (∀ c ∈ front ++ t :: back, c.1 < s.next_addr) ∧
    s.tail.ptr = t.1 ∧
    ((front ++ t :: back).tail).map (fun c => c.2.value) = vs

/-- The walk of `countQueue`, `while (node != nullptr) { count++; node = node->next.ptr; }`,
for at most `fuel` evaluations of the loop condition.  The counter is an `int` of 32
bits: `count++` at the largest value `2^31 - 1` is a signed overflow, which is
undefined behaviour, and the walk then has no result (`none`), as when the fuel runs
out or a pointer that refers to no allocated node is followed. -/
def count_loop (heap : Nat → Option Node) : Nat → Nat → Int → Option Int
  | 0, _, _ => none
  | fuel + 1, node, count =>
    if node = 0 then some count
    else if count = 2 ^ 31 - 1 then none
    else
      match heap node with
      | none => none
      | some n => count_loop heap fuel n.next.ptr (count + 1)

/-- The function `countQueue(q)`: the node that `head` refers to is stepped over
when `head.ptr` is not null, then the walk counts the nodes up to the null link.
The function only loads; the state it returns is the state it was given. -/
def countQueue (fuel : Nat) (s : State) : Option (State × Int) :=
  let curr := s.head
  let node := curr.ptr
  let first : Option Nat :=
    if node ≠ 0 then
      match s.heap node with
      | none => none
      | some n => some n.next.ptr
    else some node
  match first with
  | none => none
  | some node1 =>
    match count_loop s.heap fuel node1 0 with
    | none => none
    | some count => some (s, count)

/-- A call of a sequential history of the queue. -/
inductive Op where
  | enq (v : Int)
  | deq
deriving DecidableEq

/-- The values enqueued by a history, in the order of the calls. -/
def enqueued : List Op → List Int
  | [] => []
  | Op.enq v :: ops => v :: enqueued ops
  | Op.deq :: ops => enqueued ops

/-- The test by which `deq` tells that an element is there: the `next` link of the
node that `head` refers to is not null. -/
def has_element (s : State) : Bool :=
  match s.heap s.head.ptr with
  | none => false
  | some n => decide (n.next.ptr ≠ 0)

/-- A sequential history run from the state `s`, every call with at most `fuel` loop
iterations: the final state, the values returned by the `deq` calls in order, and
the number of `deq` calls made while an element was there. -/
def run (fuel : Nat) : State → List Op → Option (State × List Int × Nat)
  | s, [] => some (s, [], 0)
  | s, Op.enq v :: ops =>
    match enq fuel s v with
    | none => none
    | some (s1, _) => run fuel s1 ops
  | s, Op.deq :: ops =>
    match deq fuel s with
    | none => none
    | some (s1, r) =>
      match run fuel s1 ops with
      | none => none
      | some (s2, rs, m) => some (s2, r :: rs, if has_element s then m + 1 else m)

/-- The values returned by the `deq` calls of a history run on a new queue. -/
def deq_results (fuel : Nat) (ops : List Op) : Option (List Int) :=
  (run fuel createMSQueue ops).map (fun r => r.2.1)

/-- The results of `deq` that are not the sentinel -1. -/
def not_sentinel (rs : List Int) : List Int := rs.filter (fun r => decide (r ≠ -1))

/-- The loop `while (deq(q) != -1) {}` of `deleteMSQueue`, for at most `n` calls
of `deq`, each with at most `fuel` loop iterations. -/
def drain (fuel : Nat) : Nat → State → Option State
  | 0, _ => none
  | n + 1, s =>
    match deq fuel s with
    | none => none
    | some (s1, r) => if r ≠ -1 then drain fuel n s1 else some s1

/-- The function `deleteMSQueue(q)`: the drain loop, then `delete head.ptr` when
`head.ptr` is not null.  `none` when the fuel runs out or when the node to delete
is not allocated.  The release of the `MSQueue` object itself is left out. -/
def deleteMSQueue (fuel : Nat) (s : State) : Option State :=
  match drain fuel fuel s with
  | none => none
  | some s1 =>
    let head := s1.head
    if head.ptr ≠ 0 then
      match s1.heap head.ptr with
      | none => none
      | some _ => some { s1 with heap := Function.update s1.heap head.ptr none }
    else some s1

/-- At most `n` nodes are allocated: all allocated addresses are in a list of at
most `n` addresses. -/
def AtMost (s : State) (n : Nat) : Prop :=
  ∃ live : List Nat, live.length ≤ n ∧ ∀ a, s.heap a ≠ none → a ∈ live

/-- The points of `deq` at which a thread is about to make its next access to
shared memory, named after the access; `returned` is the point after `return`. -/
inductive DeqPc where
  | load_head
  | load_tail
  | load_next
  | check_head
  | cas_tail
  | read_value
  | cas_head
  | free_head
  | returned
deriving DecidableEq, Repr

/-- The local variables of one call of `deq`, with the point the call is at and the
value it returns (read when the point is `returned`). -/
structure DeqLocal where
  pc : DeqPc
  head : CountedNodePtr
  tail : CountedNodePtr
  next : CountedNodePtr
  value : Int
  result : Int
deriving DecidableEq, Repr

/-- A call of `deq` that has not made an access yet. -/
def deq_start : DeqLocal :=
  { pc := DeqPc.load_head, head := { ptr := 0, count := 0 }, tail := { ptr := 0, count := 0 },
    next := { ptr := 0, count := 0 }, value := 0, result := 0 }

/-- One access to shared memory by a call of `deq`, with the local computation
that follows it up to the next access: the loads of `head`, `tail` and
`head.ptr->next`, the second load of `head` with the branches on the locals, the
compare-and-swap on `tail`, the read of `next.ptr->value`, the compare-and-swap on
`head` (a failed exchange stores the current content in the local) and
`delete head.ptr`.  `none` when the access is to a node that is not allocated. -/
def deq_step (s : State) (l : DeqLocal) : Option (State × DeqLocal) :=
  match l.pc with
  | DeqPc.load_head => some (s, { l with pc := DeqPc.load_tail, head := s.head })
  | DeqPc.load_tail => some (s, { l with pc := DeqPc.load_next, tail := s.tail })
  | DeqPc.load_next =>
    match s.heap l.head.ptr with
    | none => none
    | some hnode => some (s, { l with pc := DeqPc.check_head, next := hnode.next })
  | DeqPc.check_head =>
    if l.head = s.head then
      if l.head.ptr = l.tail.ptr then
        if l.next.ptr = 0 then some (s, { l with pc := DeqPc.returned, result := -1 })
        else some (s, { l with pc := DeqPc.cas_tail })
      else some (s, { l with pc := DeqPc.read_value })
    else some (s, { l with pc := DeqPc.load_head })
  | DeqPc.cas_tail =>
    let newTail : CountedNodePtr := { ptr := l.next.ptr, count := bump l.tail.count }
    let r := cas s.tail l.tail newTail
    some ({ s with tail := r.1 },
      { l with pc := DeqPc.load_head, tail := if r.2 then l.tail else s.tail })
  | DeqPc.read_value =>
    match s.heap l.next.ptr with
    | none => none
    | some nnode => some (s, { l with pc := DeqPc.cas_head, value := nnode.value })
  | DeqPc.cas_head =>
    let newHead : CountedNodePtr := { ptr := l.next.ptr, count := bump l.head.count }
    let r := cas s.head l.head newHead
    if r.2 then some ({ s with head := r.1 }, { l with pc := DeqPc.free_head })
    else some (s, { l with pc := DeqPc.load_head, head := s.head })
  | DeqPc.free_head =>
    match s.heap l.head.ptr with
    | none => none
    | some _ =>
      some ({ s with heap := Function.update s.heap l.head.ptr none },
        { l with pc := DeqPc.returned, result := l.value })
  | DeqPc.returned => some (s, l)

/-- Calls of `deq` by several threads, interleaved: each entry of the schedule is
the number of the thread that makes its next access. -/
def run_deqs : List Nat → State → List DeqLocal → Option (State × List DeqLocal)
  | [], s, ls => some (s, ls)
  | j :: sched, s, ls =>
    match ls[j]? with
    | none => run_deqs sched s ls
    | some l =>
      match deq_step s l with
      | none => none
      | some (s1, l1) => run_deqs sched s1 (ls.set j l1)

/-- Two calls of `deq` by two threads on the queue that holds the one value 10
(a new queue after `enq(q, 10)`), interleaved by the schedule. -/
def two_deqs (sched : List Nat) : Option (State × List DeqLocal) :=
  (enq 2 createMSQueue 10).bind (fun r => run_deqs sched r.1 [deq_start, deq_start])

/-- The state represents the FIFO list `vs` and `tail` does not lag: it refers to
the last of the nodes linked from `head`. -/
def Settled (s : State) (vs : List Int) : Prop :=
  ∃ (front : List (Nat × Node)) (t : Nat × Node),
    Linked s.heap s.head.ptr (front ++ [t]) ∧
    ((front ++ [t]).map Prod.fst).Nodup ∧
    (∀ c ∈ front ++ [t], c.1 < s.next_addr) ∧
    s.tail.ptr = t.1 ∧
    ((front ++ [t]).tail).map (fun c => c.2.value) = vs

/-- The state in which a call `enq(v)` on a new queue has left its loop, with its
node linked after the dummy, and has not yet made its exchange on `tail`. -/
def lagging_state (v : Int) : State :=
  match enq_loop 2 1 (new_node createMSQueue v) with
  | some r => r.1
  | none => createMSQueue

end MSQ

/-! ## Bloom filter definitions -/

namespace Bloom

/-- The constant `BloomFilter::SIZE = 1 << 24`. -/
def SIZE : Nat := 1 <<< 24

/-- The constant `BloomFilter::HASH_COUNT`. -/
def HASH_COUNT : Nat := 3

/-- The constant `BloomFilter::BITS_PER_WORD`. -/
def BITS_PER_WORD : Nat := 64

/-- The constant `BloomFilter::WORD_COUNT`. -/
def WORD_COUNT : Nat := (SIZE + BITS_PER_WORD - 1) / BITS_PER_WORD

/-- The member `seeds`. -/
def seeds : List Nat := [0x1234ABCD, 0xF0F0F0F0, 0xAAAA5555]

/-- The state of a `BloomFilter`: the content of `bitArray`, word index to 64-bit
word.  Only the indices below `WORD_COUNT` exist in the program. -/
structure BloomFilter where
  bitArray : Nat → Nat

/-- The constructor `BloomFilter()`: every word is 0. -/
def BloomFilter.new : BloomFilter := { bitArray := fun _ => 0 }

/-- The method `hash(value, seed)`; the two multiplications wrap at 32 bits. -/
def hash (value seed : Nat) : Nat :=
  let h0 := seed
  let h1 := h0 ^^^ value
  let h2 := (h1 * 0x5bd1e995) % 2 ^ 32
  let h3 := h2 ^^^ (h2 >>> 15)
  let h4 := (h3 * 0x27d4eb2d) % 2 ^ 32
  let h5 := h4 ^^^ (h4 >>> 15)
  h5 % SIZE

/-- The method `getBitPosition(bitIndex)`: word index and bit offset. -/
def getBitPosition (bitIndex : Nat) : Nat × Nat :=
  (bitIndex / BITS_PER_WORD, bitIndex % BITS_PER_WORD)

/-- The conversion `static_cast<uint32_t>(v)` of an `int`. -/
def to_uint32 (v : Int) : Nat := (v % 2 ^ 32).toNat

/-- The body of the loop of `add` for the bit index `pos`: the word is loaded, the
mask `1ULL << bitOffset` is or-ed in and the compare-and-swap stores the new word
(it succeeds at the first attempt when no other thread writes the word).  The
offset is below 64, so the shift does not overflow the 64-bit word. -/
def set_bit (f : BloomFilter) (pos : Nat) : BloomFilter :=
  let wordIdx := (getBitPosition pos).1
  let bitOffset := (getBitPosition pos).2
  let mask := 1 <<< bitOffset
  let oldWord := f.bitArray wordIdx
  let newWord := oldWord ||| mask
  { bitArray := fun i => if i = wordIdx then newWord else f.bitArray i }

/-- The loop `for (i = 0; i < HASH_COUNT; ++i)` of `add`, from index `i` on, with
`cnt` iterations left. -/
def add_loop (value : Nat) : Nat → Nat → BloomFilter → BloomFilter
  | 0, _, f => f
  | cnt + 1, i, f => add_loop value cnt (i + 1) (set_bit f (hash value (seeds[i]?.getD 0)))

/-- The method `add(v)`. -/
def add (f : BloomFilter) (v : Int) : BloomFilter :=
  add_loop (to_uint32 v) HASH_COUNT 0 f

/-- The test `word & mask` of `contains` for the bit index `pos`. -/
def test_bit (f : BloomFilter) (pos : Nat) : Bool :=
  let wordIdx := (getBitPosition pos).1
  let bitOffset := (getBitPosition pos).2
  let word := f.bitArray wordIdx
  let mask := 1 <<< bitOffset
  word &&& mask ≠ 0

/-- The loop of `contains`, from index `i` on, with `cnt` iterations left: `false`
at the first clear bit, `true` when the loop runs to its end. -/
def contains_loop (f : BloomFilter) (value : Nat) : Nat → Nat → Bool
  | 0, _ => true
  | cnt + 1, i =>
    if ¬ test_bit f (hash value (seeds[i]?.getD 0)) then false
    else contains_loop f value cnt (i + 1)

/-- The method `contains(v)`, a `const` method: it returns the boolean only. -/
def contains (f : BloomFilter) (v : Int) : Bool :=
  contains_loop f (to_uint32 v) HASH_COUNT 0

/-- A call on a filter. -/
inductive Op where
  | add (v : Int)
  | contains (v : Int)

/-- The effect of a call: the filter after the call and, for `contains`, the
boolean returned. -/
def run_op (f : BloomFilter) : Op → BloomFilter × Option Bool
  | Op.add v => (add f v, none)
  | Op.contains v => (f, some (contains f v))

/-- The bit of the array at bit index `pos` is set. -/
def bit_set (f : BloomFilter) (pos : Nat) : Prop :=
  (f.bitArray (pos / 64)).testBit (pos % 64) = true

instance (f : BloomFilter) (pos : Nat) : Decidable (bit_set f pos) := by
  unfold bit_set; infer_instance

/-- The word that `hash` has computed when it reaches its `return`: the variable
`h` after the last xor-shift, before the reduction modulo `SIZE`. -/
def mix (value seed : Nat) : Nat :=
  let h0 := seed
  let h1 := h0 ^^^ value
  let h2 := (h1 * 0x5bd1e995) % 2 ^ 32
  let h3 := h2 ^^^ (h2 >>> 15)
  let h4 := (h3 * 0x27d4eb2d) % 2 ^ 32
  h4 ^^^ (h4 >>> 15)

/-- Reduction of a number to a 32-bit unsigned word. -/
def wrap32 (x : Nat) : Nat := x % 2 ^ 32

/-- The hash formula as the specification writes it, with every step evaluated in
wrapping 32-bit unsigned arithmetic and the result reduced modulo `2^24`. -/
def hash_formula (value seed : Nat) : Nat :=
  let h0 := wrap32 seed
  let h1 := wrap32 (h0 ^^^ value)
  let h2 := wrap32 (h1 * 0x5bd1e995)
  let h3 := wrap32 (h2 ^^^ (h2 >>> 15))
  let h4 := wrap32 (h3 * 0x27d4eb2d)
  let h5 := wrap32 (h4 ^^^ (h4 >>> 15))
  h5 % 2 ^ 24

/-- A sequence of calls, one after the other: the filter after the last call. -/
def run_ops (f : BloomFilter) (ops : List Op) : BloomFilter :=
  ops.foldl (fun g op => (run_op g op).1) f

end Bloom

/-! # Theorems -/

/-! ## Hash table: proofs -/

namespace HashTable

/-! ### Chains -/

@[simp] theorem size_eq (ht : PthreadHashTable) : ht.size = ht.capacity := rfl

theorem nodup_keys_cons {a : Node} {c : List Node} :
    ((a :: c).map Node.key).Nodup ↔ (∀ n ∈ c, n.key ≠ a.key) ∧ (c.map Node.key).Nodup := by
  rw [List.map_cons, List.nodup_cons]
  constructor
  · rintro ⟨h1, h2⟩
    exact ⟨fun n hn e => h1 (List.mem_map.mpr ⟨n, hn, e⟩), h2⟩
  · rintro ⟨h1, h2⟩
    refine ⟨fun hm => ?_, h2⟩
    obtain ⟨n, hn, e⟩ := List.mem_map.mp hm
    exact h1 n hn e

theorem find_value_eq_none {c : List Node} {k : Nat} :
    find_value c k = none ↔ ∀ n ∈ c, n.key ≠ k := by
  induction c with
  | nil => simp [find_value]
  | cons a c ih =>
    by_cases h : a.key = k
    · simp [find_value, h]
    · simp [find_value, h, ih]

theorem find_value_eq_some {c : List Node} {k v : Nat} (hnd : (c.map Node.key).Nodup) :
    find_value c k = some v ↔ ∃ n ∈ c, n.key = k ∧ n.value = v := by
  induction c with
  | nil => simp [find_value]
  | cons a c ih =>
    have hnd1 : (c.map Node.key).Nodup := (nodup_keys_cons.mp hnd).2
    have hnot : ∀ n ∈ c, n.key ≠ a.key := (nodup_keys_cons.mp hnd).1
    by_cases h : a.key = k
    · simp only [find_value, h, if_true, Option.some.injEq, List.mem_cons]
      constructor
      · intro hv
        exact ⟨a, Or.inl rfl, h, hv⟩
      · rintro ⟨n, hn | hn, hk, hv⟩
        · subst hn; exact hv
        · exact absurd (hk.trans h.symm) (hnot n hn)
    · simp only [find_value, h, if_false, ih hnd1, List.mem_cons]
      constructor
      · rintro ⟨n, hn, hk, hv⟩
        exact ⟨n, Or.inr hn, hk, hv⟩
      · rintro ⟨n, hn | hn, hk, hv⟩
        · subst hn; exact absurd hk h
        · exact ⟨n, hn, hk, hv⟩

theorem chain_exists_eq (c : List Node) (k : Nat) :
    chain_exists c k = (find_value c k).isSome := by
  induction c with
  | nil => rfl
  | cons a c ih =>
    by_cases h : a.key = k
    · simp [chain_exists, find_value, h]
    · simp [chain_exists, find_value, h, ih]

theorem chain_lookup_eq (c : List Node) (k : Nat) :
    chain_lookup c k = (find_value c k).getD 0 := by
  induction c with
  | nil => rfl
  | cons a c ih =>
    by_cases h : a.key = k
    · simp [chain_lookup, find_value, h]
    · simp [chain_lookup, find_value, h, ih]

theorem chain_unlink_eq_none {c : List Node} {k : Nat} :
    chain_unlink c k = none ↔ find_value c k = none := by
  induction c with
  | nil => simp [chain_unlink, find_value]
  | cons a c ih =>
    by_cases h : a.key = k
    · simp [chain_unlink, find_value, h]
    · simp only [chain_unlink, find_value, h, if_false]
      rw [← ih]
      cases chain_unlink c k with
      | none => simp
      | some p => simp

/-- What a successful unlink does to a chain. -/
theorem chain_unlink_some {c : List Node} {k : Nat} {v : Node} {r : List Node}
    (h : chain_unlink c k = some (v, r)) :
    v.key = k ∧ v ∈ c ∧ (∀ n ∈ r, n ∈ c) ∧
      (∀ k1, k1 ≠ k → find_value r k1 = find_value c k1) ∧
      ((c.map Node.key).Nodup → (r.map Node.key).Nodup ∧ find_value r k = none) := by
  induction c generalizing v r with
  | nil => simp [chain_unlink] at h
  | cons a c ih =>
    by_cases hk : a.key = k
    · simp only [chain_unlink, hk, if_true, Option.some.injEq, Prod.mk.injEq] at h
      obtain ⟨rfl, rfl⟩ := h
      refine ⟨hk, List.mem_cons_self _ _, fun n hn => List.mem_cons_of_mem _ hn, ?_, ?_⟩
      · intro k1 hk1
        have : a.key ≠ k1 := fun e => hk1 (e.symm.trans hk)
        simp [find_value, this]
      · intro hnd
        have hnd1 := nodup_keys_cons.mp hnd
        refine ⟨hnd1.2, find_value_eq_none.mpr ?_⟩
        intro n hn e
        exact hnd1.1 n hn (e.trans hk.symm)
    · simp only [chain_unlink, hk, if_false] at h
      cases hu : chain_unlink c k with
      | none => simp [hu] at h
      | some p =>
        obtain ⟨v1, r1⟩ := p
        simp only [hu, Option.some.injEq, Prod.mk.injEq] at h
        obtain ⟨rfl, rfl⟩ := h
        obtain ⟨h1, h2, h3, h4, h5⟩ := ih hu
        refine ⟨h1, List.mem_cons_of_mem _ h2, ?_, ?_, ?_⟩
        · intro n hn
          rcases List.mem_cons.mp hn with e | e
          · exact e ▸ List.mem_cons_self _ _
          · exact List.mem_cons_of_mem _ (h3 n e)
        · intro k1 hk1
          by_cases e : a.key = k1
          · simp [find_value, e]
          · simp [find_value, e, h4 k1 hk1]
        · intro hnd
          have hnd1 := nodup_keys_cons.mp hnd
          obtain ⟨h6, h7⟩ := h5 hnd1.2
          refine ⟨nodup_keys_cons.mpr ⟨fun n hn => hnd1.1 n (h3 n hn), h6⟩, ?_⟩
          simp [find_value, hk, h7]

/-! ### Tables -/

theorem getD_set_chain (l : List (List Node)) (i j : Nat) (c : List Node) (hi : i < l.length) :
    (l.set i c)[j]?.getD [] = if i = j then c else l[j]?.getD [] := by
  simp only [List.getElem?_set]
  by_cases h : i = j
  · subst h; simp [hi]
  · simp [h]

theorem getD_of_length_le (l : List (List Node)) (j : Nat) (h : l.length ≤ j) :
    l[j]?.getD [] = [] := by
  simp [List.getElem?_eq_none h]

theorem getD_mem (l : List (List Node)) (j : Nat) (h : j < l.length) : l[j]?.getD [] ∈ l := by
  rw [List.getElem?_eq_getElem h]
  exact List.getElem_mem h

theorem allocate_node_buckets (ht : PthreadHashTable) (k v : Nat) :
    (allocate_node ht k v).1.buckets = ht.buckets := by
  unfold allocate_node
  simp only
  split_ifs <;> rfl

theorem allocate_node_capacity (ht : PthreadHashTable) (k v : Nat) :
    (allocate_node ht k v).1.capacity = ht.capacity := by
  unfold allocate_node
  simp only
  split_ifs <;> rfl

@[simp] theorem cell_addr (n : FreshNode) : n.cell.addr = n.addr := rfl

@[simp] theorem cell_key (n : FreshNode) : n.cell.key = n.key := rfl

@[simp] theorem cell_value (n : FreshNode) : n.cell.value = n.value := rfl

theorem allocate_node_key (ht : PthreadHashTable) (k v : Nat) :
    (allocate_node ht k v).2.key = k := by
  unfold allocate_node
  simp only
  split_ifs <;> rfl

theorem allocate_node_value (ht : PthreadHashTable) (k v : Nat) :
    (allocate_node ht k v).2.value = v := by
  unfold allocate_node
  simp only
  split_ifs <;> rfl

theorem free_node_buckets (ht : PthreadHashTable) (a : Nat) :
    (free_node ht a).buckets = ht.buckets := by
  unfold free_node
  split_ifs <;> rfl

theorem free_node_capacity (ht : PthreadHashTable) (a : Nat) :
    (free_node ht a).capacity = ht.capacity := by
  unfold free_node
  split_ifs <;> rfl

theorem WF.place {ht : PthreadHashTable} (hwf : WF ht) (b : Nat) (n : Node)
    (hn : n ∈ ht.buckets[b]?.getD []) : n.key % ht.capacity = b := by
  by_cases hb : b < ht.buckets.length
  · exact hwf.2.1 b hb n hn
  · rw [getD_of_length_le _ _ (not_lt.mp hb)] at hn
    simp at hn

theorem WF.nodup {ht : PthreadHashTable} (hwf : WF ht) (b : Nat) :
    ((ht.buckets[b]?.getD []).map Node.key).Nodup := by
  by_cases hb : b < ht.buckets.length
  · exact hwf.2.2 _ (getD_mem _ _ hb)
  · rw [getD_of_length_le _ _ (not_lt.mp hb)]
    simp

theorem bucket_index_lt {ht : PthreadHashTable} (hC : 1 ≤ ht.capacity) (hwf : WF ht)
    (k : Nat) : k % ht.capacity < ht.buckets.length := by
  rw [hwf.1]
  exact Nat.mod_lt _ hC

theorem mem_flatten_iff {ht : PthreadHashTable} (hC : 1 ≤ ht.capacity) (hwf : WF ht)
    (n : Node) : n ∈ ht.buckets.flatten ↔ n ∈ bucket_of ht n.key := by
  constructor
  · intro h
    obtain ⟨c, hc, hn⟩ := List.mem_flatten.mp h
    obtain ⟨b, hb, rfl⟩ := List.mem_iff_getElem.mp hc
    have hget : ht.buckets[b]?.getD [] = ht.buckets[b] := by
      rw [List.getElem?_eq_getElem hb]; rfl
    have := hwf.2.1 b hb n (hget ▸ hn)
    simp only [bucket_of, size_eq]
    rw [this, hget]
    exact hn
  · intro h
    exact List.mem_flatten.mpr ⟨_, getD_mem _ _ (bucket_index_lt hC hwf n.key), h⟩

theorem present_iff_get {ht : PthreadHashTable} (hC : 1 ≤ ht.capacity) (hwf : WF ht)
    (k : Nat) : present ht k ↔ get ht k ≠ none := by
  unfold present get
  rw [Ne, find_value_eq_none]
  constructor
  · rintro ⟨n, hn, rfl⟩ h
    exact h n ((mem_flatten_iff hC hwf n).mp hn) rfl
  · intro h
    push_neg at h
    obtain ⟨n, hn, rfl⟩ := h
    exact ⟨n, (mem_flatten_iff hC hwf n).mpr hn, rfl⟩

theorem stored_iff_get {ht : PthreadHashTable} (hC : 1 ≤ ht.capacity) (hwf : WF ht)
    (k v : Nat) : stored ht k v ↔ get ht k = some v := by
  unfold stored get bucket_of
  rw [find_value_eq_some (hwf.nodup _)]
  constructor
  · rintro ⟨n, hn, rfl, hv⟩
    exact ⟨n, (mem_flatten_iff hC hwf n).mp hn, rfl, hv⟩
  · rintro ⟨n, hn, rfl, hv⟩
    exact ⟨n, (mem_flatten_iff hC hwf n).mpr hn, rfl, hv⟩

/-- A newly constructed table satisfies the chain invariants. -/
theorem create_WF (cap : Nat) : WF (create cap) := by
  refine ⟨by simp [create], ?_, ?_⟩
  · intro b hb n hn
    have hb1 : b < cap := by simpa [create] using hb
    simp [create, List.getElem?_replicate, hb1] at hn
  · intro c hc
    have : c = [] := by
      simp only [create] at hc
      exact List.eq_of_mem_replicate hc
    rw [this]
    exact List.nodup_nil

/-! ### Lookup -/

theorem lookup_one_result (ht : PthreadHashTable) (k : Nat) :
    (lookup_one ht k).2 = (get ht k).getD 0 := by
  simp [lookup_one, get, bucket_of, chain_lookup_eq]

theorem lookup_one_table (ht : PthreadHashTable) (k : Nat) : (lookup_one ht k).1 = ht := rfl

/-! ### Insert -/

theorem insert_one_of_some {ht : PthreadHashTable} {k : Nat} (v : Nat) (h : get ht k ≠ none) :
    insert_one ht k v = (ht, 0) := by
  have : chain_exists (ht.buckets[k % ht.capacity]?.getD []) k = true := by
    rw [chain_exists_eq]
    exact Option.isSome_iff_ne_none.mpr h
  simp [insert_one, this]

theorem insert_one_of_none {ht : PthreadHashTable} {k : Nat} (v : Nat) (h : get ht k = none) :
    insert_one ht k v =
      ({ (allocate_node ht k v).1 with
          buckets := ht.buckets.set (k % ht.capacity)
            ((allocate_node ht k v).2.cell :: bucket_of ht k) },
        1) := by
  have : chain_exists (ht.buckets[k % ht.capacity]?.getD []) k = false := by
    rw [chain_exists_eq]
    simp only [get, bucket_of, size_eq] at h
    simp [h]
  simp [insert_one, this, allocate_node_buckets, bucket_of]

theorem insert_one_result (ht : PthreadHashTable) (k v : Nat) :
    (insert_one ht k v).2 = if get ht k = none then 1 else 0 := by
  by_cases h : get ht k = none
  · rw [insert_one_of_none v h]; simp [h]
  · rw [insert_one_of_some v h]; simp [h]

theorem insert_one_capacity (ht : PthreadHashTable) (k v : Nat) :
    (insert_one ht k v).1.capacity = ht.capacity := by
  by_cases h : get ht k = none
  · rw [insert_one_of_none v h]; exact allocate_node_capacity ht k v
  · rw [insert_one_of_some v h]

theorem insert_one_get {ht : PthreadHashTable} (hC : 1 ≤ ht.capacity) (hwf : WF ht)
    (k v k1 : Nat) :
    get (insert_one ht k v).1 k1 = if get ht k = none ∧ k1 = k then some v else get ht k1 := by
  by_cases h : get ht k = none
  · rw [insert_one_of_none v h]
    have hlt := bucket_index_lt hC hwf k
    simp only [get, bucket_of, size_eq, allocate_node_capacity] at h ⊢
    rw [getD_set_chain _ _ _ _ hlt]
    by_cases hk : k1 = k
    · subst hk
      simp [find_value, allocate_node_key, allocate_node_value, h]
    · by_cases hb : k % ht.capacity = k1 % ht.capacity
      · have hne : (allocate_node ht k v).2.key ≠ k1 := by
          rw [allocate_node_key]; exact fun e => hk e.symm
        simp [hb, find_value, hne, hk, size_eq]
      · simp [hb, hk, size_eq]
  · rw [insert_one_of_some v h]
    simp [h]

theorem insert_one_WF {ht : PthreadHashTable} (hC : 1 ≤ ht.capacity) (hwf : WF ht)
    (k v : Nat) : WF (insert_one ht k v).1 := by
  by_cases h : get ht k = none
  · rw [insert_one_of_none v h]
    have hlt := bucket_index_lt hC hwf k
    refine ⟨?_, ?_, ?_⟩
    · simp only [List.length_set, allocate_node_capacity]
      exact hwf.1
    · intro b hb n hn
      simp only [List.length_set, allocate_node_capacity] at hb hn ⊢
      rw [getD_set_chain _ _ _ _ hlt] at hn
      by_cases e : k % ht.capacity = b
      · rw [if_pos e] at hn
        rcases List.mem_cons.mp hn with hn | hn
        · rw [hn, cell_key, allocate_node_key]; exact e
        · exact hwf.place _ n (e ▸ hn)
      · rw [if_neg e] at hn
        exact hwf.place b n hn
    · intro c hc
      rcases List.mem_or_eq_of_mem_set hc with hc | hc
      · exact hwf.2.2 c hc
      · rw [hc]
        refine nodup_keys_cons.mpr ⟨?_, hwf.nodup _⟩
        rw [cell_key, allocate_node_key]
        exact find_value_eq_none.mp h
  · rw [insert_one_of_some v h]
    exact hwf

/-! ### Delete -/

theorem delete_one_of_none {ht : PthreadHashTable} {k : Nat} (h : get ht k = none) :
    delete_one ht k = (ht, 0) := by
  have : chain_unlink (ht.buckets[k % ht.capacity]?.getD []) k = none :=
    chain_unlink_eq_none.mpr h
  simp [delete_one, this]

theorem delete_one_of_some {ht : PthreadHashTable} {k : Nat} (h : get ht k ≠ none) :
    ∃ victim rest, chain_unlink (bucket_of ht k) k = some (victim, rest) ∧
      delete_one ht k =
        (free_node { ht with buckets := ht.buckets.set (k % ht.capacity) rest } victim.addr, 1) := by
  cases hu : chain_unlink (bucket_of ht k) k with
  | none => exact absurd (chain_unlink_eq_none.mp hu) h
  | some p =>
    obtain ⟨victim, rest⟩ := p
    refine ⟨victim, rest, rfl, ?_⟩
    simp only [bucket_of, size_eq] at hu
    simp [delete_one, hu]

theorem delete_one_result (ht : PthreadHashTable) (k : Nat) :
    (delete_one ht k).2 = if get ht k = none then 0 else 1 := by
  by_cases h : get ht k = none
  · rw [delete_one_of_none h]; simp [h]
  · obtain ⟨victim, rest, _, he⟩ := delete_one_of_some h
    rw [he]; simp [h]

theorem delete_one_capacity (ht : PthreadHashTable) (k : Nat) :
    (delete_one ht k).1.capacity = ht.capacity := by
  by_cases h : get ht k = none
  · rw [delete_one_of_none h]
  · obtain ⟨victim, rest, _, he⟩ := delete_one_of_some h
    rw [he]; simp [free_node_capacity]

theorem delete_one_get {ht : PthreadHashTable} (hC : 1 ≤ ht.capacity) (hwf : WF ht)
    (k k1 : Nat) :
    get (delete_one ht k).1 k1 = if k1 = k then none else get ht k1 := by
  by_cases h : get ht k = none
  · rw [delete_one_of_none h]
    by_cases hk : k1 = k
    · simp [hk, h]
    · simp [hk]
  · obtain ⟨victim, rest, hu, he⟩ := delete_one_of_some h
    obtain ⟨_, _, _, h4, h5⟩ := chain_unlink_some hu
    have hlt := bucket_index_lt hC hwf k
    rw [he]
    simp only [get, bucket_of, size_eq, free_node_capacity, free_node_buckets]
    rw [getD_set_chain _ _ _ _ hlt]
    by_cases hk : k1 = k
    · subst hk
      simp [size_eq, (h5 (hwf.nodup _)).2]
    · by_cases hb : k % ht.capacity = k1 % ht.capacity
      · have := h4 k1 hk
        simp only [bucket_of, size_eq] at this
        rw [hb] at this
        simp [hb, hk, this]
      · simp [hb, hk, size_eq]

theorem delete_one_WF {ht : PthreadHashTable} (hC : 1 ≤ ht.capacity) (hwf : WF ht)
    (k : Nat) : WF (delete_one ht k).1 := by
  by_cases h : get ht k = none
  · rw [delete_one_of_none h]; exact hwf
  · obtain ⟨victim, rest, hu, he⟩ := delete_one_of_some h
    obtain ⟨_, _, h3, _, h5⟩ := chain_unlink_some hu
    have hlt := bucket_index_lt hC hwf k
    rw [he]
    refine ⟨?_, ?_, ?_⟩
    · simp only [free_node_buckets, free_node_capacity, List.length_set]
      exact hwf.1
    · intro b hb n hn
      simp only [free_node_buckets, free_node_capacity, List.length_set] at hb hn ⊢
      rw [getD_set_chain _ _ _ _ hlt] at hn
      by_cases e : k % ht.capacity = b
      · rw [if_pos e] at hn
        exact hwf.place _ n (e ▸ h3 n hn)
      · rw [if_neg e] at hn
        exact hwf.place b n hn
    · intro c hc
      simp only [free_node_buckets] at hc
      rcases List.mem_or_eq_of_mem_set hc with hc | hc
      · exact hwf.2.2 c hc
      · rw [hc]
        exact (h5 (hwf.nodup _)).1

/-! ### Contracts of the single operations -/

/-- C1 (hash table insert).  On a well-formed table with capacity at least 1, one
insert of `(key, val)` writes 1 and binds `key` to `val` (the binding is stored, it
is the only binding of `key`, and a lookup returns it) when the key was absent; it
writes 0 and returns the very same table state (chains, values, free list, pool
index) when the key was present. -/
theorem insert_one_spec (ht : PthreadHashTable) (key val : Nat) (hC : 1 ≤ ht.capacity)
    (hwf : WF ht) :
    (¬ present ht key →
        (insert_one ht key val).2 = 1 ∧
        stored (insert_one ht key val).1 key val ∧
        (∀ v, stored (insert_one ht key val).1 key v → v = val) ∧
        (lookup_one (insert_one ht key val).1 key).2 = val) ∧
    (present ht key →
        (insert_one ht key val).2 = 0 ∧ (insert_one ht key val).1 = ht) := by
  have hC1 : 1 ≤ (insert_one ht key val).1.capacity := by
    rw [insert_one_capacity]; exact hC
  have hwf1 := insert_one_WF hC hwf key val
  constructor
  · intro habs
    have hnone : get ht key = none := by
      by_contra h
      exact habs ((present_iff_get hC hwf key).mpr h)
    have hget : get (insert_one ht key val).1 key = some val := by
      rw [insert_one_get hC hwf]; simp [hnone]
    refine ⟨?_, ?_, ?_, ?_⟩
    · rw [insert_one_result]; simp [hnone]
    · exact (stored_iff_get hC1 hwf1 key val).mpr hget
    · intro v hv
      have := (stored_iff_get hC1 hwf1 key v).mp hv
      rw [hget] at this
      exact (Option.some.inj this).symm
    · rw [lookup_one_result, hget]; rfl
  · intro hpres
    have hsome := (present_iff_get hC hwf key).mp hpres
    rw [insert_one_of_some val hsome]
    exact ⟨rfl, rfl⟩

/-- A witness for `insert_one_spec`: a table of capacity 2 that holds key 5. -/
theorem insert_one_spec_witness :
    1 ≤ (insert_one (create 2) 5 50).1.capacity ∧ WF (insert_one (create 2) 5 50).1 ∧
    ((¬ present (insert_one (create 2) 5 50).1 7 →
        (insert_one (insert_one (create 2) 5 50).1 7 70).2 = 1 ∧
        stored (insert_one (insert_one (create 2) 5 50).1 7 70).1 7 70 ∧
        (∀ v, stored (insert_one (insert_one (create 2) 5 50).1 7 70).1 7 v → v = 70) ∧
        (lookup_one (insert_one (insert_one (create 2) 5 50).1 7 70).1 7).2 = 70) ∧
    (present (insert_one (create 2) 5 50).1 7 →
        (insert_one (insert_one (create 2) 5 50).1 7 70).2 = 0 ∧
        (insert_one (insert_one (create 2) 5 50).1 7 70).1 = (insert_one (create 2) 5 50).1)) :=
  ⟨by decide, by decide,
    insert_one_spec (insert_one (create 2) 5 50).1 7 70 (by decide) (by decide)⟩

/-- C2 (hash table lookup).  On a well-formed table with capacity at least 1, a
lookup writes the value bound to the key when the key is present, writes 0 when the
key is absent, and returns the table state it was given. -/
theorem lookup_one_spec (ht : PthreadHashTable) (key : Nat) (hC : 1 ≤ ht.capacity)
    (hwf : WF ht) :
    (∀ v, stored ht key v → (lookup_one ht key).2 = v) ∧
    (¬ present ht key → (lookup_one ht key).2 = 0) ∧
    (lookup_one ht key).1 = ht := by
  refine ⟨?_, ?_, rfl⟩
  · intro v hv
    rw [lookup_one_result, (stored_iff_get hC hwf key v).mp hv]; rfl
  · intro habs
    have hnone : get ht key = none := by
      by_contra h
      exact habs ((present_iff_get hC hwf key).mpr h)
    rw [lookup_one_result, hnone]; rfl

/-- A witness for `lookup_one_spec`: a table of capacity 2 that holds key 5. -/
theorem lookup_one_spec_witness :
    1 ≤ (insert_one (create 2) 5 50).1.capacity ∧ WF (insert_one (create 2) 5 50).1 ∧
    stored (insert_one (create 2) 5 50).1 5 50 ∧
    ((∀ v, stored (insert_one (create 2) 5 50).1 5 v →
        (lookup_one (insert_one (create 2) 5 50).1 5).2 = v) ∧
    (¬ present (insert_one (create 2) 5 50).1 5 →
        (lookup_one (insert_one (create 2) 5 50).1 5).2 = 0) ∧
    (lookup_one (insert_one (create 2) 5 50).1 5).1 = (insert_one (create 2) 5 50).1) :=
  ⟨by decide, by decide, by decide,
    lookup_one_spec (insert_one (create 2) 5 50).1 5 (by decide) (by decide)⟩

/-- C3 (hash table delete).  On a well-formed table with capacity at least 1, a
delete writes 1 and leaves the key absent when the key was present; it writes 0 and
returns the very same table state when the key was absent. -/
theorem delete_one_spec (ht : PthreadHashTable) (key : Nat) (hC : 1 ≤ ht.capacity)
    (hwf : WF ht) :
    (present ht key →
        (delete_one ht key).2 = 1 ∧ ¬ present (delete_one ht key).1 key) ∧
    (¬ present ht key →
        (delete_one ht key).2 = 0 ∧ (delete_one ht key).1 = ht) := by
  have hC1 : 1 ≤ (delete_one ht key).1.capacity := by
    rw [delete_one_capacity]; exact hC
  have hwf1 := delete_one_WF hC hwf key
  constructor
  · intro hpres
    have hsome := (present_iff_get hC hwf key).mp hpres
    refine ⟨?_, ?_⟩
    · rw [delete_one_result]; simp [hsome]
    · rw [present_iff_get hC1 hwf1, delete_one_get hC hwf]; simp
  · intro habs
    have hnone : get ht key = none := by
      by_contra h
      exact habs ((present_iff_get hC hwf key).mpr h)
    rw [delete_one_of_none hnone]
    exact ⟨rfl, rfl⟩

/-- A witness for `delete_one_spec`: a table of capacity 2 that holds key 5. -/
theorem delete_one_spec_witness :
    1 ≤ (insert_one (create 2) 5 50).1.capacity ∧ WF (insert_one (create 2) 5 50).1 ∧
    present (insert_one (create 2) 5 50).1 5 ∧
    ((present (insert_one (create 2) 5 50).1 5 →
        (delete_one (insert_one (create 2) 5 50).1 5).2 = 1 ∧
        ¬ present (delete_one (insert_one (create 2) 5 50).1 5).1 5) ∧
    (¬ present (insert_one (create 2) 5 50).1 5 →
        (delete_one (insert_one (create 2) 5 50).1 5).2 = 0 ∧
        (delete_one (insert_one (create 2) 5 50).1 5).1 = (insert_one (create 2) 5 50).1)) :=
  ⟨by decide, by decide, by decide,
    delete_one_spec (insert_one (create 2) 5 50).1 5 (by decide) (by decide)⟩

/-- C6 (hash table round trip).  On a well-formed table with capacity at least 1
in which `k` is absent, the sequence insert(k,v), lookup(k), delete(k), lookup(k),
delete(k) yields 1, v, 1, 0, 0. -/
theorem round_trip (ht : PthreadHashTable) (k v : Nat) (hC : 1 ≤ ht.capacity)
    (hwf : WF ht) (habs : ¬ present ht k) :
    (insert_one ht k v).2 = 1 ∧
    (lookup_one (insert_one ht k v).1 k).2 = v ∧
    (delete_one (lookup_one (insert_one ht k v).1 k).1 k).2 = 1 ∧
    (lookup_one (delete_one (lookup_one (insert_one ht k v).1 k).1 k).1 k).2 = 0 ∧
    (delete_one
      (lookup_one (delete_one (lookup_one (insert_one ht k v).1 k).1 k).1 k).1 k).2 = 0 := by
  have hnone : get ht k = none := by
    by_contra h
    exact habs ((present_iff_get hC hwf k).mpr h)
  have hC1 : 1 ≤ (insert_one ht k v).1.capacity := by
    rw [insert_one_capacity]; exact hC
  have hwf1 := insert_one_WF hC hwf k v
  have hget1 : get (insert_one ht k v).1 k = some v := by
    rw [insert_one_get hC hwf]; simp [hnone]
  have hget2 : get (delete_one (insert_one ht k v).1 k).1 k = none := by
    rw [delete_one_get hC1 hwf1]; simp
  simp only [lookup_one_table]
  refine ⟨?_, ?_, ?_, ?_, ?_⟩
  · rw [insert_one_result]; simp [hnone]
  · rw [lookup_one_result, hget1]; rfl
  · rw [delete_one_result]; simp [hget1]
  · rw [lookup_one_result, hget2]; rfl
  · rw [delete_one_result]; simp [hget2]

/-- A witness for `round_trip`: key 7 and value 70 on a table of capacity 2 that
holds key 5 (same bucket as 7). -/
theorem round_trip_witness :
    ¬ present (insert_one (create 2) 5 50).1 7 ∧
    (insert_one (insert_one (create 2) 5 50).1 7 70).2 = 1 ∧
    (lookup_one (insert_one (insert_one (create 2) 5 50).1 7 70).1 7).2 = 70 :=
  ⟨by decide,
    (round_trip (insert_one (create 2) 5 50).1 7 70 (by decide) (by decide) (by decide)).1,
    (round_trip (insert_one (create 2) 5 50).1 7 70 (by decide) (by decide) (by decide)).2.1⟩

/-! ### The worker loops -/

theorem insert_loop_spec (keys vals : List Nat) (cnt : Nat) :
    ∀ (i : Nat) (ht : PthreadHashTable) (results : List Nat),
      1 ≤ ht.capacity → WF ht → i + cnt ≤ results.length →
      WF (insert_loop keys vals cnt i ht results).1 ∧
      (insert_loop keys vals cnt i ht results).1.capacity = ht.capacity ∧
      (insert_loop keys vals cnt i ht results).2.length = results.length ∧
      (∀ j, j < i ∨ i + cnt ≤ j →
        (insert_loop keys vals cnt i ht results).2[j]? = results[j]?) ∧
      (∀ j, i ≤ j → j < i + cnt →
        ((get ht (keys[j]?.getD 0) = none ∧
            ∀ j1, i ≤ j1 → j1 < j → keys[j1]?.getD 0 ≠ keys[j]?.getD 0) →
          (insert_loop keys vals cnt i ht results).2[j]? = some 1) ∧
        (¬ (get ht (keys[j]?.getD 0) = none ∧
            ∀ j1, i ≤ j1 → j1 < j → keys[j1]?.getD 0 ≠ keys[j]?.getD 0) →
          (insert_loop keys vals cnt i ht results).2[j]? = some 0)) ∧
      (∀ k, get (insert_loop keys vals cnt i ht results).1 k =
        match get ht k with
        | some v => some v
        | none => first_val keys vals k cnt i) := by
  induction cnt with
  | zero =>
    intro i ht results hC hwf _
    refine ⟨hwf, rfl, rfl, fun j _ => rfl, fun j h1 h2 => by omega, fun k => ?_⟩
    simp only [insert_loop, first_val]
    cases get ht k <;> rfl
  | succ cnt ih =>
    intro i ht results hC hwf hlen
    have hC0 : 1 ≤ (insert_one ht (keys[i]?.getD 0) (vals[i]?.getD 0)).1.capacity := by
      rw [insert_one_capacity]; exact hC
    have hwf0 := insert_one_WF hC hwf (keys[i]?.getD 0) (vals[i]?.getD 0)
    have hlen0 : i + 1 + cnt ≤
        (results.set i (insert_one ht (keys[i]?.getD 0) (vals[i]?.getD 0)).2).length := by
      rw [List.length_set]; omega
    obtain ⟨h1, h2, h3, h4, h5, h6⟩ := ih (i + 1) _ _ hC0 hwf0 hlen0
    have hget0 := insert_one_get hC hwf (keys[i]?.getD 0) (vals[i]?.getD 0)
    simp only [insert_loop]
    refine ⟨h1, ?_, ?_, ?_, ?_, ?_⟩
    · rw [h2, insert_one_capacity]
    · rw [h3, List.length_set]
    · intro j hj
      rw [h4 j (by omega), List.getElem?_set_ne (by omega)]
    · intro j hj1 hj2
      rcases Nat.eq_or_lt_of_le hj1 with e | hlt
      · subst e
        rw [h4 i (Or.inl (by omega)), List.getElem?_set_self (by omega), insert_one_result]
        constructor
        · intro hc
          simp [hc.1]
        · intro hc
          have : get ht (keys[i]?.getD 0) ≠ none := by
            intro e
            exact hc ⟨e, fun j1 a b => by omega⟩
          simp [this]
      · have hcond :
            (get (insert_one ht (keys[i]?.getD 0) (vals[i]?.getD 0)).1 (keys[j]?.getD 0) = none ∧
              ∀ j1, i + 1 ≤ j1 → j1 < j → keys[j1]?.getD 0 ≠ keys[j]?.getD 0) ↔
            (get ht (keys[j]?.getD 0) = none ∧
              ∀ j1, i ≤ j1 → j1 < j → keys[j1]?.getD 0 ≠ keys[j]?.getD 0) := by
          rw [hget0]
          constructor
          · rintro ⟨ha, hb⟩
            by_cases e : keys[j]?.getD 0 = keys[i]?.getD 0
            · by_cases e1 : get ht (keys[i]?.getD 0) = none
              · simp [e, e1] at ha
              · rw [if_neg (fun h => e1 h.1)] at ha
                rw [e] at ha
                exact absurd ha e1
            · rw [if_neg (fun h => e h.2)] at ha
              refine ⟨ha, fun j1 a b => ?_⟩
              rcases Nat.eq_or_lt_of_le a with e2 | e2
              · subst e2; exact fun h => e h.symm
              · exact hb j1 e2 b
          · rintro ⟨ha, hb⟩
            have e : keys[j]?.getD 0 ≠ keys[i]?.getD 0 := fun h => hb i le_rfl hlt h.symm
            rw [if_neg (fun h => e h.2)]
            exact ⟨ha, fun j1 a b => hb j1 (by omega) b⟩
        obtain ⟨h5a, h5b⟩ := h5 j hlt (by omega)
        exact ⟨fun hc => h5a (hcond.mpr hc), fun hc => h5b (fun h => hc (hcond.mp h))⟩
    · intro k
      rw [h6 k, hget0 k]
      by_cases e : keys[i]?.getD 0 = k
      · subst e
        cases hg : get ht (keys[i]?.getD 0) with
        | none => simp [first_val]
        | some w => simp
      · have e1 : ¬ (get ht (keys[i]?.getD 0) = none ∧ k = keys[i]?.getD 0) :=
          fun h => e h.2.symm
        rw [if_neg e1]
        cases hg : get ht k with
        | none => simp [first_val, e]
        | some w => rfl

theorem lookup_loop_spec (keys : List Nat) (cnt : Nat) :
    ∀ (i : Nat) (ht : PthreadHashTable) (results : List Nat), i + cnt ≤ results.length →
      (lookup_loop keys cnt i ht results).1 = ht ∧
      (lookup_loop keys cnt i ht results).2.length = results.length ∧
      (∀ j, j < i ∨ i + cnt ≤ j → (lookup_loop keys cnt i ht results).2[j]? = results[j]?) ∧
      (∀ j, i ≤ j → j < i + cnt →
        (lookup_loop keys cnt i ht results).2[j]? = some ((get ht (keys[j]?.getD 0)).getD 0)) := by
  induction cnt with
  | zero =>
    intro i ht results _
    exact ⟨rfl, rfl, fun j _ => rfl, fun j h1 h2 => by omega⟩
  | succ cnt ih =>
    intro i ht results hlen
    have hlen0 : i + 1 + cnt ≤ (results.set i (lookup_one ht (keys[i]?.getD 0)).2).length := by
      rw [List.length_set]; omega
    obtain ⟨h1, h2, h3, h4⟩ := ih (i + 1) (lookup_one ht (keys[i]?.getD 0)).1 _ hlen0
    simp only [lookup_loop]
    refine ⟨h1, ?_, ?_, ?_⟩
    · rw [h2, List.length_set]
    · intro j hj
      rw [h3 j (by omega), List.getElem?_set_ne (by omega)]
    · intro j hj1 hj2
      rcases Nat.eq_or_lt_of_le hj1 with e | hlt
      · subst e
        rw [h3 i (Or.inl (by omega)), List.getElem?_set_self (by omega), lookup_one_result]
      · exact h4 j hlt (by omega)

theorem delete_loop_spec (keys : List Nat) (cnt : Nat) :
    ∀ (i : Nat) (ht : PthreadHashTable) (results : List Nat),
      1 ≤ ht.capacity → WF ht → i + cnt ≤ results.length →
      WF (delete_loop keys cnt i ht results).1 ∧
      (delete_loop keys cnt i ht results).1.capacity = ht.capacity ∧
      (delete_loop keys cnt i ht results).2.length = results.length ∧
      (∀ j, j < i ∨ i + cnt ≤ j → (delete_loop keys cnt i ht results).2[j]? = results[j]?) ∧
      (∀ j, i ≤ j → j < i + cnt →
        ((get ht (keys[j]?.getD 0) ≠ none ∧
            ∀ j1, i ≤ j1 → j1 < j → keys[j1]?.getD 0 ≠ keys[j]?.getD 0) →
          (delete_loop keys cnt i ht results).2[j]? = some 1) ∧
        (¬ (get ht (keys[j]?.getD 0) ≠ none ∧
            ∀ j1, i ≤ j1 → j1 < j → keys[j1]?.getD 0 ≠ keys[j]?.getD 0) →
          (delete_loop keys cnt i ht results).2[j]? = some 0)) ∧
      (∀ k, ((∃ j, i ≤ j ∧ j < i + cnt ∧ keys[j]?.getD 0 = k) →
          get (delete_loop keys cnt i ht results).1 k = none) ∧
        (¬ (∃ j, i ≤ j ∧ j < i + cnt ∧ keys[j]?.getD 0 = k) →
          get (delete_loop keys cnt i ht results).1 k = get ht k)) := by
  induction cnt with
  | zero =>
    intro i ht results hC hwf _
    refine ⟨hwf, rfl, rfl, fun j _ => rfl, fun j h1 h2 => by omega, fun k => ?_⟩
    have : ¬ ∃ j, i ≤ j ∧ j < i + 0 ∧ keys[j]?.getD 0 = k := by
      rintro ⟨j, a, b, _⟩; omega
    exact ⟨fun h => absurd h this, fun _ => rfl⟩
  | succ cnt ih =>
    intro i ht results hC hwf hlen
    have hC0 : 1 ≤ (delete_one ht (keys[i]?.getD 0)).1.capacity := by
      rw [delete_one_capacity]; exact hC
    have hwf0 := delete_one_WF hC hwf (keys[i]?.getD 0)
    have hlen0 : i + 1 + cnt ≤ (results.set i (delete_one ht (keys[i]?.getD 0)).2).length := by
      rw [List.length_set]; omega
    obtain ⟨h1, h2, h3, h4, h5, h6⟩ := ih (i + 1) _ _ hC0 hwf0 hlen0
    have hget0 := delete_one_get hC hwf (keys[i]?.getD 0)
    simp only [delete_loop]
    refine ⟨h1, ?_, ?_, ?_, ?_, ?_⟩
    · rw [h2, delete_one_capacity]
    · rw [h3, List.length_set]
    · intro j hj
      rw [h4 j (by omega), List.getElem?_set_ne (by omega)]
    · intro j hj1 hj2
      rcases Nat.eq_or_lt_of_le hj1 with e | hlt
      · subst e
        rw [h4 i (Or.inl (by omega)), List.getElem?_set_self (by omega), delete_one_result]
        constructor
        · intro hc
          simp [hc.1]
        · intro hc
          have : get ht (keys[i]?.getD 0) = none := by
            by_contra e
            exact hc ⟨e, fun j1 a b => by omega⟩
          simp [this]
      · have hcond :
            (get (delete_one ht (keys[i]?.getD 0)).1 (keys[j]?.getD 0) ≠ none ∧
              ∀ j1, i + 1 ≤ j1 → j1 < j → keys[j1]?.getD 0 ≠ keys[j]?.getD 0) ↔
            (get ht (keys[j]?.getD 0) ≠ none ∧
              ∀ j1, i ≤ j1 → j1 < j → keys[j1]?.getD 0 ≠ keys[j]?.getD 0) := by
          rw [hget0]
          constructor
          · rintro ⟨ha, hb⟩
            by_cases e : keys[j]?.getD 0 = keys[i]?.getD 0
            · rw [if_pos e] at ha
              exact absurd rfl ha
            · rw [if_neg e] at ha
              refine ⟨ha, fun j1 a b => ?_⟩
              rcases Nat.eq_or_lt_of_le a with e2 | e2
              · subst e2; exact fun h => e h.symm
              · exact hb j1 e2 b
          · rintro ⟨ha, hb⟩
            have e : keys[j]?.getD 0 ≠ keys[i]?.getD 0 := fun h => hb i le_rfl hlt h.symm
            rw [if_neg e]
            exact ⟨ha, fun j1 a b => hb j1 (by omega) b⟩
        obtain ⟨h5a, h5b⟩ := h5 j hlt (by omega)
        exact ⟨fun hc => h5a (hcond.mpr hc), fun hc => h5b (fun h => hc (hcond.mp h))⟩
    · intro k
      obtain ⟨h6a, h6b⟩ := h6 k
      rw [hget0 k] at h6b
      by_cases e : keys[i]?.getD 0 = k
      · refine ⟨fun _ => ?_, fun hx => absurd ⟨i, le_rfl, by omega, e⟩ hx⟩
        by_cases hy : ∃ j, i + 1 ≤ j ∧ j < i + 1 + cnt ∧ keys[j]?.getD 0 = k
        · exact h6a hy
        · rw [h6b hy, if_pos e.symm]
      · rw [if_neg (fun h => e h.symm)] at h6b
        have : (∃ j, i + 1 ≤ j ∧ j < i + 1 + cnt ∧ keys[j]?.getD 0 = k) ↔
            (∃ j, i ≤ j ∧ j < i + (cnt + 1) ∧ keys[j]?.getD 0 = k) := by
          constructor
          · rintro ⟨j, a, b, c⟩
            exact ⟨j, by omega, by omega, c⟩
          · rintro ⟨j, a, b, c⟩
            rcases Nat.eq_or_lt_of_le a with e2 | e2
            · subst e2; exact absurd c e
            · exact ⟨j, e2, by omega, c⟩
        exact ⟨fun hx => h6a (this.mpr hx), fun hx => h6b (fun h => hx (this.mp h))⟩

/-! ### Batches run by one thread -/

theorem mem_take_iff (keys : List Nat) (i x : Nat) (hi : i ≤ keys.length) :
    x ∈ keys.take i ↔ ∃ j, j < i ∧ keys[j]?.getD 0 = x := by
  rw [List.mem_iff_getElem?]
  constructor
  · rintro ⟨j, hj⟩
    have hlt : j < i := by
      by_contra h
      rw [List.getElem?_eq_none (by simp; omega)] at hj
      cases hj
    rw [List.getElem?_take_of_lt hlt] at hj
    exact ⟨j, hlt, by simp [hj]⟩
  · rintro ⟨j, hj, e⟩
    refine ⟨j, ?_⟩
    rw [List.getElem?_take_of_lt hj, List.getElem?_eq_getElem (by omega)]
    rw [List.getElem?_eq_getElem (by omega)] at e
    simpa using e

theorem getD_mem_keys (keys : List Nat) (j : Nat) (hj : j < keys.length) :
    keys[j]?.getD 0 ∈ keys := by
  rw [List.getElem?_eq_getElem hj]
  exact List.getElem_mem hj

theorem nodup_getD_ne {keys : List Nat} (hnd : keys.Nodup) {j1 j : Nat} (h1 : j1 < j)
    (h2 : j < keys.length) : keys[j1]?.getD 0 ≠ keys[j]?.getD 0 := by
  rw [List.getElem?_eq_getElem h2, List.getElem?_eq_getElem (by omega)]
  intro e
  have := (hnd.getElem_inj_iff).mp (by simpa using e)
  omega

theorem clamp_threads_one : clamp_threads 1 = 1 := rfl

theorem chunk_size_one (n : Nat) : chunk_size n 1 = n := by
  simp [chunk_size, clamp_threads_one]

theorem batch_insert_one_thread (ht : PthreadHashTable) (keys vals : List Nat) (n : Nat)
    (results : List Nat) :
    batch_insert ht keys vals n results 1 = insert_loop keys vals n 0 ht results := by
  unfold batch_insert
  rw [clamp_threads_one, chunk_size_one]
  cases n with
  | zero => simp [List.range_succ, run_slices, insert_loop]
  | succ m => simp [List.range_succ, run_slices, insert_thread_func]

theorem batch_lookup_one_thread (ht : PthreadHashTable) (keys : List Nat) (n : Nat)
    (results : List Nat) :
    batch_lookup ht keys n results 1 = lookup_loop keys n 0 ht results := by
  unfold batch_lookup
  rw [clamp_threads_one, chunk_size_one]
  cases n with
  | zero => simp [List.range_succ, run_slices, lookup_loop]
  | succ m => simp [List.range_succ, run_slices, lookup_thread_func]

theorem batch_delete_one_thread (ht : PthreadHashTable) (keys : List Nat) (n : Nat)
    (results : List Nat) :
    batch_delete ht keys n results 1 = delete_loop keys n 0 ht results := by
  unfold batch_delete
  rw [clamp_threads_one, chunk_size_one]
  cases n with
  | zero => simp [List.range_succ, run_slices, delete_loop]
  | succ m => simp [List.range_succ, run_slices, delete_thread_func]

theorem get_eq_none_iff {ht : PthreadHashTable} (hC : 1 ≤ ht.capacity) (hwf : WF ht)
    (k : Nat) : get ht k = none ↔ ¬ present ht k := by
  rw [present_iff_get hC hwf]; simp

/-- C8 (duplicates in a one-thread `batch_insert`).  On a well-formed table with
capacity at least 1, with `n = keys.length` and result and value arrays of `n`
slots: slot `i` receives 1 exactly when `keys[i]` is absent from the initial table
and does not occur at an earlier index, and 0 otherwise.  If moreover all keys are
one key `k`, absent beforehand, slot 0 is the only slot that receives 1, a lookup
of `k` then returns `vals[0]`, a delete of `k` returns 1 and a second delete 0. -/
theorem batch_insert_duplicates (ht : PthreadHashTable) (keys vals results : List Nat)
    (hC : 1 ≤ ht.capacity) (hwf : WF ht) (_hv : vals.length = keys.length)
    (hr : results.length = keys.length) :
    (∀ i, i < keys.length →
      (batch_insert ht keys vals keys.length results 1).2[i]? =
        some (if ¬ present ht (keys[i]?.getD 0) ∧ keys[i]?.getD 0 ∉ keys.take i
          then 1 else 0)) ∧
    (∀ k, keys ≠ [] → (∀ x ∈ keys, x = k) → ¬ present ht k →
      (∀ i, i < keys.length →
        (batch_insert ht keys vals keys.length results 1).2[i]? =
          some (if i = 0 then 1 else 0)) ∧
      (lookup_one (batch_insert ht keys vals keys.length results 1).1 k).2 =
        vals[0]?.getD 0 ∧
      (delete_one (batch_insert ht keys vals keys.length results 1).1 k).2 = 1 ∧
      (delete_one
        (delete_one (batch_insert ht keys vals keys.length results 1).1 k).1 k).2 = 0) := by
  rw [batch_insert_one_thread]
  obtain ⟨h1, h2, _, _, h5, h6⟩ :=
    insert_loop_spec keys vals keys.length 0 ht results hC hwf (by omega)
  have hslot : ∀ i, i < keys.length →
      (insert_loop keys vals keys.length 0 ht results).2[i]? =
        some (if ¬ present ht (keys[i]?.getD 0) ∧ keys[i]?.getD 0 ∉ keys.take i
          then 1 else 0) := by
    intro i hi
    have hcond : (get ht (keys[i]?.getD 0) = none ∧
          ∀ j1, 0 ≤ j1 → j1 < i → keys[j1]?.getD 0 ≠ keys[i]?.getD 0) ↔
        (¬ present ht (keys[i]?.getD 0) ∧ keys[i]?.getD 0 ∉ keys.take i) := by
      rw [get_eq_none_iff hC hwf, mem_take_iff keys i _ (by omega)]
      constructor
      · rintro ⟨a, b⟩
        exact ⟨a, fun ⟨j, hj, e⟩ => b j (Nat.zero_le _) hj e⟩
      · rintro ⟨a, b⟩
        exact ⟨a, fun j1 _ hj e => b ⟨j1, hj, e⟩⟩
    obtain ⟨ha, hb⟩ := h5 i (Nat.zero_le _) (by omega)
    by_cases hc : ¬ present ht (keys[i]?.getD 0) ∧ keys[i]?.getD 0 ∉ keys.take i
    · rw [if_pos hc]; exact ha (hcond.mpr hc)
    · rw [if_neg hc]; exact hb (fun h => hc (hcond.mp h))
  refine ⟨hslot, ?_⟩
  intro k hne hall habs
  have hpos : 0 < keys.length := List.length_pos.mpr hne
  have hkey : ∀ j, j < keys.length → keys[j]?.getD 0 = k :=
    fun j hj => hall _ (getD_mem_keys keys j hj)
  have hC1 : 1 ≤ (insert_loop keys vals keys.length 0 ht results).1.capacity := by
    rw [h2]; exact hC
  have hget : get (insert_loop keys vals keys.length 0 ht results).1 k =
      some (vals[0]?.getD 0) := by
    rw [h6 k, (get_eq_none_iff hC hwf k).mpr habs]
    obtain ⟨m, hm⟩ := Nat.exists_eq_succ_of_ne_zero (Nat.pos_iff_ne_zero.mp hpos)
    rw [hm]
    simp [first_val, hkey 0 hpos]
  have hget2 : get (delete_one (insert_loop keys vals keys.length 0 ht results).1 k).1 k =
      none := by
    rw [delete_one_get hC1 h1]; simp
  refine ⟨?_, ?_, ?_, ?_⟩
  · intro i hi
    rw [hslot i hi, hkey i hi]
    by_cases e : i = 0
    · subst e
      simp [habs]
    · have : k ∈ keys.take i :=
        (mem_take_iff keys i k (by omega)).mpr ⟨0, by omega, hkey 0 hpos⟩
      simp [e, this]
  · rw [lookup_one_result, hget]; rfl
  · rw [delete_one_result]; simp [hget]
  · rw [delete_one_result]; simp [hget2]

/-- A witness for `batch_insert_duplicates`: the second test of the repository,
keys `[42,42,42,42,42]` with values `[100,200,300,400,500]` on a new table of
capacity 10. -/
theorem batch_insert_duplicates_witness :
    (batch_insert (create 10) [42, 42, 42, 42, 42] [100, 200, 300, 400, 500] 5
        [0, 0, 0, 0, 0] 1).2[0]? = some 1 ∧
    (batch_insert (create 10) [42, 42, 42, 42, 42] [100, 200, 300, 400, 500] 5
        [0, 0, 0, 0, 0] 1).2[3]? = some 0 ∧
    (lookup_one (batch_insert (create 10) [42, 42, 42, 42, 42] [100, 200, 300, 400, 500] 5
        [0, 0, 0, 0, 0] 1).1 42).2 = 100 :=
  ⟨((batch_insert_duplicates (create 10) [42, 42, 42, 42, 42] [100, 200, 300, 400, 500]
      [0, 0, 0, 0, 0] (by decide) (by decide) rfl rfl).2 42 (by decide) (by decide)
      (by decide)).1 0 (by decide),
    ((batch_insert_duplicates (create 10) [42, 42, 42, 42, 42] [100, 200, 300, 400, 500]
      [0, 0, 0, 0, 0] (by decide) (by decide) rfl rfl).2 42 (by decide) (by decide)
      (by decide)).1 3 (by decide),
    ((batch_insert_duplicates (create 10) [42, 42, 42, 42, 42] [100, 200, 300, 400, 500]
      [0, 0, 0, 0, 0] (by decide) (by decide) rfl rfl).2 42 (by decide) (by decide)
      (by decide)).2.1⟩

/-- C9 (basic map batch).  On a well-formed table with capacity at least 1, for
pairwise distinct keys none of which is in the table, with `n = keys.length` and
arrays of `n` slots: a one-thread `batch_insert` writes 1 in every slot, the
following one-thread `batch_lookup` of the same keys writes the paired values, and
the following one-thread `batch_delete` of the same keys writes 1 in every slot. -/
theorem basic_map_batch (ht : PthreadHashTable) (keys vals rI rL rD : List Nat)
    (hC : 1 ≤ ht.capacity) (hwf : WF ht) (hnd : keys.Nodup)
    (habs : ∀ k ∈ keys, ¬ present ht k) (hv : vals.length = keys.length)
    (hI : rI.length = keys.length) (hL : rL.length = keys.length)
    (hD : rD.length = keys.length) :
    (batch_insert ht keys vals keys.length rI 1).2 = List.replicate keys.length 1 ∧
    (batch_lookup (batch_insert ht keys vals keys.length rI 1).1 keys keys.length rL 1).2 =
      vals ∧
    (batch_delete
      (batch_lookup (batch_insert ht keys vals keys.length rI 1).1 keys keys.length rL 1).1
      keys keys.length rD 1).2 = List.replicate keys.length 1 := by
  rw [batch_lookup_one_thread, batch_delete_one_thread, batch_insert_one_thread]
  obtain ⟨a1, a2, a3, _, a5, a6⟩ :=
    insert_loop_spec keys vals keys.length 0 ht rI hC hwf (by omega)
  obtain ⟨b1, b2, _, b4⟩ :=
    lookup_loop_spec keys keys.length 0 (insert_loop keys vals keys.length 0 ht rI).1 rL
      (by omega)
  have hC1 : 1 ≤ (insert_loop keys vals keys.length 0 ht rI).1.capacity := by
    rw [a2]; exact hC
  rw [b1]
  obtain ⟨_, _, c3, _, c5, _⟩ :=
    delete_loop_spec keys keys.length 0 (insert_loop keys vals keys.length 0 ht rI).1 rD
      hC1 a1 (by omega)
  have hfirst : ∀ cnt i j, i ≤ j → j < i + cnt → i + cnt ≤ keys.length →
      first_val keys vals (keys[j]?.getD 0) cnt i = some (vals[j]?.getD 0) := by
    intro cnt
    induction cnt with
    | zero => intro i j h1 h2; omega
    | succ cnt ih =>
      intro i j h1 h2 h3
      rcases Nat.eq_or_lt_of_le h1 with e | hlt
      · subst e; simp [first_val]
      · have : keys[i]?.getD 0 ≠ keys[j]?.getD 0 := nodup_getD_ne hnd hlt (by omega)
        simp only [first_val, this, if_false]
        exact ih (i + 1) j hlt (by omega) (by omega)
  have hget : ∀ j, j < keys.length →
      get (insert_loop keys vals keys.length 0 ht rI).1 (keys[j]?.getD 0) =
        some (vals[j]?.getD 0) := by
    intro j hj
    rw [a6, (get_eq_none_iff hC hwf _).mpr (habs _ (getD_mem_keys keys j hj))]
    exact hfirst keys.length 0 j (Nat.zero_le _) (by omega) (by omega)
  refine ⟨?_, ?_, ?_⟩
  · apply List.ext_getElem?
    intro j
    by_cases hj : j < keys.length
    · rw [(a5 j (Nat.zero_le _) (by omega)).1
        ⟨(get_eq_none_iff hC hwf _).mpr (habs _ (getD_mem_keys keys j hj)),
          fun j1 _ h => nodup_getD_ne hnd h hj⟩]
      simp [List.getElem?_replicate, hj]
    · rw [List.getElem?_eq_none (by omega), List.getElem?_eq_none (by simp; omega)]
  · apply List.ext_getElem?
    intro j
    by_cases hj : j < keys.length
    · rw [b4 j (Nat.zero_le _) (by omega), hget j hj,
        List.getElem?_eq_getElem (show j < vals.length by omega)]
      simp
    · rw [List.getElem?_eq_none (by omega), List.getElem?_eq_none (by omega)]
  · apply List.ext_getElem?
    intro j
    by_cases hj : j < keys.length
    · rw [(c5 j (Nat.zero_le _) (by omega)).1
        ⟨by rw [hget j hj]; simp, fun j1 _ h => nodup_getD_ne hnd h hj⟩]
      simp [List.getElem?_replicate, hj]
    · rw [List.getElem?_eq_none (by omega), List.getElem?_eq_none (by simp; omega)]

/-- A witness for `basic_map_batch`: the first test of the repository, ten
distinct keys on a new table of capacity 10. -/
theorem basic_map_batch_witness :
    (batch_insert (create 10) [1, 5, 3, 7, 10, 15, 13, 20, 25, 30]
        [100, 500, 300, 700, 1000, 1500, 1300, 2000, 2500, 3000] 10
        [0, 0, 0, 0, 0, 0, 0, 0, 0, 0] 1).2 = [1, 1, 1, 1, 1, 1, 1, 1, 1, 1] :=
  (basic_map_batch (create 10) [1, 5, 3, 7, 10, 15, 13, 20, 25, 30]
    [100, 500, 300, 700, 1000, 1500, 1300, 2000, 2500, 3000]
    [0, 0, 0, 0, 0, 0, 0, 0, 0, 0] [0, 0, 0, 0, 0, 0, 0, 0, 0, 0]
    [0, 0, 0, 0, 0, 0, 0, 0, 0, 0] (by decide) (by decide) (by decide) (by decide)
    rfl rfl rfl rfl).1

/-! ### Key uniqueness -/

theorem getD_eq_getElem (l : List (List Node)) (i : Nat) (h : i < l.length) :
    l[i]?.getD [] = l[i] := by
  rw [List.getElem?_eq_getElem h]; rfl

/-- In a table that satisfies the chain invariants no key occurs twice in the whole
table. -/
theorem WF.keys_nodup {ht : PthreadHashTable} (hwf : WF ht) :
    (ht.buckets.flatten.map Node.key).Nodup := by
  rw [List.map_flatten, List.nodup_flatten]
  constructor
  · intro l hl
    obtain ⟨c, hc, rfl⟩ := List.mem_map.mp hl
    exact hwf.2.2 c hc
  · rw [List.pairwise_iff_getElem]
    intro i j hi hj hij x hxi hxj
    simp only [List.length_map] at hi hj
    simp only [List.getElem_map] at hxi hxj
    obtain ⟨a, ha, rfl⟩ := List.mem_map.mp hxi
    obtain ⟨b, hb, hab⟩ := List.mem_map.mp hxj
    have h1 := hwf.2.1 i hi a (by rw [getD_eq_getElem _ _ hi]; exact ha)
    have h2 := hwf.2.1 j hj b (by rw [getD_eq_getElem _ _ hj]; exact hb)
    rw [hab, h1] at h2
    omega

theorem apply_op_WF {ht : PthreadHashTable} (hC : 1 ≤ ht.capacity) (hwf : WF ht) (op : Op) :
    WF (apply_op ht op).1 ∧ (apply_op ht op).1.capacity = ht.capacity := by
  cases op with
  | insert k v => exact ⟨insert_one_WF hC hwf k v, insert_one_capacity ht k v⟩
  | lookup k => exact ⟨hwf, rfl⟩
  | delete k => exact ⟨delete_one_WF hC hwf k, delete_one_capacity ht k⟩

theorem run_ops_WF (ops : List Op) :
    ∀ (ht : PthreadHashTable), 1 ≤ ht.capacity → WF ht →
      WF (run_ops ht ops) ∧ (run_ops ht ops).capacity = ht.capacity := by
  induction ops with
  | nil => intro ht _ hwf; exact ⟨hwf, rfl⟩
  | cons op rest ih =>
    intro ht hC hwf
    obtain ⟨h1, h2⟩ := apply_op_WF hC hwf op
    obtain ⟨h3, h4⟩ := ih (apply_op ht op).1 (by rw [h2]; exact hC) h1
    exact ⟨h3, h4.trans h2⟩

/-- C15 (key uniqueness).  From a newly created table with capacity at least 1,
after any sequence of insert, lookup and delete calls run one after the other, the
keys of all entries of all bucket chains are pairwise distinct: no key occurs twice
in the table. -/
theorem key_uniqueness (cap : Nat) (hC : 1 ≤ cap) (ops : List Op) :
    ((run_ops (create cap) ops).buckets.flatten.map Node.key).Nodup :=
  (run_ops_WF ops (create cap) hC (create_WF cap)).1.keys_nodup

/-- A witness for `key_uniqueness`: capacity 2 and a history that inserts a key
twice and two keys of one bucket. -/
theorem key_uniqueness_witness :
    ((run_ops (create 2) [Op.insert 5 50, Op.insert 5 51, Op.insert 7 70, Op.lookup 5,
        Op.delete 7, Op.insert 9 90]).buckets.flatten.map Node.key).Nodup :=
  key_uniqueness 2 (by decide) [Op.insert 5 50, Op.insert 5 51, Op.insert 7 70, Op.lookup 5,
    Op.delete 7, Op.insert 9 90]

/-! ### The slice loop -/

theorem clamp_threads_pos (numThreads : Int) : 1 ≤ clamp_threads numThreads := by
  unfold clamp_threads
  have : (1 : Int) ≤ max 1 numThreads := le_max_left _ _
  omega

theorem clamp_threads_nonpos (numThreads : Int) (h : numThreads ≤ 0) :
    clamp_threads numThreads = 1 := by
  unfold clamp_threads
  rw [max_eq_left (by omega)]
  rfl

theorem chunk_size_nonpos (n : Nat) (numThreads : Int) (h : numThreads ≤ 0) :
    chunk_size n numThreads = chunk_size n 1 := by
  unfold chunk_size
  rw [clamp_threads_nonpos numThreads h, clamp_threads_one]

/-- C18 (thread-hint clamping).  For each of the three batch operations, for every
table, arrays and `n`, a call with a thread hint that is 0 or negative returns the
same result slots and the same final table as the call with thread hint 1. -/
theorem clamp_nonpositive (ht : PthreadHashTable) (keys vals : List Nat) (n : Nat)
    (results : List Nat) (numThreads : Int) (h : numThreads ≤ 0) :
    batch_insert ht keys vals n results numThreads = batch_insert ht keys vals n results 1 ∧
    batch_lookup ht keys n results numThreads = batch_lookup ht keys n results 1 ∧
    batch_delete ht keys n results numThreads = batch_delete ht keys n results 1 := by
  unfold batch_insert batch_lookup batch_delete
  rw [chunk_size_nonpos n numThreads h, clamp_threads_nonpos numThreads h, clamp_threads_one]
  exact ⟨rfl, rfl, rfl⟩

/-- A witness for `clamp_nonpositive`: thread hint -3 on a batch of three keys. -/
theorem clamp_nonpositive_witness :
    batch_insert (create 4) [1, 2, 1] [10, 20, 30] 3 [0, 0, 0] (-3) =
      batch_insert (create 4) [1, 2, 1] [10, 20, 30] 3 [0, 0, 0] 1 ∧
    batch_lookup (create 4) [1, 2, 1] 3 [0, 0, 0] (-3) =
      batch_lookup (create 4) [1, 2, 1] 3 [0, 0, 0] 1 ∧
    batch_delete (create 4) [1, 2, 1] 3 [0, 0, 0] (-3) =
      batch_delete (create 4) [1, 2, 1] 3 [0, 0, 0] 1 :=
  clamp_nonpositive (create 4) [1, 2, 1] [10, 20, 30] 3 [0, 0, 0] (-3) (by decide)

theorem run_slices_eq_foldl
    (worker : PthreadHashTable → Nat → Nat → List Nat → PthreadHashTable × List Nat)
    (n chunk : Nat) (ts : List Nat) :
    ∀ (ht : PthreadHashTable) (results : List Nat),
      run_slices worker n chunk ts ht results =
        (slice_list n chunk ts).foldl (fun r sl => worker r.1 sl.1 sl.2 r.2) (ht, results) := by
  induction ts with
  | nil => intro ht results; rfl
  | cons t ts ih =>
    intro ht results
    by_cases h : t * chunk ≥ min n ((t + 1) * chunk)
    · simp only [run_slices, slice_list, h, if_true]
      exact ih ht results
    · simp only [run_slices, slice_list, h, if_false, List.foldl_cons]
      exact ih _ _

theorem mem_slice_list (n chunk : Nat) (ts : List Nat) (sl : Nat × Nat)
    (h : sl ∈ slice_list n chunk ts) :
    ∃ t ∈ ts, sl = (t * chunk, min n ((t + 1) * chunk)) ∧ t * chunk < min n ((t + 1) * chunk) := by
  induction ts with
  | nil => simp [slice_list] at h
  | cons t ts ih =>
    by_cases hc : t * chunk ≥ min n ((t + 1) * chunk)
    · simp only [slice_list, hc, if_true] at h
      obtain ⟨t1, ht1, e⟩ := ih h
      exact ⟨t1, List.mem_cons_of_mem _ ht1, e⟩
    · simp only [slice_list, hc, if_false] at h
      rcases List.mem_cons.mp h with e | e
      · exact ⟨t, List.mem_cons_self _ _, e, not_le.mp hc⟩
      · obtain ⟨t1, ht1, e1⟩ := ih e
        exact ⟨t1, List.mem_cons_of_mem _ ht1, e1⟩

theorem slice_list_zero (chunk : Nat) (ts : List Nat) : slice_list 0 chunk ts = [] := by
  induction ts with
  | nil => rfl
  | cons t ts ih => simp [slice_list, ih]

theorem chunk_size_zero (numThreads : Int) : chunk_size 0 numThreads = 0 := by
  unfold chunk_size
  have := clamp_threads_pos numThreads
  rw [Nat.zero_add]
  exact Nat.div_eq_of_lt (by omega)

/-- C19 (empty batch).  For every table and every thread hint, `batch_insert` with
`n = 0` has chunk size 0, every slice of its loop is empty so that no worker is
started, no result slot is written and the table state is the one it was given. -/
theorem empty_batch (ht : PthreadHashTable) (keys vals results : List Nat) (numThreads : Int) :
    chunk_size 0 numThreads = 0 ∧
    (∀ t, ¬ (t * chunk_size 0 numThreads < min 0 ((t + 1) * chunk_size 0 numThreads))) ∧
    batch_slices 0 numThreads = [] ∧
    batch_insert ht keys vals 0 results numThreads = (ht, results) := by
  refine ⟨chunk_size_zero numThreads, ?_, slice_list_zero _ _, ?_⟩
  · intro t
    simp
  · unfold batch_insert
    rw [run_slices_eq_foldl, slice_list_zero]
    rfl

/-! ### The partition of a batch -/

theorem insert_loop_add (keys vals : List Nat) (x y : Nat) :
    ∀ (i : Nat) (ht : PthreadHashTable) (results : List Nat),
      insert_loop keys vals (x + y) i ht results =
        insert_loop keys vals y (i + x) (insert_loop keys vals x i ht results).1
          (insert_loop keys vals x i ht results).2 := by
  induction x with
  | zero => intro i ht results; simp [insert_loop]
  | succ x ih =>
    intro i ht results
    rw [show x + 1 + y = (x + y) + 1 by omega]
    simp only [insert_loop]
    rw [ih, show i + 1 + x = i + (x + 1) by omega]

theorem lookup_loop_add (keys : List Nat) (x y : Nat) :
    ∀ (i : Nat) (ht : PthreadHashTable) (results : List Nat),
      lookup_loop keys (x + y) i ht results =
        lookup_loop keys y (i + x) (lookup_loop keys x i ht results).1
          (lookup_loop keys x i ht results).2 := by
  induction x with
  | zero => intro i ht results; simp [lookup_loop]
  | succ x ih =>
    intro i ht results
    rw [show x + 1 + y = (x + y) + 1 by omega]
    simp only [lookup_loop]
    rw [ih, show i + 1 + x = i + (x + 1) by omega]

theorem delete_loop_add (keys : List Nat) (x y : Nat) :
    ∀ (i : Nat) (ht : PthreadHashTable) (results : List Nat),
      delete_loop keys (x + y) i ht results =
        delete_loop keys y (i + x) (delete_loop keys x i ht results).1
          (delete_loop keys x i ht results).2 := by
  induction x with
  | zero => intro i ht results; simp [delete_loop]
  | succ x ih =>
    intro i ht results
    rw [show x + 1 + y = (x + y) + 1 by omega]
    simp only [delete_loop]
    rw [ih, show i + 1 + x = i + (x + 1) by omega]

/-- Running a worker on the slices of consecutive thread numbers, one slice after
the other, is running it once on the union of the slices; for a worker that does
nothing on an empty slice and whose run on `[a, c)` is its run on `[a, b)` followed
by its run on `[b, c)`. -/
theorem foldl_slice_list
    (worker : PthreadHashTable → Nat → Nat → List Nat → PthreadHashTable × List Nat)
    (h0 : ∀ ht a results, worker ht a a results = (ht, results))
    (hadd : ∀ ht a b c results, a ≤ b → b ≤ c →
      worker ht a c results = worker (worker ht a b results).1 b c (worker ht a b results).2)
    (n chunk : Nat) (cnt : Nat) :
    ∀ (t0 : Nat) (ht : PthreadHashTable) (results : List Nat),
      (slice_list n chunk (List.range' t0 cnt)).foldl
          (fun r sl => worker r.1 sl.1 sl.2 r.2) (ht, results) =
        worker ht (min n (t0 * chunk)) (min n ((t0 + cnt) * chunk)) results := by
  induction cnt with
  | zero =>
    intro t0 ht results
    simp [slice_list, h0]
  | succ cnt ih =>
    intro t0 ht results
    have hmul : (t0 + 1) * chunk = t0 * chunk + chunk := by ring
    have hmul2 : (t0 + (cnt + 1)) * chunk = (t0 + 1 + cnt) * chunk := by ring_nf
    have hmono : (t0 + 1) * chunk ≤ (t0 + 1 + cnt) * chunk :=
      Nat.mul_le_mul_right _ (by omega)
    rw [List.range'_succ]
    by_cases hc : t0 * chunk ≥ min n ((t0 + 1) * chunk)
    · simp only [slice_list, hc, if_true]
      rw [ih, hmul2]
      have : min n ((t0 + 1) * chunk) = min n (t0 * chunk) := by
        rw [hmul] at hc ⊢
        omega
      rw [this]
    · simp only [slice_list, hc, if_false, List.foldl_cons]
      rw [ih, hmul2]
      have hstart : min n (t0 * chunk) = t0 * chunk := by
        rw [hmul] at hc
        omega
      rw [hstart]
      exact (hadd ht _ _ _ results (by omega) (by omega)).symm

theorem chunk_covers (n : Nat) (numThreads : Int) :
    n ≤ clamp_threads numThreads * chunk_size n numThreads := by
  have hT := clamp_threads_pos numThreads
  have := Nat.lt_mul_div_succ (n + clamp_threads numThreads - 1) hT
  unfold chunk_size
  rw [Nat.mul_add, Nat.mul_one] at this
  omega

theorem chunk_least (n : Nat) (numThreads : Int) (c : Nat)
    (h : n ≤ c * clamp_threads numThreads) : chunk_size n numThreads ≤ c := by
  have hT := clamp_threads_pos numThreads
  unfold chunk_size
  have : (n + clamp_threads numThreads - 1) / clamp_threads numThreads < c + 1 := by
    apply Nat.div_lt_of_lt_mul
    rw [Nat.mul_add, Nat.mul_one, Nat.mul_comm]
    omega
  omega

/-- A batch run on its slices is one run of the worker on `[0, n)`. -/
theorem run_slices_whole
    (worker : PthreadHashTable → Nat → Nat → List Nat → PthreadHashTable × List Nat)
    (h0 : ∀ ht a results, worker ht a a results = (ht, results))
    (hadd : ∀ ht a b c results, a ≤ b → b ≤ c →
      worker ht a c results = worker (worker ht a b results).1 b c (worker ht a b results).2)
    (n : Nat) (numThreads : Int) (ht : PthreadHashTable) (results : List Nat) :
    run_slices worker n (chunk_size n numThreads) (List.range (clamp_threads numThreads))
        ht results = worker ht 0 n results := by
  rw [run_slices_eq_foldl, List.range_eq_range', foldl_slice_list worker h0 hadd]
  have := chunk_covers n numThreads
  simp only [Nat.zero_mul, Nat.zero_add, Nat.min_zero]
  rw [Nat.min_eq_left this]

theorem insert_thread_func_split (keys vals : List Nat) (ht : PthreadHashTable)
    (a b c : Nat) (results : List Nat) (hab : a ≤ b) (hbc : b ≤ c) :
    insert_thread_func ht a c keys vals results =
      insert_thread_func (insert_thread_func ht a b keys vals results).1 b c keys vals
        (insert_thread_func ht a b keys vals results).2 := by
  unfold insert_thread_func
  rw [show c - a = (b - a) + (c - b) by omega, insert_loop_add, show a + (b - a) = b by omega]

theorem lookup_thread_func_split (keys : List Nat) (ht : PthreadHashTable)
    (a b c : Nat) (results : List Nat) (hab : a ≤ b) (hbc : b ≤ c) :
    lookup_thread_func ht a c keys results =
      lookup_thread_func (lookup_thread_func ht a b keys results).1 b c keys
        (lookup_thread_func ht a b keys results).2 := by
  unfold lookup_thread_func
  rw [show c - a = (b - a) + (c - b) by omega, lookup_loop_add, show a + (b - a) = b by omega]

theorem delete_thread_func_split (keys : List Nat) (ht : PthreadHashTable)
    (a b c : Nat) (results : List Nat) (hab : a ≤ b) (hbc : b ≤ c) :
    delete_thread_func ht a c keys results =
      delete_thread_func (delete_thread_func ht a b keys results).1 b c keys
        (delete_thread_func ht a b keys results).2 := by
  unfold delete_thread_func
  rw [show c - a = (b - a) + (c - b) by omega, delete_loop_add, show a + (b - a) = b by omega]

/-- The index ranges of the slices of consecutive thread numbers, concatenated. -/
theorem flatten_slice_list (n chunk : Nat) (cnt : Nat) :
    ∀ t0 : Nat,
      ((slice_list n chunk (List.range' t0 cnt)).map
          (fun sl => List.range' sl.1 (sl.2 - sl.1))).flatten =
        List.range' (min n (t0 * chunk)) (min n ((t0 + cnt) * chunk) - min n (t0 * chunk)) := by
  induction cnt with
  | zero =>
    intro t0
    simp [slice_list]
  | succ cnt ih =>
    intro t0
    have hmul : (t0 + 1) * chunk = t0 * chunk + chunk := by ring
    have hmul2 : (t0 + (cnt + 1)) * chunk = (t0 + 1 + cnt) * chunk := by ring_nf
    have hmono : (t0 + 1) * chunk ≤ (t0 + 1 + cnt) * chunk :=
      Nat.mul_le_mul_right _ (by omega)
    rw [List.range'_succ]
    by_cases hc : t0 * chunk ≥ min n ((t0 + 1) * chunk)
    · simp only [slice_list, hc, if_true]
      rw [ih, hmul2]
      have : min n ((t0 + 1) * chunk) = min n (t0 * chunk) := by
        rw [hmul] at hc ⊢
        omega
      rw [this]
    · simp only [slice_list, hc, if_false, List.map_cons, List.flatten_cons]
      rw [ih, hmul2]
      have hstart : min n (t0 * chunk) = t0 * chunk := by
        rw [hmul] at hc
        omega
      rw [hstart]
      have h1 : t0 * chunk ≤ min n ((t0 + 1) * chunk) := by omega
      have h2 : min n ((t0 + 1) * chunk) ≤ min n ((t0 + 1 + cnt) * chunk) := by omega
      have := List.range'_append (t0 * chunk) (min n ((t0 + 1) * chunk) - t0 * chunk)
        (min n ((t0 + 1 + cnt) * chunk) - min n ((t0 + 1) * chunk)) 1
      rw [Nat.one_mul, show t0 * chunk + (min n ((t0 + 1) * chunk) - t0 * chunk) =
        min n ((t0 + 1) * chunk) by omega] at this
      rw [this]
      congr 1
      omega

/-! ### Construction -/

theorem insert_loop_capacity (keys vals : List Nat) (cnt : Nat) :
    ∀ (i : Nat) (ht : PthreadHashTable) (results : List Nat),
      (insert_loop keys vals cnt i ht results).1.capacity = ht.capacity := by
  induction cnt with
  | zero => intro i ht results; rfl
  | succ cnt ih =>
    intro i ht results
    simp only [insert_loop]
    rw [ih, insert_one_capacity]

theorem lookup_loop_capacity (keys : List Nat) (cnt : Nat) :
    ∀ (i : Nat) (ht : PthreadHashTable) (results : List Nat),
      (lookup_loop keys cnt i ht results).1.capacity = ht.capacity := by
  induction cnt with
  | zero => intro i ht results; rfl
  | succ cnt ih =>
    intro i ht results
    simp only [lookup_loop]
    rw [ih, lookup_one_table]

theorem delete_loop_capacity (keys : List Nat) (cnt : Nat) :
    ∀ (i : Nat) (ht : PthreadHashTable) (results : List Nat),
      (delete_loop keys cnt i ht results).1.capacity = ht.capacity := by
  induction cnt with
  | zero => intro i ht results; rfl
  | succ cnt ih =>
    intro i ht results
    simp only [delete_loop]
    rw [ih, delete_one_capacity]

theorem run_slices_capacity
    (worker : PthreadHashTable → Nat → Nat → List Nat → PthreadHashTable × List Nat)
    (hw : ∀ ht a b results, (worker ht a b results).1.capacity = ht.capacity)
    (n chunk : Nat) (ts : List Nat) :
    ∀ (ht : PthreadHashTable) (results : List Nat),
      (run_slices worker n chunk ts ht results).1.capacity = ht.capacity := by
  induction ts with
  | nil => intro ht results; rfl
  | cons t ts ih =>
    intro ht results
    by_cases h : t * chunk ≥ min n ((t + 1) * chunk)
    · simp only [run_slices, h, if_true]
      exact ih ht results
    · simp only [run_slices, h, if_false]
      rw [ih, hw]

theorem apply_batch_capacity (ht : PthreadHashTable) (op : BatchOp) :
    (apply_batch ht op).capacity = ht.capacity := by
  cases op with
  | insert keys vals n results numThreads =>
    exact run_slices_capacity _ (fun h a b r => insert_loop_capacity keys vals _ _ _ _) _ _ _ _ _
  | lookup keys n results numThreads =>
    exact run_slices_capacity _ (fun h a b r => lookup_loop_capacity keys _ _ _ _) _ _ _ _ _
  | delete keys n results numThreads =>
    exact run_slices_capacity _ (fun h a b r => delete_loop_capacity keys _ _ _ _) _ _ _ _ _

theorem run_batches_capacity (ops : List BatchOp) :
    ∀ ht : PthreadHashTable, (run_batches ht ops).capacity = ht.capacity := by
  induction ops with
  | nil => intro ht; rfl
  | cons op rest ih =>
    intro ht
    simp only [run_batches, List.foldl_cons]
    exact (ih (apply_batch ht op)).trans (apply_batch_capacity ht op)

theorem get_create (cap k : Nat) : get (create cap) k = none := by
  apply find_value_eq_none.mpr
  intro n hn
  simp only [bucket_of, create, List.getElem?_replicate] at hn
  split at hn <;> simp at hn

/-- C21 (table construction).  A table created with capacity `C` has `C` buckets,
all empty, an empty free list, pool index 0 and a node pool of exactly
`min(10000000, C * 10)` slots; when `C >= 1` a lookup of any key returns 0 and a
delete of any key returns 0; `size()` returns `C`, on the new table and after any
sequence of batch operations. -/
theorem construction_spec (cap : Nat) :
    (create cap).buckets = List.replicate cap [] ∧
    (create cap).buckets.length = cap ∧
    (create cap).free_list = [] ∧
    (create cap).pool_index = 0 ∧
    (create cap).node_pool.length = min 10000000 (cap * 10) ∧
    (1 ≤ cap → ∀ k, (lookup_one (create cap) k).2 = 0 ∧ (delete_one (create cap) k).2 = 0) ∧
    (create cap).size = cap ∧
    (∀ ops : List BatchOp, (run_batches (create cap) ops).size = cap) := by
  refine ⟨rfl, by simp [create], rfl, rfl, by simp [create, POOL_SIZE], ?_, rfl, ?_⟩
  · intro _ k
    constructor
    · rw [lookup_one_result, get_create]; rfl
    · rw [delete_one_result, get_create]; rfl
  · intro ops
    rw [size_eq, run_batches_capacity]
    rfl

/-! ### Placement and order in the chains -/

theorem apply_op_frame (ht : PthreadHashTable) (op : Op) (b : Nat)
    (hb : b ≠ op.key % ht.capacity) : (apply_op ht op).1.buckets[b]? = ht.buckets[b]? := by
  cases op with
  | insert k v =>
    simp only [apply_op, Op.key] at hb ⊢
    by_cases h : get ht k = none
    · rw [insert_one_of_none v h]
      exact List.getElem?_set_ne (fun e => hb e.symm)
    · rw [insert_one_of_some v h]
  | lookup k => rfl
  | delete k =>
    simp only [apply_op, Op.key] at hb ⊢
    by_cases h : get ht k = none
    · rw [delete_one_of_none h]
    · obtain ⟨victim, rest, _, he⟩ := delete_one_of_some h
      rw [he]
      simp only [free_node_buckets]
      exact List.getElem?_set_ne (fun e => hb e.symm)

theorem apply_op_result_local (ht ht1 : PthreadHashTable) (op : Op)
    (_hcap : ht1.capacity = ht.capacity) (hb : bucket_of ht1 op.key = bucket_of ht op.key) :
    (apply_op ht1 op).2 = (apply_op ht op).2 := by
  have hget : get ht1 op.key = get ht op.key := by
    unfold get
    rw [hb]
  cases op with
  | insert k v =>
    simp only [apply_op, Op.key] at hget ⊢
    rw [insert_one_result, insert_one_result, hget]
  | lookup k =>
    simp only [apply_op, Op.key] at hget ⊢
    rw [lookup_one_result, lookup_one_result, hget]
  | delete k =>
    simp only [apply_op, Op.key] at hget ⊢
    rw [delete_one_result, delete_one_result, hget]

/-- C26 (bucket placement).  After any sequence of single calls on a new table of
capacity `C >= 1`, every entry in the chain of bucket `b` has `key mod C = b`.  An
insert, lookup or delete of a key works on bucket `key mod C` only: every other
bucket is left as it was, and the result written is the same in any two tables of
the same capacity whose bucket `key mod C` holds the same chain. -/
theorem bucket_placement (cap : Nat) (hC : 1 ≤ cap) (ops : List Op) :
    (∀ b n, n ∈ (run_ops (create cap) ops).buckets[b]?.getD [] → n.key % cap = b) ∧
    (∀ (ht : PthreadHashTable) (op : Op) (b : Nat), b ≠ op.key % ht.capacity →
      (apply_op ht op).1.buckets[b]? = ht.buckets[b]?) ∧
    (∀ (ht ht1 : PthreadHashTable) (op : Op), ht1.capacity = ht.capacity →
      bucket_of ht1 op.key = bucket_of ht op.key →
      (apply_op ht1 op).2 = (apply_op ht op).2) := by
  refine ⟨?_, apply_op_frame, apply_op_result_local⟩
  intro b n hn
  obtain ⟨hwf, hcap⟩ := run_ops_WF ops (create cap) hC (create_WF cap)
  have := hwf.place b n hn
  rw [hcap] at this
  exact this

/-- A witness for `bucket_placement`: capacity 3 and a short history. -/
theorem bucket_placement_witness :
    ({ addr := 2, key := 7, value := 70 } : Node) ∈
      (run_ops (create 3) [Op.insert 4 40, Op.insert 7 70, Op.delete 4,
        Op.insert 5 50]).buckets[1]?.getD [] ∧
    Node.key { addr := 2, key := 7, value := 70 } % 3 = 1 :=
  ⟨by decide,
    (bucket_placement 3 (by decide) [Op.insert 4 40, Op.insert 7 70, Op.delete 4,
      Op.insert 5 50]).1 1 { addr := 2, key := 7, value := 70 } (by decide)⟩

theorem chain_unlink_split {c : List Node} {k : Nat} {v : Node} {r : List Node}
    (h : chain_unlink c k = some (v, r)) :
    ∃ pre post, c = pre ++ v :: post ∧ r = pre ++ post ∧ v.key = k ∧
      ∀ n ∈ pre, n.key ≠ k := by
  induction c generalizing v r with
  | nil => simp [chain_unlink] at h
  | cons a c ih =>
    by_cases hk : a.key = k
    · simp only [chain_unlink, hk, if_true, Option.some.injEq, Prod.mk.injEq] at h
      obtain ⟨rfl, rfl⟩ := h
      exact ⟨[], c, rfl, rfl, hk, fun n hn => by cases hn⟩
    · simp only [chain_unlink, hk, if_false] at h
      cases hu : chain_unlink c k with
      | none => simp [hu] at h
      | some p =>
        obtain ⟨v1, r1⟩ := p
        simp only [hu, Option.some.injEq, Prod.mk.injEq] at h
        obtain ⟨rfl, rfl⟩ := h
        obtain ⟨pre, post, h1, h2, h3, h4⟩ := ih hu
        refine ⟨a :: pre, post, by rw [h1]; rfl, by rw [h2]; rfl, h3, ?_⟩
        intro n hn
        rcases List.mem_cons.mp hn with e | e
        · rw [e]; exact hk
        · exact h4 n e

/-- C29 (insert prepends, delete keeps the order).  On a well-formed table with
capacity at least 1: after an insert of `(k, v)` that returns 1 the chain of bucket
`k mod C` is a new node with key `k` and value `v` followed by the chain as it was;
after a delete of `k` that returns 1 the chain of bucket `k mod C` is the chain as
it was without one node, the first one with key `k`, the others in their order. -/
theorem insert_prepends (ht : PthreadHashTable) (k v : Nat) (hC : 1 ≤ ht.capacity)
    (hwf : WF ht) :
    ((insert_one ht k v).2 = 1 →
      ∃ a, bucket_of (insert_one ht k v).1 k =
        { addr := a, key := k, value := v } :: bucket_of ht k) ∧
    ((delete_one ht k).2 = 1 →
      ∃ pre victim post, bucket_of ht k = pre ++ victim :: post ∧ victim.key = k ∧
        (∀ n ∈ pre, n.key ≠ k) ∧ bucket_of (delete_one ht k).1 k = pre ++ post) := by
  have hlt := bucket_index_lt hC hwf k
  constructor
  · intro h
    have hnone : get ht k = none := by
      by_contra hs
      rw [insert_one_of_some v hs] at h
      cases h
    rw [insert_one_of_none v hnone]
    refine ⟨(allocate_node ht k v).2.addr, ?_⟩
    simp only [bucket_of, size_eq, allocate_node_capacity]
    rw [getD_set_chain _ _ _ _ hlt, if_pos rfl]
    congr 1
    · simp only [FreshNode.cell, allocate_node_key, allocate_node_value]
  · intro h
    have hsome : get ht k ≠ none := by
      intro hs
      rw [delete_one_of_none hs] at h
      cases h
    obtain ⟨victim, rest, hu, he⟩ := delete_one_of_some hsome
    obtain ⟨pre, post, h1, h2, h3, h4⟩ := chain_unlink_split hu
    refine ⟨pre, victim, post, h1, h3, h4, ?_⟩
    rw [he]
    simp only [bucket_of, size_eq, free_node_capacity, free_node_buckets]
    rw [getD_set_chain _ _ _ _ hlt, if_pos rfl, h2]

/-- A witness for `insert_prepends`: a table of capacity 2 whose bucket 1 holds the
keys 7 and 5; key 9 is inserted in front, key 5 is deleted behind key 7. -/
theorem insert_prepends_witness :
    (∃ a, bucket_of (insert_one (run_ops (create 2) [Op.insert 5 50, Op.insert 7 70]) 9 90).1 9 =
      { addr := a, key := 9, value := 90 } ::
        bucket_of (run_ops (create 2) [Op.insert 5 50, Op.insert 7 70]) 9) ∧
    (∃ pre victim post,
      bucket_of (run_ops (create 2) [Op.insert 5 50, Op.insert 7 70]) 5 = pre ++ victim :: post ∧
      victim.key = 5 ∧ (∀ n ∈ pre, n.key ≠ 5) ∧
      bucket_of (delete_one (run_ops (create 2) [Op.insert 5 50, Op.insert 7 70]) 5).1 5 =
        pre ++ post) :=
  ⟨(insert_prepends (run_ops (create 2) [Op.insert 5 50, Op.insert 7 70]) 9 90 (by decide)
      (by decide)).1 (by decide),
    (insert_prepends (run_ops (create 2) [Op.insert 5 50, Op.insert 7 70]) 5 0 (by decide)
      (by decide)).2 (by decide)⟩

/-! ### Node allocation -/

theorem allocate_node_pop (ht : PthreadHashTable) (k v : Nat) (init : List Nat) (a : Nat)
    (hfl : ht.free_list = init ++ [a]) (ha : a ≠ 0) :
    allocate_node ht k v =
      ({ ht with free_list := init }, { addr := a, key := k, value := v, next := 0 }) := by
  have hne : ht.free_list ≠ [] := by rw [hfl]; simp
  have hlast : ht.free_list.getLast?.getD 0 = a := by rw [hfl]; simp
  have hdrop : ht.free_list.dropLast = init := by rw [hfl]; simp
  unfold allocate_node
  simp only [hne, ne_eq, not_false_eq_true, if_true, hlast, ha, if_false, hdrop]

theorem allocate_node_pool (ht : PthreadHashTable) (k v : Nat) (hfl : ht.free_list = [])
    (h : ht.pool_index < ht.node_pool.length) :
    allocate_node ht k v =
      ({ ht with pool_index := ht.pool_index + 1 },
        { addr := ht.node_pool[ht.pool_index]?.getD 0, key := k, value := v, next := 0 }) := by
  unfold allocate_node
  simp [hfl, h]

theorem allocate_node_heap (ht : PthreadHashTable) (k v : Nat) (hfl : ht.free_list = [])
    (h : ht.node_pool.length ≤ ht.pool_index) :
    allocate_node ht k v =
      ({ ht with pool_index := ht.pool_index + 1, heap_next := ht.heap_next + 1 },
        { addr := ht.heap_next, key := k, value := v, next := 0 }) := by
  unfold allocate_node
  simp [hfl, Nat.not_lt.mpr h]

theorem allocate_node_next (ht : PthreadHashTable) (k v : Nat) :
    (allocate_node ht k v).2.next = 0 := by
  unfold allocate_node
  simp only
  split_ifs <;> rfl

/-- C27 (node allocation order).  On a table whose free list holds no null pointer:
when the free list is not empty, `allocate_node` returns its last element, the node
released most recently, and removes it, the pool index staying as it is; when the
free list is empty the pool index is incremented and the pool slot at the old index
is returned if that index is below the pool size, a fresh heap node otherwise.  In
every case the node returned carries the given key and value and a null `next`
link.  The node released last by `free_node` is the one that the next
`allocate_node` returns. -/
theorem allocate_node_spec (ht : PthreadHashTable) (k v : Nat) (h0 : 0 ∉ ht.free_list) :
    (∀ init a, ht.free_list = init ++ [a] →
      allocate_node ht k v =
        ({ ht with free_list := init }, { addr := a, key := k, value := v, next := 0 })) ∧
    (ht.free_list = [] → ht.pool_index < ht.node_pool.length →
      allocate_node ht k v =
        ({ ht with pool_index := ht.pool_index + 1 },
          { addr := ht.node_pool[ht.pool_index]?.getD 0, key := k, value := v, next := 0 })) ∧
    (ht.free_list = [] → ht.node_pool.length ≤ ht.pool_index →
      allocate_node ht k v =
        ({ ht with pool_index := ht.pool_index + 1, heap_next := ht.heap_next + 1 },
          { addr := ht.heap_next, key := k, value := v, next := 0 })) ∧
    (allocate_node ht k v).2.key = k ∧ (allocate_node ht k v).2.value = v ∧
    (allocate_node ht k v).2.next = 0 ∧
    (∀ a, a ≠ 0 →
      allocate_node (free_node ht a) k v =
        (ht, { addr := a, key := k, value := v, next := 0 })) := by
  refine ⟨?_, allocate_node_pool ht k v, allocate_node_heap ht k v, allocate_node_key ht k v,
    allocate_node_value ht k v, allocate_node_next ht k v, ?_⟩
  · intro init a hfl
    refine allocate_node_pop ht k v init a hfl ?_
    intro ha
    exact h0 (by rw [hfl, ha]; simp)
  · intro a ha
    have hfl : (free_node ht a).free_list = ht.free_list ++ [a] := by simp [free_node, ha]
    rw [allocate_node_pop (free_node ht a) k v ht.free_list a hfl ha]
    simp [free_node, ha]

/-- A witness for `allocate_node_spec`: a table of capacity 1 from which key 3 has
been deleted, so that node 1 is on the free list. -/
theorem allocate_node_spec_witness :
    (run_ops (create 1) [Op.insert 3 30, Op.insert 4 40, Op.delete 3]).free_list = [1] ∧
    allocate_node (run_ops (create 1) [Op.insert 3 30, Op.insert 4 40, Op.delete 3]) 8 80 =
      ({ run_ops (create 1) [Op.insert 3 30, Op.insert 4 40, Op.delete 3] with free_list := [] },
        { addr := 1, key := 8, value := 80, next := 0 }) ∧
    (allocate_node (run_ops (create 1) [Op.insert 3 30, Op.insert 4 40, Op.delete 3]) 8
      80).2.next = 0 :=
  ⟨by decide,
    (allocate_node_spec (run_ops (create 1) [Op.insert 3 30, Op.insert 4 40, Op.delete 3]) 8 80
      (by decide)).1 [] 1 (by decide),
    (allocate_node_spec (run_ops (create 1) [Op.insert 3 30, Op.insert 4 40, Op.delete 3]) 8 80
      (by decide)).2.2.2.2.2.1⟩

/-! ### Separation of live and free nodes -/

theorem flatten_set_perm {α : Type} :
    ∀ (l : List (List α)) (b : Nat) (c ys : List α), b < l.length →
      (ys ++ l[b]?.getD []).Perm c → (ys ++ l.flatten).Perm (l.set b c).flatten := by
  intro l
  induction l with
  | nil => intro b c ys hb; simp at hb
  | cons x xs ih =>
    intro b c ys hb hp
    cases b with
    | zero =>
      simp only [List.getElem?_cons_zero, Option.getD_some] at hp
      simp only [List.set_cons_zero, List.flatten_cons]
      rw [← List.append_assoc]
      exact hp.append_right _
    | succ b =>
      simp only [List.getElem?_cons_succ] at hp
      simp only [List.set_cons_succ, List.flatten_cons]
      have h1 := ih b c ys (by simpa using hb) hp
      have h2 : (ys ++ (x ++ xs.flatten)).Perm (x ++ (ys ++ xs.flatten)) := by
        rw [← List.append_assoc, ← List.append_assoc]
        exact List.perm_append_comm.append_right _
      exact h2.trans (h1.append_left x)

theorem chain_addrs_insert {ht : PthreadHashTable} (hC : 1 ≤ ht.capacity) (hwf : WF ht)
    (k v : Nat) (h : get ht k = none) :
    (chain_addrs (insert_one ht k v).1).Perm ((allocate_node ht k v).2.addr :: chain_addrs ht) := by
  rw [insert_one_of_none v h]
  have hlt := bucket_index_lt hC hwf k
  have := flatten_set_perm ht.buckets (k % ht.capacity)
    ((allocate_node ht k v).2.cell :: bucket_of ht k) [(allocate_node ht k v).2.cell] hlt
    (by simp only [bucket_of, size_eq]; exact List.Perm.refl _)
  have h2 := (this.map Node.addr).symm
  simpa [chain_addrs] using h2

theorem chain_addrs_delete {ht : PthreadHashTable} (hC : 1 ≤ ht.capacity) (hwf : WF ht)
    (k : Nat) (victim : Node) (rest : List Node)
    (hu : chain_unlink (bucket_of ht k) k = some (victim, rest)) :
    (chain_addrs ht).Perm
      (victim.addr :: (ht.buckets.set (k % ht.capacity) rest).flatten.map Node.addr) := by
  have hlt := bucket_index_lt hC hwf k
  obtain ⟨pre, post, h1, h2, _, _⟩ := chain_unlink_split hu
  have hlt2 : k % ht.capacity < (ht.buckets.set (k % ht.capacity) rest).length := by
    rw [List.length_set]; exact hlt
  have hback : (ht.buckets.set (k % ht.capacity) rest).set (k % ht.capacity) (bucket_of ht k) =
      ht.buckets := by
    rw [List.set_set]
    apply List.ext_getElem?
    intro j
    rw [List.getElem?_set]
    by_cases e : k % ht.capacity = j
    · subst e
      simp only [if_true, hlt, bucket_of, size_eq]
      rw [List.getElem?_eq_getElem hlt]
      rfl
    · simp [e]
  have := flatten_set_perm (ht.buckets.set (k % ht.capacity) rest) (k % ht.capacity)
    (bucket_of ht k) [victim] hlt2 (by
      rw [getD_set_chain _ _ _ _ hlt, if_pos rfl, h1, h2]
      show (victim :: (pre ++ post)).Perm (pre ++ victim :: post)
      exact List.perm_middle.symm)
  rw [hback] at this
  have h3 := (this.map Node.addr).symm
  simpa [chain_addrs] using h3

theorem sep_of_perm {ht ht1 : PthreadHashTable}
    (hp : (chain_addrs ht1 ++ (ht1.free_list ++ unused_pool ht1)).Perm
      (chain_addrs ht ++ (ht.free_list ++ unused_pool ht)))
    (hn : ht.heap_next ≤ ht1.heap_next) (hs : Sep ht) : Sep ht1 := by
  refine ⟨hp.nodup_iff.mpr hs.1, by have := hs.2.1; omega, ?_⟩
  intro a ha
  have := hs.2.2 a (hp.mem_iff.mp ha)
  exact ⟨this.1, by omega⟩

theorem insert_one_Sep {ht : PthreadHashTable} (hC : 1 ≤ ht.capacity) (hwf : WF ht)
    (hs : Sep ht) (k v : Nat) : Sep (insert_one ht k v).1 := by
  by_cases h : get ht k = none
  · have hca := chain_addrs_insert hC hwf k v h
    have hfields : (insert_one ht k v).1.free_list = (allocate_node ht k v).1.free_list ∧
        (insert_one ht k v).1.node_pool = (allocate_node ht k v).1.node_pool ∧
        (insert_one ht k v).1.pool_index = (allocate_node ht k v).1.pool_index ∧
        (insert_one ht k v).1.heap_next = (allocate_node ht k v).1.heap_next := by
      rw [insert_one_of_none v h]
      exact ⟨rfl, rfl, rfl, rfl⟩
    rcases List.eq_nil_or_concat ht.free_list with hfl | ⟨init, a, hfl⟩
    · by_cases hidx : ht.pool_index < ht.node_pool.length
      · have hal := allocate_node_pool ht k v hfl hidx
        rw [hal] at hca hfields
        simp only at hca hfields
        have hdrop : unused_pool ht =
            ht.node_pool[ht.pool_index]?.getD 0 :: unused_pool (insert_one ht k v).1 := by
          unfold unused_pool
          rw [hfields.2.1, hfields.2.2.1, List.getElem?_eq_getElem hidx]
          exact List.drop_eq_getElem_cons hidx
        apply sep_of_perm _ (by rw [hfields.2.2.2]) hs
        rw [hdrop, hfields.1, hfl]
        rw [List.perm_iff_count]
        intro x
        have := hca.count_eq x
        simp only [List.count_append, List.count_cons, List.count_nil] at this ⊢
        omega
      · have hal := allocate_node_heap ht k v hfl (Nat.not_lt.mp hidx)
        rw [hal] at hca hfields
        simp only at hca hfields
        have hu0 : unused_pool ht = [] := by
          unfold unused_pool
          exact List.drop_eq_nil_of_le (Nat.not_lt.mp hidx)
        have hu1 : unused_pool (insert_one ht k v).1 = [] := by
          unfold unused_pool
          rw [hfields.2.1, hfields.2.2.1]
          exact List.drop_eq_nil_of_le (by have := Nat.not_lt.mp hidx; omega)
        have hp : (chain_addrs (insert_one ht k v).1 ++
            ((insert_one ht k v).1.free_list ++ unused_pool (insert_one ht k v).1)).Perm
            (ht.heap_next :: (chain_addrs ht ++ (ht.free_list ++ unused_pool ht))) := by
          rw [hu0, hu1, hfields.1, hfl]
          simpa using hca
        refine ⟨hp.nodup_iff.mpr (List.nodup_cons.mpr ⟨?_, hs.1⟩), ?_, ?_⟩
        · intro hm
          have := (hs.2.2 _ hm).2
          omega
        · rw [hfields.2.2.2]
          omega
        · intro x hx
          rw [hfields.2.2.2]
          rcases List.mem_cons.mp (hp.mem_iff.mp hx) with e | e
          · exact ⟨by rw [e]; exact hs.2.1, by omega⟩
          · have := hs.2.2 x e
            exact ⟨this.1, by omega⟩
    · rw [List.concat_eq_append] at hfl
      have ha : a ≠ 0 := by
        have := hs.2.2 a (by rw [hfl]; simp)
        exact this.1
      have hal := allocate_node_pop ht k v init a hfl ha
      rw [hal] at hca hfields
      simp only at hca hfields
      have hup : unused_pool (insert_one ht k v).1 = unused_pool ht := by
        unfold unused_pool
        rw [hfields.2.1, hfields.2.2.1]
      apply sep_of_perm _ (by rw [hfields.2.2.2]) hs
      rw [hup, hfields.1, hfl]
      rw [List.perm_iff_count]
      intro x
      have := hca.count_eq x
      simp only [List.count_append, List.count_cons, List.count_nil] at this ⊢
      omega
  · rw [insert_one_of_some v h]
    exact hs

theorem delete_one_fields {ht : PthreadHashTable} (k : Nat) (victim : Node) (rest : List Node)
    (he : delete_one ht k =
      (free_node { ht with buckets := ht.buckets.set (k % ht.capacity) rest } victim.addr, 1))
    (ha : victim.addr ≠ 0) :
    (delete_one ht k).1.buckets = ht.buckets.set (k % ht.capacity) rest ∧
    (delete_one ht k).1.free_list = ht.free_list ++ [victim.addr] ∧
    (delete_one ht k).1.node_pool = ht.node_pool ∧
    (delete_one ht k).1.pool_index = ht.pool_index ∧
    (delete_one ht k).1.heap_next = ht.heap_next := by
  rw [he]
  simp [free_node, ha]

theorem delete_one_Sep {ht : PthreadHashTable} (hC : 1 ≤ ht.capacity) (hwf : WF ht)
    (hs : Sep ht) (k : Nat) : Sep (delete_one ht k).1 := by
  by_cases h : get ht k = none
  · rw [delete_one_of_none h]; exact hs
  · obtain ⟨victim, rest, hu, he⟩ := delete_one_of_some h
    have hca := chain_addrs_delete hC hwf k victim rest hu
    have ha : victim.addr ≠ 0 :=
      (hs.2.2 victim.addr (List.mem_append_left _ (hca.mem_iff.mpr (List.mem_cons_self _ _)))).1
    obtain ⟨f1, f2, f3, f4, f5⟩ := delete_one_fields k victim rest he ha
    have hup : unused_pool (delete_one ht k).1 = unused_pool ht := by
      unfold unused_pool
      rw [f3, f4]
    have hch : chain_addrs (delete_one ht k).1 =
        (ht.buckets.set (k % ht.capacity) rest).flatten.map Node.addr := by
      unfold chain_addrs
      rw [f1]
    apply sep_of_perm _ (by rw [f5]) hs
    rw [hup, f2, hch]
    rw [List.perm_iff_count]
    intro x
    have := hca.count_eq x
    simp only [List.count_append, List.count_cons, List.count_nil] at this ⊢
    omega

theorem create_Sep (cap : Nat) : Sep (create cap) := by
  have hch : chain_addrs (create cap) = [] := by
    unfold chain_addrs
    have : (create cap).buckets.flatten = [] := by
      rw [List.flatten_eq_nil_iff]
      intro l hl
      simp only [create] at hl
      exact List.eq_of_mem_replicate hl
    rw [this]
    rfl
  have hun : unused_pool (create cap) =
      (List.range (min POOL_SIZE (cap * 10))).map (fun i => i + 1) := by
    simp [unused_pool, create]
  refine ⟨?_, by simp [create], ?_⟩
  · rw [hch, hun]
    simp only [create, List.nil_append]
    exact (List.nodup_range _).map (fun a b h => by simpa using h)
  · intro a ha
    rw [hch, hun] at ha
    simp only [create, List.nil_append, List.mem_map, List.mem_range] at ha
    obtain ⟨i, hi, rfl⟩ := ha
    simp only [create]
    omega

theorem apply_op_Sep {ht : PthreadHashTable} (hC : 1 ≤ ht.capacity) (hwf : WF ht)
    (hs : Sep ht) (op : Op) : Sep (apply_op ht op).1 := by
  cases op with
  | insert k v => exact insert_one_Sep hC hwf hs k v
  | lookup k => exact hs
  | delete k => exact delete_one_Sep hC hwf hs k

theorem run_ops_Sep (ops : List Op) :
    ∀ (ht : PthreadHashTable), 1 ≤ ht.capacity → WF ht → Sep ht → Sep (run_ops ht ops) := by
  induction ops with
  | nil => intro ht _ _ hs; exact hs
  | cons op rest ih =>
    intro ht hC hwf hs
    obtain ⟨h1, h2⟩ := apply_op_WF hC hwf op
    exact ih (apply_op ht op).1 (by rw [h2]; exact hC) h1 (apply_op_Sep hC hwf hs op)

/-- C28 (live/free separation).  After any sequence of single calls on a new table
of capacity at least 1: no node of a bucket chain is on the free list; no node
occurs twice in the chains, be it in one chain or in two; no node is twice on the
free list.  A delete that returns 1 unlinks one node, with the key deleted, from the
chain of its bucket: that node is in no chain afterwards, it is pushed on the back
of the free list, and the pool, the pool index and the allocator are left as they
were. -/
theorem live_free_separation (cap : Nat) (hC : 1 ≤ cap) (ops : List Op) :
    (∀ a ∈ chain_addrs (run_ops (create cap) ops), a ∉ (run_ops (create cap) ops).free_list) ∧
    (chain_addrs (run_ops (create cap) ops)).Nodup ∧
    (run_ops (create cap) ops).free_list.Nodup ∧
    (∀ k, (delete_one (run_ops (create cap) ops) k).2 = 1 →
      ∃ victim, victim ∈ bucket_of (run_ops (create cap) ops) k ∧ victim.key = k ∧
        victim.addr ∉ chain_addrs (delete_one (run_ops (create cap) ops) k).1 ∧
        (delete_one (run_ops (create cap) ops) k).1.free_list =
          (run_ops (create cap) ops).free_list ++ [victim.addr] ∧
        (delete_one (run_ops (create cap) ops) k).1.node_pool =
          (run_ops (create cap) ops).node_pool ∧
        (delete_one (run_ops (create cap) ops) k).1.pool_index =
          (run_ops (create cap) ops).pool_index ∧
        (delete_one (run_ops (create cap) ops) k).1.heap_next =
          (run_ops (create cap) ops).heap_next) := by
  obtain ⟨hwf, hcap⟩ := run_ops_WF ops (create cap) hC (create_WF cap)
  have hC1 : 1 ≤ (run_ops (create cap) ops).capacity := by rw [hcap]; exact hC
  have hs := run_ops_Sep ops (create cap) hC (create_WF cap) (create_Sep cap)
  have hnd := hs.1
  rw [List.nodup_append] at hnd
  obtain ⟨hnd1, hnd2, hdisj⟩ := hnd
  rw [List.nodup_append] at hnd2
  refine ⟨?_, hnd1, hnd2.1, ?_⟩
  · intro a ha hf
    exact hdisj ha (List.mem_append_left _ hf)
  · intro k hk
    have hsome : get (run_ops (create cap) ops) k ≠ none := by
      intro hn
      rw [delete_one_of_none hn] at hk
      cases hk
    obtain ⟨victim, rest, hu, he⟩ := delete_one_of_some hsome
    have hca := chain_addrs_delete hC1 hwf k victim rest hu
    have hin : victim.addr ∈ chain_addrs (run_ops (create cap) ops) :=
      hca.mem_iff.mpr (List.mem_cons_self _ _)
    have ha : victim.addr ≠ 0 := (hs.2.2 victim.addr (List.mem_append_left _ hin)).1
    obtain ⟨f1, f2, f3, f4, f5⟩ := delete_one_fields k victim rest he ha
    obtain ⟨h1, h2, _, _, _⟩ := chain_unlink_some hu
    refine ⟨victim, h2, h1, ?_, f2, f3, f4, f5⟩
    have hnd3 := hca.nodup_iff.mp hnd1
    unfold chain_addrs
    rw [f1]
    exact (List.nodup_cons.mp hnd3).1

/-- A witness for `live_free_separation`: capacity 1 and a history that reuses a
released node. -/
theorem live_free_separation_witness :
    (chain_addrs (run_ops (create 1) [Op.insert 3 30, Op.insert 4 40, Op.delete 3,
        Op.insert 5 50, Op.delete 4])).Nodup ∧
    (run_ops (create 1) [Op.insert 3 30, Op.insert 4 40, Op.delete 3,
        Op.insert 5 50, Op.delete 4]).free_list.Nodup :=
  ⟨(live_free_separation 1 (by decide) [Op.insert 3 30, Op.insert 4 40, Op.delete 3,
      Op.insert 5 50, Op.delete 4]).2.1,
    (live_free_separation 1 (by decide) [Op.insert 3 30, Op.insert 4 40, Op.delete 3,
      Op.insert 5 50, Op.delete 4]).2.2.1⟩

/-! ### Teardown -/

/-- C22 (hash table teardown), evaluated on the code.  Destroying a table of
capacity 1 that holds the single entry `(1, 10)` passes the address of that entry's
node, pool slot 1, to `std::free` twice: once by the walk of the chain and once by
the loop over the pool.  After eleven inserts into one bucket and a delete of the
last key, the node of that key, a fallback heap allocation that now sits on the free
list, is not passed to `std::free` at all, while the ten pool nodes, all of them in
the chain, are each freed twice. -/
theorem destroy_frees_twice :
    destroy (run_ops (create 1) [Op.insert 1 10]) = [1, 1, 2, 3, 4, 5, 6, 7, 8, 9, 10] ∧
    (run_ops (create 1) [Op.insert 1 10, Op.insert 2 20, Op.insert 3 30, Op.insert 4 40,
        Op.insert 5 50, Op.insert 6 60, Op.insert 7 70, Op.insert 8 80, Op.insert 9 90,
        Op.insert 10 100, Op.insert 11 110, Op.delete 11]).free_list = [11] ∧
    11 ∉ destroy (run_ops (create 1) [Op.insert 1 10, Op.insert 2 20, Op.insert 3 30,
        Op.insert 4 40, Op.insert 5 50, Op.insert 6 60, Op.insert 7 70, Op.insert 8 80,
        Op.insert 9 90, Op.insert 10 100, Op.insert 11 110, Op.delete 11]) ∧
    ∀ a ∈ [1, 2, 3, 4, 5, 6, 7, 8, 9, 10],
      (destroy (run_ops (create 1) [Op.insert 1 10, Op.insert 2 20, Op.insert 3 30,
        Op.insert 4 40, Op.insert 5 50, Op.insert 6 60, Op.insert 7 70, Op.insert 8 80,
        Op.insert 9 90, Op.insert 10 100, Op.insert 11 110, Op.delete 11])).count a = 2 := by
  decide

/-! ### Interleaved workers of one batch insert -/

theorem interleaving_perm {ws : List (List Nat)} {sched : List Nat}
    (h : Interleaving ws sched) : sched.Perm ws.flatten := by
  induction h with
  | done ws hall =>
    have : ws.flatten = [] := List.flatten_eq_nil_iff.mpr hall
    rw [this]
  | step ws j i rest sched hj _ ih =>
    have hlt : j < ws.length := by
      by_contra hc
      rw [List.getElem?_eq_none (Nat.not_lt.mp hc)] at hj
      cases hj
    have hlt2 : j < (ws.set j rest).length := by rw [List.length_set]; exact hlt
    have hback : (ws.set j rest).set j (i :: rest) = ws := by
      rw [List.set_set]
      apply List.ext_getElem?
      intro m
      rw [List.getElem?_set]
      by_cases e : j = m
      · subst e
        simp [hlt, hj]
      · simp [e]
    have := flatten_set_perm (ws.set j rest) j (i :: rest) [i] hlt2 (by
      rw [List.getElem?_set_self hlt]
      exact List.Perm.refl _)
    rw [hback] at this
    exact (List.Perm.cons i ih).trans this

theorem worker_indices_flatten (n : Nat) (numThreads : Int) :
    (worker_indices n numThreads).flatten = List.range n := by
  unfold worker_indices batch_slices
  rw [List.range_eq_range', flatten_slice_list]
  simp only [Nat.zero_mul, Nat.zero_add, Nat.min_zero, Nat.sub_zero]
  rw [Nat.min_eq_left (chunk_covers n numThreads), List.range_eq_range']

theorem exists_first (p : Nat → Prop) :
    ∀ l : List Nat, (∃ x ∈ l, p x) →
      ∃ pre i post, l = pre ++ i :: post ∧ p i ∧ ∀ j ∈ pre, ¬ p j := by
  intro l
  induction l with
  | nil => rintro ⟨x, hx, _⟩; cases hx
  | cons a l ih =>
    rintro ⟨x, hx, hpx⟩
    by_cases ha : p a
    · exact ⟨[], a, l, rfl, ha, fun j hj => by cases hj⟩
    · rcases List.mem_cons.mp hx with e | e
      · exact absurd (e ▸ hpx) ha
      · obtain ⟨pre, i, post, h1, h2, h3⟩ := ih ⟨x, e, hpx⟩
        refine ⟨a :: pre, i, post, by rw [h1]; rfl, h2, ?_⟩
        intro j hj
        rcases List.mem_cons.mp hj with e1 | e1
        · rw [e1]; exact ha
        · exact h3 j e1

theorem run_schedule_spec (keys vals : List Nat) :
    ∀ (sched : List Nat) (ht : PthreadHashTable) (results : List Nat),
      1 ≤ ht.capacity → WF ht → sched.Nodup → (∀ i ∈ sched, i < results.length) →
      (run_schedule keys vals sched ht results).2.length = results.length ∧
      (∀ j, j ∉ sched → (run_schedule keys vals sched ht results).2[j]? = results[j]?) ∧
      (∀ pre i post, sched = pre ++ i :: post →
        ((get ht (keys[i]?.getD 0) = none ∧
            ∀ j ∈ pre, keys[j]?.getD 0 ≠ keys[i]?.getD 0) →
          (run_schedule keys vals sched ht results).2[i]? = some 1) ∧
        (¬ (get ht (keys[i]?.getD 0) = none ∧
            ∀ j ∈ pre, keys[j]?.getD 0 ≠ keys[i]?.getD 0) →
          (run_schedule keys vals sched ht results).2[i]? = some 0)) := by
  intro sched
  induction sched with
  | nil =>
    intro ht results _ _ _ _
    refine ⟨rfl, fun j _ => rfl, ?_⟩
    intro pre i post h
    simp at h
  | cons i0 sched ih =>
    intro ht results hC hwf hnd hlt
    have hC0 : 1 ≤ (insert_one ht (keys[i0]?.getD 0) (vals[i0]?.getD 0)).1.capacity := by
      rw [insert_one_capacity]; exact hC
    have hwf0 := insert_one_WF hC hwf (keys[i0]?.getD 0) (vals[i0]?.getD 0)
    have hnd0 := (List.nodup_cons.mp hnd).2
    have hnot := (List.nodup_cons.mp hnd).1
    have hi0 : i0 < results.length := hlt i0 (List.mem_cons_self _ _)
    obtain ⟨h1, h2, h3⟩ := ih (insert_one ht (keys[i0]?.getD 0) (vals[i0]?.getD 0)).1
      (results.set i0 (insert_one ht (keys[i0]?.getD 0) (vals[i0]?.getD 0)).2) hC0 hwf0 hnd0
      (fun i hi => by rw [List.length_set]; exact hlt i (List.mem_cons_of_mem _ hi))
    have hget0 := insert_one_get hC hwf (keys[i0]?.getD 0) (vals[i0]?.getD 0)
    simp only [run_schedule]
    refine ⟨by rw [h1, List.length_set], ?_, ?_⟩
    · intro j hj
      have hj1 : j ≠ i0 := fun e => hj (e ▸ List.mem_cons_self _ _)
      have hj2 : j ∉ sched := fun e => hj (List.mem_cons_of_mem _ e)
      rw [h2 j hj2, List.getElem?_set_ne (fun e => hj1 e.symm)]
    · intro pre i post hdec
      cases pre with
      | nil =>
        simp only [List.nil_append, List.cons.injEq] at hdec
        obtain ⟨rfl, rfl⟩ := hdec
        rw [h2 i0 hnot, List.getElem?_set_self hi0, insert_one_result]
        constructor
        · intro hc
          simp [hc.1]
        · intro hc
          have : get ht (keys[i0]?.getD 0) ≠ none := fun e => hc ⟨e, fun j hj => by cases hj⟩
          simp [this]
      | cons p0 pre1 =>
        simp only [List.cons_append, List.cons.injEq] at hdec
        obtain ⟨rfl, hdec1⟩ := hdec
        have hcond :
            (get (insert_one ht (keys[i0]?.getD 0) (vals[i0]?.getD 0)).1 (keys[i]?.getD 0) = none ∧
              ∀ j ∈ pre1, keys[j]?.getD 0 ≠ keys[i]?.getD 0) ↔
            (get ht (keys[i]?.getD 0) = none ∧
              ∀ j ∈ i0 :: pre1, keys[j]?.getD 0 ≠ keys[i]?.getD 0) := by
          rw [hget0]
          constructor
          · rintro ⟨ha, hb⟩
            by_cases e : keys[i]?.getD 0 = keys[i0]?.getD 0
            · by_cases e1 : get ht (keys[i0]?.getD 0) = none
              · simp [e, e1] at ha
              · rw [if_neg (fun h => e1 h.1)] at ha
                rw [e] at ha
                exact absurd ha e1
            · rw [if_neg (fun h => e h.2)] at ha
              refine ⟨ha, fun j hj => ?_⟩
              rcases List.mem_cons.mp hj with e2 | e2
              · rw [e2]; exact fun h => e h.symm
              · exact hb j e2
          · rintro ⟨ha, hb⟩
            have e : keys[i]?.getD 0 ≠ keys[i0]?.getD 0 :=
              fun h => hb i0 (List.mem_cons_self _ _) h.symm
            rw [if_neg (fun h => e h.2)]
            exact ⟨ha, fun j hj => hb j (List.mem_cons_of_mem _ hj)⟩
        obtain ⟨h3a, h3b⟩ := h3 pre1 i post hdec1
        exact ⟨fun hc => h3a (hcond.mpr hc), fun hc => h3b (fun h => hc (hcond.mp h))⟩

/-- C24 (concurrent inserts of one key).  Model: the per-index critical sections
of the workers of one `batch_insert` are atomic steps that take effect in some order
`sched`, an interleaving of the index sequences of the workers' slices, for any
thread hint.  On a well-formed table with capacity at least 1 and arrays of `n`
slots: for every key of the batch that is absent beforehand there is one index with
that key whose result is 1, and every other index with that key has result 0; and
a batch of pairwise distinct absent keys has result 1 in every slot. -/
theorem concurrent_inserts (ht : PthreadHashTable) (keys vals results : List Nat) (n : Nat)
    (numThreads : Int) (sched : List Nat) (hC : 1 ≤ ht.capacity) (hwf : WF ht)
    (hk : keys.length = n) (hr : results.length = n)
    (hi : Interleaving (worker_indices n numThreads) sched) :
    (∀ k, ¬ present ht k → k ∈ keys →
      ∃ i, i < n ∧ keys[i]?.getD 0 = k ∧
        (run_schedule keys vals sched ht results).2[i]? = some 1 ∧
        ∀ j, j < n → j ≠ i → keys[j]?.getD 0 = k →
          (run_schedule keys vals sched ht results).2[j]? = some 0) ∧
    (keys.Nodup → (∀ k ∈ keys, ¬ present ht k) →
      (run_schedule keys vals sched ht results).2 = List.replicate n 1) := by
  have hperm : sched.Perm (List.range n) := by
    rw [← worker_indices_flatten n numThreads]
    exact interleaving_perm hi
  have hnd : sched.Nodup := hperm.nodup_iff.mpr (List.nodup_range n)
  have hmem : ∀ i, i ∈ sched ↔ i < n := fun i => by
    rw [hperm.mem_iff, List.mem_range]
  obtain ⟨h1, _, h3⟩ := run_schedule_spec keys vals sched ht results hC hwf hnd
    (fun i hi => by rw [hr]; exact (hmem i).mp hi)
  constructor
  · intro k habs hkin
    obtain ⟨i0, hi0, hki0⟩ := List.mem_iff_getElem.mp hkin
    have hki0' : keys[i0]?.getD 0 = k := by
      rw [List.getElem?_eq_getElem hi0]; exact hki0
    obtain ⟨pre, i, post, hdec, hpi, hpre⟩ :=
      exists_first (fun x => keys[x]?.getD 0 = k) sched
        ⟨i0, (hmem i0).mpr (by omega), hki0'⟩
    have hin : i ∈ sched := by rw [hdec]; simp
    refine ⟨i, (hmem i).mp hin, hpi, ?_, ?_⟩
    · apply (h3 pre i post hdec).1
      rw [hpi]
      exact ⟨(get_eq_none_iff hC hwf k).mpr habs, hpre⟩
    · intro j hj hji hkj
      have hjs : j ∈ sched := (hmem j).mpr hj
      rw [hdec] at hjs
      rcases List.mem_append.mp hjs with e | e
      · exact absurd hkj (hpre j e)
      · rcases List.mem_cons.mp e with e1 | e1
        · exact absurd e1 hji
        · obtain ⟨post1, post2, hsplit⟩ := List.append_of_mem e1
          have hdec2 : sched = (pre ++ i :: post1) ++ j :: post2 := by
            rw [hdec, hsplit]
            simp
          apply (h3 (pre ++ i :: post1) j post2 hdec2).2
          rintro ⟨_, hall⟩
          exact hall i (by simp) (by rw [hpi, hkj])
  · intro hknd hall
    apply List.ext_getElem?
    intro j
    by_cases hj : j < n
    · obtain ⟨pre, post, hdec⟩ := List.append_of_mem ((hmem j).mpr hj)
      rw [(h3 pre j post hdec).1 ⟨?_, ?_⟩]
      · simp [List.getElem?_replicate, hj]
      · exact (get_eq_none_iff hC hwf _).mpr (hall _ (getD_mem_keys keys j (by omega)))
      · intro x hx e
        have hxs : x ∈ sched := by rw [hdec]; exact List.mem_append_left _ hx
        have hxn : x < n := (hmem x).mp hxs
        have hne : x ≠ j := by
          intro exj
          rw [hdec] at hnd
          rw [exj] at hx
          exact (List.nodup_append.mp hnd).2.2 hx (List.mem_cons_self _ _)
        rw [List.getElem?_eq_getElem (by omega : x < keys.length),
          List.getElem?_eq_getElem (by omega : j < keys.length)] at e
        have := (hknd.getElem_inj_iff).mp (by simpa using e)
        exact hne this
    · rw [List.getElem?_eq_none (by omega), List.getElem?_eq_none (by simp; omega)]

/-- A witness for `concurrent_inserts`: three indices, two workers with the slices
`[0, 2)` and `[2, 3)`, and the schedule in which the second worker runs between the
two steps of the first; the keys at the indices 0 and 2 are equal. -/
theorem concurrent_inserts_witness :
    (run_schedule [7, 8, 7] [70, 80, 71] [0, 2, 1] (create 4) [0, 0, 0]).2 = [1, 1, 0] ∧
    ∃ i, i < 3 ∧ ([7, 8, 7] : List Nat)[i]?.getD 0 = 7 ∧
      (run_schedule [7, 8, 7] [70, 80, 71] [0, 2, 1] (create 4) [0, 0, 0]).2[i]? = some 1 ∧
      ∀ j, j < 3 → j ≠ i → ([7, 8, 7] : List Nat)[j]?.getD 0 = 7 →
        (run_schedule [7, 8, 7] [70, 80, 71] [0, 2, 1] (create 4) [0, 0, 0]).2[j]? = some 0 :=
  ⟨by decide,
    (concurrent_inserts (create 4) [7, 8, 7] [70, 80, 71] [0, 0, 0] 3 2 [0, 2, 1] (by decide)
      (by decide) rfl rfl
      (Interleaving.step _ 0 0 [1] [2, 1] (by decide)
        (Interleaving.step _ 1 2 [] [1] (by decide)
          (Interleaving.step _ 0 1 [] [] (by decide)
            (Interleaving.done _ (by decide)))))).1 7 (by decide) (by decide)⟩

/-! ### Other keys and the bucket index -/

/-- C35 (operations on one key do not disturb other keys).  On a well-formed table
with capacity at least 1, for keys `k1 ≠ k`: a lookup of `k1` writes the same value
after an insert of `k` with any value, whether the insert succeeds or not, and after
a delete of `k`, as it writes before; the buckets of the two keys may be the same. -/
theorem other_keys_untouched (ht : PthreadHashTable) (k k1 v : Nat) (hC : 1 ≤ ht.capacity)
    (hwf : WF ht) (hne : k1 ≠ k) :
    (lookup_one (insert_one ht k v).1 k1).2 = (lookup_one ht k1).2 ∧
    (lookup_one (delete_one ht k).1 k1).2 = (lookup_one ht k1).2 := by
  constructor
  · rw [lookup_one_result, lookup_one_result, insert_one_get hC hwf]
    simp [hne]
  · rw [lookup_one_result, lookup_one_result, delete_one_get hC hwf]
    simp [hne]

/-- A witness for `other_keys_untouched`: the keys 1 and 3 share bucket 1 of a table
of capacity 2 in which 3 is bound to 30; the insert of 1 succeeds. -/
theorem other_keys_untouched_witness :
    (insert_one (run_ops (create 2) [Op.insert 3 30]) 1 10).2 = 1 ∧
    1 % 2 = 3 % 2 ∧
    (lookup_one (run_ops (create 2) [Op.insert 3 30]) 3).2 = 30 ∧
    (lookup_one (insert_one (run_ops (create 2) [Op.insert 3 30]) 1 10).1 3).2 =
      (lookup_one (run_ops (create 2) [Op.insert 3 30]) 3).2 ∧
    (lookup_one (delete_one (run_ops (create 2) [Op.insert 3 30]) 1).1 3).2 =
      (lookup_one (run_ops (create 2) [Op.insert 3 30]) 3).2 :=
  ⟨by decide, by decide, by decide,
    other_keys_untouched (run_ops (create 2) [Op.insert 3 30]) 1 3 10 (by decide) (by decide)
      (by decide)⟩

/-- C36 (bucket index safety).  In every table reached from a new table of capacity
`C >= 1` by single calls, the bucket array has `C` entries and the index
`key % size()` computed by insert, lookup and delete is below `C`, for every key.
The constructor accepts capacity 0: the table it builds has capacity 0 and no
bucket at all, so the modulus has divisor 0 and no index is in range. -/
theorem bucket_index_safe (cap : Nat) (hC : 1 ≤ cap) (ops : List Op) (key : Nat) :
    (run_ops (create cap) ops).size = cap ∧
    (run_ops (create cap) ops).buckets.length = cap ∧
    key % (run_ops (create cap) ops).size < (run_ops (create cap) ops).buckets.length ∧
    key % cap < cap ∧
    (create 0).size = 0 ∧ (create 0).buckets.length = 0 := by
  have hwf := run_ops_WF ops (create cap) hC (create_WF cap)
  have hcap : (run_ops (create cap) ops).capacity = cap := hwf.2
  have hlen : (run_ops (create cap) ops).buckets.length = cap := by rw [hwf.1.1, hcap]
  refine ⟨by rw [size_eq, hcap], hlen, ?_, Nat.mod_lt _ hC, rfl, rfl⟩
  rw [size_eq, hcap, hlen]
  exact Nat.mod_lt _ hC

/-- A witness for `bucket_index_safe`: capacity 3, a short history and the largest
32-bit key. -/
theorem bucket_index_safe_witness :
    4294967295 % (run_ops (create 3) [Op.insert 4 40, Op.delete 4, Op.insert 5 50]).size <
      (run_ops (create 3) [Op.insert 4 40, Op.delete 4, Op.insert 5 50]).buckets.length :=
  (bucket_index_safe 3 (by decide) [Op.insert 4 40, Op.delete 4, Op.insert 5 50]
    4294967295).2.2.1

/-! ### The partition of a batch -/

theorem run_steps_length (step : PthreadHashTable → Nat → PthreadHashTable × Nat) :
    ∀ (sched : List Nat) (ht : PthreadHashTable) (results : List Nat),
      (run_steps step sched ht results).2.length = results.length := by
  intro sched
  induction sched with
  | nil => intro ht results; rfl
  | cons i rest ih =>
    intro ht results
    simp only [run_steps]
    rw [ih, List.length_set]

theorem run_steps_other (step : PthreadHashTable → Nat → PthreadHashTable × Nat) :
    ∀ (sched : List Nat) (ht : PthreadHashTable) (results : List Nat) (j : Nat),
      j ∉ sched → (run_steps step sched ht results).2[j]? = results[j]? := by
  intro sched
  induction sched with
  | nil => intro ht results j _; rfl
  | cons i rest ih =>
    intro ht results j hj
    simp only [run_steps]
    rw [ih _ _ j (fun h => hj (List.mem_cons_of_mem _ h))]
    exact List.getElem?_set_ne (fun e => hj (by rw [e]; exact List.mem_cons_self _ _))

/-- The slot `i` of the result array after the steps of `sched`, in which `i` occurs
once: it holds what the step for `i` has computed on the table left by the steps
before it. -/
theorem run_steps_at (step : PthreadHashTable → Nat → PthreadHashTable × Nat) :
    ∀ (pre : List Nat) (i : Nat) (post : List Nat) (ht : PthreadHashTable)
      (results : List Nat), i ∉ post → i < results.length →
      (run_steps step (pre ++ i :: post) ht results).2[i]? =
        some (step (run_steps step pre ht results).1 i).2 := by
  intro pre
  induction pre with
  | nil =>
    intro i post ht results hpost hi
    simp only [List.nil_append, run_steps]
    rw [run_steps_other step post _ _ i hpost, List.getElem?_set_self hi]
  | cons a pre ih =>
    intro i post ht results hpost hi
    simp only [List.cons_append, run_steps]
    exact ih i post _ _ hpost (by rw [List.length_set]; exact hi)

theorem insert_loop_steps (keys vals : List Nat) (cnt : Nat) :
    ∀ (i : Nat) (ht : PthreadHashTable) (results : List Nat),
      insert_loop keys vals cnt i ht results =
        run_steps (insert_step keys vals) (List.range' i cnt) ht results := by
  induction cnt with
  | zero => intro i ht results; rfl
  | succ cnt ih =>
    intro i ht results
    simp only [insert_loop, List.range'_succ, run_steps, insert_step]
    exact ih _ _ _

theorem lookup_loop_steps (keys : List Nat) (cnt : Nat) :
    ∀ (i : Nat) (ht : PthreadHashTable) (results : List Nat),
      lookup_loop keys cnt i ht results =
        run_steps (lookup_step keys) (List.range' i cnt) ht results := by
  induction cnt with
  | zero => intro i ht results; rfl
  | succ cnt ih =>
    intro i ht results
    simp only [lookup_loop, List.range'_succ, run_steps, lookup_step]
    exact ih _ _ _

theorem delete_loop_steps (keys : List Nat) (cnt : Nat) :
    ∀ (i : Nat) (ht : PthreadHashTable) (results : List Nat),
      delete_loop keys cnt i ht results =
        run_steps (delete_step keys) (List.range' i cnt) ht results := by
  induction cnt with
  | zero => intro i ht results; rfl
  | succ cnt ih =>
    intro i ht results
    simp only [delete_loop, List.range'_succ, run_steps, delete_step]
    exact ih _ _ _

theorem run_schedule_eq_steps (keys vals : List Nat) :
    ∀ (sched : List Nat) (ht : PthreadHashTable) (results : List Nat),
      run_schedule keys vals sched ht results =
        run_steps (insert_step keys vals) sched ht results := by
  intro sched
  induction sched with
  | nil => intro ht results; rfl
  | cons i rest ih =>
    intro ht results
    simp only [run_schedule, run_steps, insert_step]
    exact ih _ _

theorem slice_list_length_le (n chunk : Nat) (ts : List Nat) :
    (slice_list n chunk ts).length ≤ ts.length := by
  induction ts with
  | nil => exact Nat.le_refl _
  | cons t ts ih =>
    simp only [slice_list]
    split
    · exact Nat.le_succ_of_le ih
    · simp only [List.length_cons]
      omega

/-- A single worker has one execution: its indices in their order. -/
theorem interleaving_single {ws : List (List Nat)} {sched : List Nat}
    (h : Interleaving ws sched) : ws.length ≤ 1 → sched = ws.flatten := by
  induction h with
  | done ws hall =>
    intro _
    exact (List.flatten_eq_nil_iff.mpr hall).symm
  | step ws j i rest sched hj _ ih =>
    intro hlen
    match ws, hlen with
    | [], _ => simp at hj
    | [w], _ =>
      have hj0 : j = 0 := by
        by_contra hne
        have : 1 ≤ j := Nat.one_le_iff_ne_zero.mpr hne
        rw [List.getElem?_eq_none (by simpa using this)] at hj
        cases hj
      subst hj0
      have hw : w = i :: rest := by simpa using hj
      subst hw
      have := ih (by simp)
      simp only [List.set_cons_zero, List.flatten_cons, List.flatten_nil, List.append_nil] at this
      simp [this]

/-- C20 (batch partition).  For every `n` and thread hint, with `T` the clamped
thread count and `chunk = (n + T - 1) / T`: `chunk` is the least number with
`n <= chunk * T` (the ceiling of `n / T`); every slice that is not skipped is a
non-empty interval inside `[0, n)` of at most `chunk` indices; the index ranges of
the slices, concatenated in the order of the loop, are exactly `0, 1, ..., n-1`
(so the slices are adjacent, pairwise disjoint and cover every index once).  A
worker run on a slice is the sequence of the loop bodies of its indices, in
increasing order.  In every execution of the batch, that is for every interleaving
`sched` of the index sequences of the workers and for each of the three loop
bodies: `sched` is a rearrangement of `0, 1, ..., n-1`; the result array keeps its
length and its slots from `n` on; and every index `i < n` occurs at one place of
`sched`, and slot `i` of the final result array holds the result that the body for
`i` computed on the table left by the steps before it.  With one thread the only
execution is `0, 1, ..., n-1`, and it is what the three batch operations compute. -/
theorem batch_partition (n : Nat) (numThreads : Int) :
    1 ≤ clamp_threads numThreads ∧
    n ≤ chunk_size n numThreads * clamp_threads numThreads ∧
    (∀ c, n ≤ c * clamp_threads numThreads → chunk_size n numThreads ≤ c) ∧
    (∀ sl ∈ batch_slices n numThreads,
      sl.1 < sl.2 ∧ sl.2 ≤ n ∧ sl.2 - sl.1 ≤ chunk_size n numThreads) ∧
    ((batch_slices n numThreads).map (fun sl => List.range' sl.1 (sl.2 - sl.1))).flatten =
      List.range n ∧
    (∀ ht keys vals results a b,
      insert_thread_func ht a b keys vals results =
        run_steps (insert_step keys vals) (List.range' a (b - a)) ht results) ∧
    (∀ ht keys results a b,
      lookup_thread_func ht a b keys results =
        run_steps (lookup_step keys) (List.range' a (b - a)) ht results) ∧
    (∀ ht keys results a b,
      delete_thread_func ht a b keys results =
        run_steps (delete_step keys) (List.range' a (b - a)) ht results) ∧
    (∀ sched, Interleaving (worker_indices n numThreads) sched →
      sched.Perm (List.range n) ∧
      ∀ (step : PthreadHashTable → Nat → PthreadHashTable × Nat) (ht : PthreadHashTable)
        (results : List Nat),
        (run_steps step sched ht results).2.length = results.length ∧
        (∀ j, n ≤ j → (run_steps step sched ht results).2[j]? = results[j]?) ∧
        (∀ i, i < n → i < results.length →
          ∃ pre post, sched = pre ++ i :: post ∧ i ∉ pre ∧ i ∉ post ∧
            (run_steps step sched ht results).2[i]? =
              some (step (run_steps step pre ht results).1 i).2)) ∧
    (clamp_threads numThreads = 1 →
      ∀ sched, Interleaving (worker_indices n numThreads) sched →
        sched = List.range n ∧
        (∀ ht keys vals results,
          batch_insert ht keys vals n results numThreads =
            run_steps (insert_step keys vals) sched ht results) ∧
        (∀ ht keys results,
          batch_lookup ht keys n results numThreads =
            run_steps (lookup_step keys) sched ht results) ∧
        (∀ ht keys results,
          batch_delete ht keys n results numThreads =
            run_steps (delete_step keys) sched ht results)) := by
  have hcov := chunk_covers n numThreads
  refine ⟨clamp_threads_pos numThreads, by rw [Nat.mul_comm]; exact hcov,
    fun c hc => chunk_least n numThreads c hc, ?_, ?_, ?_, ?_, ?_, ?_, ?_⟩
  · intro sl hsl
    obtain ⟨t, _, rfl, hlt⟩ := mem_slice_list _ _ _ sl hsl
    have hmul : (t + 1) * chunk_size n numThreads =
        t * chunk_size n numThreads + chunk_size n numThreads := by ring
    refine ⟨hlt, Nat.min_le_left _ _, ?_⟩
    simp only
    rw [hmul]
    omega
  · unfold batch_slices
    rw [List.range_eq_range', flatten_slice_list]
    simp only [Nat.zero_mul, Nat.zero_add, Nat.min_zero, Nat.sub_zero]
    rw [Nat.min_eq_left hcov, List.range_eq_range']
  · intro ht keys vals results a b
    exact insert_loop_steps keys vals (b - a) a ht results
  · intro ht keys results a b
    exact lookup_loop_steps keys (b - a) a ht results
  · intro ht keys results a b
    exact delete_loop_steps keys (b - a) a ht results
  · intro sched hi
    have hperm : sched.Perm (List.range n) := by
      rw [← worker_indices_flatten n numThreads]
      exact interleaving_perm hi
    have hnd : sched.Nodup := hperm.nodup_iff.mpr (List.nodup_range n)
    refine ⟨hperm, fun step ht results => ⟨run_steps_length step sched ht results, ?_, ?_⟩⟩
    · intro j hj
      apply run_steps_other
      intro hmem
      have := List.mem_range.mp (hperm.mem_iff.mp hmem)
      omega
    · intro i hin hir
      have hmem : i ∈ sched := hperm.mem_iff.mpr (List.mem_range.mpr hin)
      obtain ⟨pre, post, hdec⟩ := List.append_of_mem hmem
      rw [hdec] at hnd
      have hnd1 := List.nodup_append.mp hnd
      have hpost : i ∉ post := (List.nodup_cons.mp hnd1.2.1).1
      have hpre : i ∉ pre := fun h => hnd1.2.2 h (List.mem_cons_self _ _)
      refine ⟨pre, post, hdec, hpre, hpost, ?_⟩
      rw [hdec]
      exact run_steps_at step pre i post ht results hpost hir
  · intro hone sched hi
    have hlen : (worker_indices n numThreads).length ≤ 1 := by
      unfold worker_indices batch_slices
      rw [List.length_map]
      have := slice_list_length_le n (chunk_size n numThreads)
        (List.range (clamp_threads numThreads))
      rw [List.length_range] at this
      omega
    have hs : sched = List.range n := by
      rw [interleaving_single hi hlen, worker_indices_flatten]
    subst hs
    refine ⟨rfl, ?_, ?_, ?_⟩
    · intro ht keys vals results
      have h1 := run_slices_whole (fun h s e res => insert_thread_func h s e keys vals res)
        (fun h a res => by simp [insert_thread_func, insert_loop])
        (fun h a b c res hab hbc => insert_thread_func_split keys vals h a b c res hab hbc)
        n numThreads ht results
      unfold batch_insert
      rw [h1, List.range_eq_range']
      exact insert_loop_steps keys vals (n - 0) 0 ht results
    · intro ht keys results
      have h1 := run_slices_whole (fun h s e res => lookup_thread_func h s e keys res)
        (fun h a res => by simp [lookup_thread_func, lookup_loop])
        (fun h a b c res hab hbc => lookup_thread_func_split keys h a b c res hab hbc)
        n numThreads ht results
      unfold batch_lookup
      rw [h1, List.range_eq_range']
      exact lookup_loop_steps keys (n - 0) 0 ht results
    · intro ht keys results
      have h1 := run_slices_whole (fun h s e res => delete_thread_func h s e keys res)
        (fun h a res => by simp [delete_thread_func, delete_loop])
        (fun h a b c res hab hbc => delete_thread_func_split keys h a b c res hab hbc)
        n numThreads ht results
      unfold batch_delete
      rw [h1, List.range_eq_range']
      exact delete_loop_steps keys (n - 0) 0 ht results

/-- A witness for `batch_partition`: two indices with the same key and two threads.
Both orders of the two loop bodies are executions of the batch; the index whose
body runs first gets the result 1 and the other one the result 0, and the value
bound to the key afterwards is that of the first. -/
theorem batch_partition_witness :
    [1, 0].Perm (List.range 2) ∧ [0, 1].Perm (List.range 2) ∧
    (run_steps (insert_step [7, 7] [70, 71]) [1, 0] (create 4) [0, 0]).2 = [0, 1] ∧
    (lookup_one (run_steps (insert_step [7, 7] [70, 71]) [1, 0] (create 4) [0, 0]).1 7).2 = 71 ∧
    (run_steps (insert_step [7, 7] [70, 71]) [0, 1] (create 4) [0, 0]).2 = [1, 0] ∧
    (lookup_one (run_steps (insert_step [7, 7] [70, 71]) [0, 1] (create 4) [0, 0]).1 7).2 = 70 :=
  ⟨((batch_partition 2 2).2.2.2.2.2.2.2.2.1 [1, 0]
      (Interleaving.step _ 1 1 [] [0] (by decide)
        (Interleaving.step _ 0 0 [] [] (by decide) (Interleaving.done _ (by decide))))).1,
    ((batch_partition 2 2).2.2.2.2.2.2.2.2.1 [0, 1]
      (Interleaving.step _ 0 0 [] [1] (by decide)
        (Interleaving.step _ 1 1 [] [] (by decide) (Interleaving.done _ (by decide))))).1,
    by decide, by decide, by decide, by decide⟩

end HashTable

/-! ## Queue: proofs -/

namespace MSQ

/-! ### Linked nodes -/

theorem Linked.lookup {heap : Nat → Option Node} :
    ∀ {cells : List (Nat × Node)} {p : Nat}, Linked heap p cells →
      ∀ c ∈ cells, heap c.1 = some c.2 := by
  intro cells
  induction cells with
  | nil => intro p _ c hc; cases hc
  | cons x rest ih =>
    intro p h c hc
    rcases List.mem_cons.mp hc with e | e
    · subst e; exact h.2.2.1
    · exact ih h.2.2.2 c e

theorem Linked.frame {heap : Nat → Option Node} (a : Nat) (x : Option Node) :
    ∀ {cells : List (Nat × Node)} {p : Nat}, Linked heap p cells →
      (∀ c ∈ cells, c.1 ≠ a) → Linked (Function.update heap a x) p cells := by
  intro cells
  induction cells with
  | nil => intro p h _; exact h
  | cons c rest ih =>
    intro p h hne
    refine ⟨h.1, h.2.1, ?_, ih h.2.2.2 (fun c1 hc1 => hne c1 (List.mem_cons_of_mem _ hc1))⟩
    rw [Function.update_noteq (hne c (List.mem_cons_self _ _))]
    exact h.2.2.1

theorem Linked.after {heap : Nat → Option Node} :
    ∀ {front : List (Nat × Node)} {p : Nat} {t : Nat × Node} {back : List (Nat × Node)},
      Linked heap p (front ++ t :: back) → Linked heap t.2.next.ptr back := by
  intro front
  induction front with
  | nil => intro p t back h; exact h.2.2.2
  | cons c rest ih => intro p t back h; exact ih h.2.2.2

/-- Linking a new last node: the old last node gets a `next` that refers to the new
node, which is allocated, distinct from the others and has a null `next`. -/
theorem Linked.snoc {heap : Nat → Option Node} (a : Nat) (n t1 : Node) :
    ∀ {front : List (Nat × Node)} {p : Nat} {t : Nat × Node},
      Linked heap p (front ++ [t]) → (∀ c ∈ front, c.1 ≠ t.1) → a ≠ 0 → a ≠ t.1 →
      heap a = some n → n.next.ptr = 0 → t1.next.ptr = a →
      Linked (Function.update heap t.1 (some t1)) p (front ++ [(t.1, t1), (a, n)]) := by
  intro front
  induction front with
  | nil =>
    intro p t h _ ha hat hn hn0 ht1
    refine ⟨h.1, h.2.1, ?_, ht1, ha, ?_, hn0⟩
    · simp
    · simp only
      rw [Function.update_noteq hat]
      exact hn
  | cons c rest ih =>
    intro p t h hne ha hat hn hn0 ht1
    refine ⟨h.1, h.2.1, ?_, ?_⟩
    · rw [Function.update_noteq (hne c (List.mem_cons_self _ _))]
      exact h.2.2.1
    · exact ih h.2.2.2 (fun c1 hc1 => hne c1 (List.mem_cons_of_mem _ hc1)) ha hat hn hn0 ht1

/-! ### Single loop iterations -/

theorem cas_same (cur desired : CountedNodePtr) : cas cur cur desired = (desired, true) := by
  simp [cas]

/-- An iteration of the loop of `enq` that finds `tail.ptr->next` null: the new
node is linked and the loop is left. -/
theorem enq_loop_link (a fuel : Nat) (s : State) (tnode : Node)
    (h1 : s.heap s.tail.ptr = some tnode) (h2 : tnode.next.ptr = 0) :
    enq_loop a (fuel + 1) s =
      some ({ head := s.head, tail := s.tail, next_addr := s.next_addr,
              heap := Function.update s.heap s.tail.ptr
                (some { value := tnode.value,
                        next := { ptr := a, count := bump tnode.next.count } }) },
        s.tail) := by
  simp [enq_loop, h1, h2, cas_same]

/-- An iteration of the loop of `enq` that finds `tail.ptr->next` not null: `tail`
is advanced to that node with the tag plus one and the loop goes on. -/
theorem enq_loop_help (a fuel : Nat) (s : State) (tnode : Node)
    (h1 : s.heap s.tail.ptr = some tnode) (h2 : tnode.next.ptr ≠ 0) :
    enq_loop a (fuel + 1) s =
      enq_loop a fuel { s with tail := { ptr := tnode.next.ptr, count := bump s.tail.count } } := by
  simp [enq_loop, h1, h2, cas_same]

/-- An iteration of `deq` on a queue without user element. -/
theorem deq_empty (fuel : Nat) (s : State) (hnode : Node)
    (h1 : s.heap s.head.ptr = some hnode) (h2 : s.head.ptr = s.tail.ptr)
    (h3 : hnode.next.ptr = 0) : deq (fuel + 1) s = some (s, -1) := by
  unfold deq
  simp only [h1]
  simp [h2, h3]

/-- An iteration of `deq` that finds `tail` lagging on the dummy: `tail` is
advanced and the loop goes on. -/
theorem deq_help (fuel : Nat) (s : State) (hnode : Node)
    (h1 : s.heap s.head.ptr = some hnode) (h2 : s.head.ptr = s.tail.ptr)
    (h3 : hnode.next.ptr ≠ 0) :
    deq (fuel + 1) s =
      deq fuel { s with tail := { ptr := hnode.next.ptr, count := bump s.tail.count } } := by
  rw [deq]
  simp only [h1]
  simp [h2, h3, cas_same]

/-- An iteration of `deq` that takes an element: `head` moves to the next node
with the tag plus one, the old dummy is deleted, the value of the next node is
returned. -/
theorem deq_take (fuel : Nat) (s : State) (hnode nnode : Node)
    (h1 : s.heap s.head.ptr = some hnode) (h2 : s.head.ptr ≠ s.tail.ptr)
    (h3 : s.heap hnode.next.ptr = some nnode) :
    deq (fuel + 1) s =
      some ({ head := { ptr := hnode.next.ptr, count := bump s.head.count }, tail := s.tail,
              heap := Function.update s.heap s.head.ptr none, next_addr := s.next_addr },
        nnode.value) := by
  rw [deq]
  simp only [h1]
  simp [h2, h3, cas_same]

/-! ### Refinement of the FIFO list -/

theorem represents_create : Represents createMSQueue [] :=
  ⟨[], (1, { value := 0, next := { ptr := 0, count := 0 } }), [], by decide,
    ⟨rfl, by decide, rfl, rfl⟩, by decide, by decide, rfl, rfl⟩

/-- The loop and the final compare-and-swap of `enq` when `tail` refers to the last
node and the new node `a` is already allocated. -/
theorem enq_core (s1 : State) (a : Nat) (n : Node) (front : List (Nat × Node))
    (t : Nat × Node) (fuel : Nat)
    (hl : Linked s1.heap s1.head.ptr (front ++ [t]))
    (hnd : ((front ++ [t]).map Prod.fst).Nodup)
    (hlt : ∀ c ∈ front ++ [t], c.1 < a)
    (ha : s1.heap a = some n) (hn : n.next.ptr = 0) (hnext : s1.next_addr = a + 1)
    (htail : s1.tail.ptr = t.1) :
    ∃ s2, (enq_loop a (fuel + 1) s1).map (enq_finish a) = some (s2, true) ∧
      Represents s2 (((front ++ [t]).tail).map (fun c => c.2.value) ++ [n.value]) := by
  have hmem : t ∈ front ++ [t] := by simp
  have ht : s1.heap s1.tail.ptr = some t.2 := by
    rw [htail]; exact hl.lookup t hmem
  have ht0 : t.2.next.ptr = 0 := hl.after
  have hat : a ≠ t.1 := fun e => by
    have := hlt t hmem
    omega
  have ha0 : a ≠ 0 := fun e => by
    have := hlt t hmem
    omega
  have hfront : ∀ c ∈ front, c.1 ≠ t.1 := by
    intro c hc e
    rw [List.map_append, List.nodup_append] at hnd
    exact hnd.2.2 (List.mem_map.mpr ⟨c, hc, rfl⟩) (by simp [e])
  rw [enq_loop_link a fuel s1 t.2 ht ht0]
  refine ⟨{ head := s1.head, tail := { ptr := a, count := bump s1.tail.count },
            next_addr := s1.next_addr,
            heap := Function.update s1.heap s1.tail.ptr
              (some { value := t.2.value, next := { ptr := a, count := bump t.2.next.count } }) },
    by simp [enq_finish, cas_same], ?_⟩
  refine ⟨front ++ [(t.1, { value := t.2.value, next := { ptr := a, count := bump t.2.next.count } })],
    (a, n), [], by simp, ?_, ?_, ?_, rfl, ?_⟩
  · have := Linked.snoc a n { value := t.2.value, next := { ptr := a, count := bump t.2.next.count } }
      hl hfront ha0 hat ha hn rfl
    simpa [htail] using this
  · have hnot : a ∉ (front ++ [t]).map Prod.fst := by
      intro hm
      obtain ⟨c, hc, e⟩ := List.mem_map.mp hm
      have := hlt c hc
      omega
    have : ((front ++ [t]).map Prod.fst ++ [a]).Nodup := by
      rw [List.nodup_append]
      refine ⟨hnd, by simp, ?_⟩
      intro x hx hx1
      rw [List.mem_singleton] at hx1
      exact hnot (hx1 ▸ hx)
    simpa using this
  · intro c hc
    simp only [cas_same, hnext]
    simp only [List.append_assoc, List.mem_append, List.mem_cons, List.mem_singleton,
      List.not_mem_nil, or_false] at hc
    rcases hc with hc | hc | hc
    · have := hlt c (List.mem_append_left _ hc); omega
    · subst hc
      have := hlt t hmem
      simp only
      omega
    · subst hc
      simp only
      omega
  · cases front with
    | nil => simp
    | cons c rest => simp

theorem enq_refines (s : State) (vs : List Int) (v : Int) (fuel : Nat)
    (h : Represents s vs) (hf : 2 ≤ fuel) :
    ∃ s1, enq fuel s v = some (s1, true) ∧ Represents s1 (vs ++ [v]) := by
  obtain ⟨front, t, back, hb, hl, hnd, hlt, htail, hvals⟩ := h
  obtain ⟨f, rfl⟩ : ∃ f, fuel = f + 2 := ⟨fuel - 2, by omega⟩
  have hl1 : Linked (new_node s v).heap (new_node s v).head.ptr (front ++ t :: back) :=
    hl.frame _ _ (fun c hc => Nat.ne_of_lt (hlt c hc))
  have ha : (new_node s v).heap s.next_addr =
      some { value := v, next := { ptr := 0, count := 0 } } := by
    simp [new_node]
  unfold enq
  match back, hb with
  | [], _ =>
    obtain ⟨s2, h1, h2⟩ := enq_core (new_node s v) s.next_addr _ front t (f + 1) hl1 hnd hlt
      ha rfl rfl htail
    exact ⟨s2, h1, by rw [← hvals]; exact h2⟩
  | [l], _ =>
    have hmem : t ∈ front ++ [t, l] := by simp
    have ht : (new_node s v).heap (new_node s v).tail.ptr = some t.2 := by
      have : (new_node s v).tail.ptr = t.1 := htail
      rw [this]; exact hl1.lookup t hmem
    have hafter : Linked (new_node s v).heap t.2.next.ptr [l] := hl1.after
    have hne : t.2.next.ptr ≠ 0 := by rw [hafter.1]; exact hafter.2.1
    rw [enq_loop_help _ (f + 1) _ t.2 ht hne]
    have hsplit : front ++ [t, l] = (front ++ [t]) ++ [l] := by simp
    rw [hsplit] at hl1 hnd hlt hvals
    obtain ⟨s2, h1, h2⟩ := enq_core
      { new_node s v with tail := { ptr := t.2.next.ptr, count := bump (new_node s v).tail.count } }
      s.next_addr _ (front ++ [t]) l f hl1 hnd hlt ha rfl rfl hafter.1
    exact ⟨s2, h1, by rw [← hvals]; exact h2⟩

theorem deq_refines (s : State) (vs : List Int) (fuel : Nat)
    (h : Represents s vs) (hf : 2 ≤ fuel) :
    ∃ s1, deq fuel s = some (s1, (Fifo.deq vs).2) ∧ Represents s1 (Fifo.deq vs).1 ∧
      (vs = [] → s1 = s) := by
  obtain ⟨front, t, back, hb, hl, hnd, hlt, htail, hvals⟩ := h
  obtain ⟨f, rfl⟩ : ∃ f, fuel = f + 2 := ⟨fuel - 2, by omega⟩
  cases front with
  | nil =>
    have hhead : s.head.ptr = t.1 := hl.1
    have ht : s.heap s.head.ptr = some t.2 := by rw [hhead]; exact hl.2.2.1
    have hafter : Linked s.heap t.2.next.ptr back := hl.2.2.2
    match back, hb with
    | [], _ =>
      have hvs : vs = [] := by rw [← hvals]; rfl
      subst hvs
      refine ⟨s, deq_empty _ s t.2 ht (hhead.trans htail.symm) hafter, ?_, fun _ => rfl⟩
      exact ⟨[], t, [], by simp, hl, hnd, hlt, htail, rfl⟩
    | [l], _ =>
      have hvs : vs = [l.2.value] := by rw [← hvals]; rfl
      subst hvs
      have hne : t.2.next.ptr ≠ 0 := by rw [hafter.1]; exact hafter.2.1
      have htl : t.1 ≠ l.1 := by
        intro e
        simp [e] at hnd
      rw [deq_help _ s t.2 ht (hhead.trans htail.symm) hne]
      rw [deq_take f { s with tail := { ptr := t.2.next.ptr, count := bump s.tail.count } }
        t.2 l.2 ht (by simp only [hhead, hafter.1]; exact htl)
        (by simp only [hafter.1]; exact hafter.2.2.1)]
      refine ⟨_, rfl, ?_, fun e => by cases e⟩
      refine ⟨[], l, [], by simp, ?_, by simp, ?_, hafter.1, rfl⟩
      · have := hafter.frame s.head.ptr none (by
          intro c hc
          rw [List.mem_singleton] at hc
          rw [hc, hhead]; exact fun e => htl e.symm)
        exact this
      · intro c hc
        exact hlt c (List.mem_cons_of_mem _ hc)
  | cons d fr =>
    have hhead : s.head.ptr = d.1 := hl.1
    have hd : s.heap s.head.ptr = some d.2 := by rw [hhead]; exact hl.2.2.1
    have hrest : Linked s.heap d.2.next.ptr (fr ++ t :: back) := hl.2.2.2
    have hdt : d.1 ≠ t.1 := by
      intro e
      simp [e] at hnd
    have hdrest : ∀ c ∈ fr ++ t :: back, c.1 ≠ d.1 := by
      intro c hc e
      have hnd1 : (d.1 :: (fr ++ t :: back).map Prod.fst).Nodup := by simpa using hnd
      exact (List.nodup_cons.mp hnd1).1 (List.mem_map.mpr ⟨c, hc, e⟩)
    cases hx : fr ++ t :: back with
    | nil => simp at hx
    | cons x rest =>
      rw [hx] at hrest
      have hvs : vs = x.2.value :: rest.map (fun c => c.2.value) := by
        rw [← hvals]
        simp [hx]
      subst hvs
      rw [deq_take _ s d.2 x.2 hd (by rw [hhead, htail]; exact hdt)
        (by rw [hrest.1]; exact hrest.2.2.1)]
      refine ⟨_, rfl, ?_, fun e => by cases e⟩
      refine ⟨fr, t, back, hb, ?_, ?_, ?_, htail, ?_⟩
      · have := hl.2.2.2.frame s.head.ptr none (by
          intro c hc
          rw [hhead]; exact hdrest c hc)
        exact this
      · have hnd1 : (d.1 :: (fr ++ t :: back).map Prod.fst).Nodup := by simpa using hnd
        exact (List.nodup_cons.mp hnd1).2
      · intro c hc
        exact hlt c (List.mem_cons_of_mem _ hc)
      · simp [Fifo.deq, hx]

theorem Linked.unique {heap : Nat → Option Node} :
    ∀ {l1 l2 : List (Nat × Node)} {p : Nat}, Linked heap p l1 → Linked heap p l2 → l1 = l2 := by
  intro l1
  induction l1 with
  | nil =>
    intro l2 p h1 h2
    cases l2 with
    | nil => rfl
    | cons c rest => exact absurd (h2.1.symm.trans h1) h2.2.1
  | cons c rest ih =>
    intro l2 p h1 h2
    cases l2 with
    | nil => exact absurd (h1.1.symm.trans h2) h1.2.1
    | cons c2 rest2 =>
      have e1 : c.1 = c2.1 := h1.1.symm.trans h2.1
      have e2 : c.2 = c2.2 := by
        have := h1.2.2.1.symm.trans (e1 ▸ h2.2.2.1)
        exact Option.some.inj this
      have e : c = c2 := Prod.ext e1 e2
      subst e
      rw [ih h1.2.2.2 h2.2.2.2]

/-- A state represents at most one list. -/
theorem represents_unique {s : State} {vs ws : List Int} (h1 : Represents s vs)
    (h2 : Represents s ws) : vs = ws := by
  obtain ⟨f1, t1, b1, _, hl1, _, _, _, hv1⟩ := h1
  obtain ⟨f2, t2, b2, _, hl2, _, _, _, hv2⟩ := h2
  rw [← hv1, ← hv2, Linked.unique hl1 hl2]

theorem enq_all_refines (fuel : Nat) :
    ∀ (xs : List Int) (s : State) (vs : List Int), Represents s vs →
      ∃ s1, enq_all (fuel + 2) s xs = some s1 ∧ Represents s1 (vs ++ xs) := by
  intro xs
  induction xs with
  | nil =>
    intro s vs h
    exact ⟨s, rfl, by simpa using h⟩
  | cons x rest ih =>
    intro s vs h
    obtain ⟨s1, h1, h2⟩ := enq_refines s vs x (fuel + 2) h (by omega)
    obtain ⟨s2, h3, h4⟩ := ih s1 (vs ++ [x]) h2
    refine ⟨s2, ?_, by simpa using h4⟩
    simp only [enq_all, h1]
    exact h3

theorem deq_n_refines (fuel : Nat) :
    ∀ (xs : List Int) (s : State) (ys : List Int), Represents s (xs ++ ys) →
      ∃ s1, deq_n (fuel + 2) s xs.length = some (s1, xs) ∧ Represents s1 ys := by
  intro xs
  induction xs with
  | nil =>
    intro s ys h
    exact ⟨s, rfl, by simpa using h⟩
  | cons x rest ih =>
    intro s ys h
    obtain ⟨s1, h1, h2, _⟩ := deq_refines s (x :: (rest ++ ys)) (fuel + 2) h (by omega)
    have h1a : deq (fuel + 2) s = some (s1, x) := h1
    have h2a : Represents s1 (rest ++ ys) := h2
    obtain ⟨s2, h3, h4⟩ := ih s1 ys h2a
    refine ⟨s2, ?_, h4⟩
    simp only [List.length_cons, deq_n, h1a, h3]

/-- C4 (the queue refines a FIFO list, sequential execution).  In every state
that represents a list `vs` (also one whose `tail` lags by one link), with at least
two loop iterations allowed: `enq(v)` returns true and the new state represents
`vs` with `v` appended at the back; `deq` returns the oldest value and the new state
represents the remaining values when `vs` is not empty, and returns -1 in the
unchanged state when `vs` is empty.  `Fifo.enq` and `Fifo.deq` are the operations of
the specification's list. -/
theorem queue_refines_fifo (s : State) (vs : List Int) (h : Represents s vs) :
    (∀ (v : Int) (fuel : Nat), 2 ≤ fuel →
      ∃ s1, enq fuel s v = some (s1, (Fifo.enq vs v).2) ∧ Represents s1 (Fifo.enq vs v).1) ∧
    (∀ fuel : Nat, 2 ≤ fuel →
      ∃ s1, deq fuel s = some (s1, (Fifo.deq vs).2) ∧ Represents s1 (Fifo.deq vs).1 ∧
        (vs = [] → s1 = s)) :=
  ⟨fun v fuel hf => enq_refines s vs v fuel h hf, fun fuel hf => deq_refines s vs fuel h hf⟩

/-- A witness for `queue_refines_fifo`: the new queue, which represents the empty
list; `enq(10)` succeeds in it and yields a state that represents `[10]`. -/
theorem queue_refines_fifo_witness :
    Represents createMSQueue [] ∧
    ∃ s1, enq 2 createMSQueue 10 = some (s1, true) ∧ Represents s1 [10] :=
  ⟨represents_create,
    (queue_refines_fifo createMSQueue []
      ⟨[], (1, { value := 0, next := { ptr := 0, count := 0 } }), [], by decide,
        ⟨rfl, by decide, rfl, rfl⟩, by decide, by decide, rfl, rfl⟩).1 10 2 (by decide)⟩

/-- C7 (FIFO round trip).  On a new queue, for every list `xs` of values and every
bound of at least two loop iterations per call: enqueueing `xs` in order and then
calling `deq` as many times as there are values returns `xs` in order, and the next
`deq` returns -1; for the empty list, `deq` on the new queue returns -1. -/
theorem fifo_round_trip (xs : List Int) (fuel : Nat) :
    (∃ s1 s2, enq_all (fuel + 2) createMSQueue xs = some s1 ∧
      deq_n (fuel + 2) s1 xs.length = some (s2, xs) ∧
      deq (fuel + 2) s2 = some (s2, -1)) ∧
    deq (fuel + 2) createMSQueue = some (createMSQueue, -1) := by
  have hempty : ∀ s, Represents s [] → deq (fuel + 2) s = some (s, -1) := by
    intro s hs
    obtain ⟨s3, h5, _, h7⟩ := deq_refines s [] (fuel + 2) hs (by omega)
    rw [h5, h7 rfl]
    rfl
  refine ⟨?_, hempty _ represents_create⟩
  obtain ⟨s1, h1, h2⟩ := enq_all_refines fuel xs createMSQueue [] represents_create
  obtain ⟨s2, h3, h4⟩ := deq_n_refines fuel xs s1 [] (by simpa using h2)
  exact ⟨s1, s2, h1, h3, hempty s2 h4⟩

/-! ### Sequential histories -/

/-- The nodes of a state that represents `vs`: the dummy that `head` refers to, and
after it the nodes that carry `vs`. -/
theorem represents_cells {s : State} {vs : List Int} (h : Represents s vs) :
    ∃ (c0 : Nat × Node) (rest : List (Nat × Node)),
      s.head.ptr = c0.1 ∧ c0.1 ≠ 0 ∧ s.heap c0.1 = some c0.2 ∧
      Linked s.heap c0.2.next.ptr rest ∧ rest.map (fun c => c.2.value) = vs := by
  obtain ⟨front, t, back, _, hl, _, _, _, hvals⟩ := h
  cases front with
  | nil => exact ⟨t, back, hl.1, hl.2.1, hl.2.2.1, hl.2.2.2, hvals⟩
  | cons d fr => exact ⟨d, fr ++ t :: back, hl.1, hl.2.1, hl.2.2.1, hl.2.2.2, hvals⟩

theorem has_element_iff {s : State} {vs : List Int} (h : Represents s vs) :
    has_element s = true ↔ vs ≠ [] := by
  obtain ⟨c0, rest, h1, _, h3, h4, h5⟩ := represents_cells h
  unfold has_element
  rw [h1, h3, ← h5]
  cases rest with
  | nil =>
    have : c0.2.next.ptr = 0 := h4
    simp [this]
  | cons c rest =>
    have : c0.2.next.ptr ≠ 0 := by rw [h4.1]; exact h4.2.1
    simp [this]

theorem count_loop_linked {heap : Nat → Option Node} :
    ∀ {cells : List (Nat × Node)} {p : Nat}, Linked heap p cells →
      ∀ (fuel : Nat) (c : Int), cells.length < fuel → c + cells.length ≤ 2 ^ 31 - 1 →
        count_loop heap fuel p c = some (c + cells.length) := by
  intro cells
  induction cells with
  | nil =>
    intro p h fuel c hf _
    obtain ⟨f, rfl⟩ : ∃ f, fuel = f + 1 := ⟨fuel - 1, by simp at hf; omega⟩
    have hp : p = 0 := h
    simp [count_loop, hp]
  | cons x rest ih =>
    intro p h fuel c hf hc
    obtain ⟨f, rfl⟩ : ∃ f, fuel = f + 1 := ⟨fuel - 1, by omega⟩
    have hp : p ≠ 0 := by rw [h.1]; exact h.2.1
    have hx : heap p = some x.2 := by rw [h.1]; exact h.2.2.1
    have hlen : ((x :: rest).length : Int) = (rest.length : Int) + 1 := by
      simp only [List.length_cons, Nat.cast_add, Nat.cast_one]
    have hov : c ≠ 2 ^ 31 - 1 := by omega
    simp only [count_loop, hp, if_false, hov, hx]
    rw [ih h.2.2.2 f (c + 1) (by simp at hf; omega) (by omega), hlen]
    congr 1
    ring

/-- The walk over `2^31` nodes or more from a counter that is not negative has no
result: the counter overflows. -/
theorem count_loop_overflow {heap : Nat → Option Node} :
    ∀ {cells : List (Nat × Node)} {p : Nat}, Linked heap p cells →
      ∀ (fuel : Nat) (c : Int), c ≤ 2 ^ 31 - 1 → 2 ^ 31 ≤ c + cells.length →
        count_loop heap fuel p c = none := by
  intro cells
  induction cells with
  | nil =>
    intro p _ fuel c hc hov
    simp only [List.length_nil, Nat.cast_zero] at hov
    omega
  | cons x rest ih =>
    intro p h fuel c hc hov
    cases fuel with
    | zero => rfl
    | succ f =>
      have hp : p ≠ 0 := by rw [h.1]; exact h.2.1
      have hx : heap p = some x.2 := by rw [h.1]; exact h.2.2.1
      have hlen : ((x :: rest).length : Int) = (rest.length : Int) + 1 := by
        simp only [List.length_cons, Nat.cast_add, Nat.cast_one]
      by_cases hmax : c = 2 ^ 31 - 1
      · simp only [count_loop, hp, if_false, hmax, if_true]
      · simp only [count_loop, hp, if_false, hmax, hx]
        exact ih h.2.2.2 f (c + 1) (by omega) (by omega)

theorem countQueue_represents {s : State} {vs : List Int} (h : Represents s vs)
    (fuel : Nat) (hf : vs.length < fuel) (hb : vs.length < 2 ^ 31) :
    countQueue fuel s = some (s, (vs.length : Int)) := by
  obtain ⟨c0, rest, h1, h2, h3, h4, h5⟩ := represents_cells h
  have hlen : rest.length = vs.length := by rw [← h5, List.length_map]
  have hne : s.head.ptr ≠ 0 := by rw [h1]; exact h2
  have hheap : s.heap s.head.ptr = some c0.2 := by rw [h1]; exact h3
  unfold countQueue
  simp only [ne_eq, hne, not_false_eq_true, if_true, hheap]
  rw [count_loop_linked h4 fuel 0 (by omega) (by omega), hlen]
  simp

theorem countQueue_overflow {s : State} {vs : List Int} (h : Represents s vs)
    (fuel : Nat) (hb : 2 ^ 31 ≤ vs.length) : countQueue fuel s = none := by
  obtain ⟨c0, rest, h1, h2, h3, h4, h5⟩ := represents_cells h
  have hlen : rest.length = vs.length := by rw [← h5, List.length_map]
  have hne : s.head.ptr ≠ 0 := by rw [h1]; exact h2
  have hheap : s.heap s.head.ptr = some c0.2 := by rw [h1]; exact h3
  unfold countQueue
  simp only [ne_eq, hne, not_false_eq_true, if_true, hheap]
  rw [count_loop_overflow h4 fuel 0 (by norm_num) (by omega)]

theorem not_sentinel_cons_sentinel (rs : List Int) : not_sentinel (-1 :: rs) = not_sentinel rs := by
  simp [not_sentinel]

theorem not_sentinel_cons {x : Int} (rs : List Int) (hx : x ≠ -1) :
    not_sentinel (x :: rs) = x :: not_sentinel rs := by
  simp [not_sentinel, hx]

/-- A history run from a state that represents `vs`: it returns, the final state
represents what is left of `vs` followed by the enqueued values once the values
`taken` have been removed from the front, the counter is the number of values taken,
and when -1 is neither in the queue nor enqueued the results other than -1 are exactly
the values taken. -/
theorem run_spec (fuel : Nat) :
    ∀ (ops : List Op) (s : State) (vs : List Int), Represents s vs →
      ∃ (s1 : State) (rs : List Int) (m : Nat) (vs1 taken : List Int),
        run (fuel + 2) s ops = some (s1, rs, m) ∧ Represents s1 vs1 ∧
        vs ++ enqueued ops = taken ++ vs1 ∧ m = taken.length ∧
        ((∀ x ∈ vs ++ enqueued ops, x ≠ -1) → not_sentinel rs = taken) := by
  intro ops
  induction ops with
  | nil =>
    intro s vs h
    exact ⟨s, [], 0, vs, [], rfl, h, by simp [enqueued], rfl, fun _ => rfl⟩
  | cons op rest ih =>
    intro s vs h
    cases op with
    | enq v =>
      obtain ⟨s1, h1, h2⟩ := enq_refines s vs v (fuel + 2) h (by omega)
      obtain ⟨s2, rs, m, vs1, taken, h3, h4, h5, h6, h7⟩ := ih s1 (vs ++ [v]) h2
      refine ⟨s2, rs, m, vs1, taken, ?_, h4, ?_, h6, ?_⟩
      · simp only [run, h1]
        exact h3
      · simpa [enqueued] using h5
      · intro hx
        apply h7
        intro x hm
        exact hx x (by simpa [enqueued] using hm)
    | deq =>
      obtain ⟨s1, h1, h2, h2e⟩ := deq_refines s vs (fuel + 2) h (by omega)
      cases vs with
      | nil =>
        have hs1 : s1 = s := h2e rfl
        have h1a : deq (fuel + 2) s = some (s1, -1) := h1
        have hno : has_element s = false := by
          cases hb : has_element s with
          | false => rfl
          | true => exact absurd rfl ((has_element_iff h).mp hb)
        obtain ⟨s2, rs, m, vs1, taken, h3, h4, h5, h6, h7⟩ := ih s1 [] (hs1 ▸ h)
        refine ⟨s2, -1 :: rs, m, vs1, taken, ?_, h4, by simpa [enqueued] using h5, h6, ?_⟩
        · simp [run, h1a, h3, hno]
        · intro hx
          rw [not_sentinel_cons_sentinel]
          exact h7 (fun x hm => hx x (by simpa [enqueued] using hm))
      | cons x xs =>
        have h1a : deq (fuel + 2) s = some (s1, x) := h1
        have h2a : Represents s1 xs := h2
        have hyes : has_element s = true := (has_element_iff h).mpr (by simp)
        obtain ⟨s2, rs, m, vs1, taken, h3, h4, h5, h6, h7⟩ := ih s1 xs h2a
        refine ⟨s2, x :: rs, m + 1, vs1, x :: taken, ?_, h4, ?_, by simp [h6], ?_⟩
        · simp [run, h1a, h3, hyes]
        · simp only [enqueued, List.cons_append]
          rw [h5]
        · intro hx
          rw [not_sentinel_cons rs (hx x (by simp)), h7]
          intro y hm
          exact hx y (by
            simp only [enqueued, List.cons_append, List.mem_cons]
            exact Or.inr hm)

/-- C16 as stated fails: on a new queue the history enq(-1), enq(5), deq, deq
returns -1 and 5; without the results equal to -1 that is `[5]`, which does not
start the sequence `[-1, 5]` of the enqueued values. -/
theorem dequeued_prefix_fails :
    ∃ rs, deq_results 2 [Op.enq (-1), Op.enq 5, Op.deq, Op.deq] = some rs ∧
      ¬ (not_sentinel rs <+: enqueued [Op.enq (-1), Op.enq 5, Op.deq, Op.deq]) :=
  ⟨[-1, 5], by decide, by decide⟩

/-- C16, amended (queue prefix property, sequential histories).  For every sequence
of `enq` and `deq` calls on a new queue in which no call enqueues -1 (the value -1
is not among the enqueued values), and every bound
of at least two loop iterations per call, the history runs to its end and the values
returned by `deq`, without the results equal to -1, start the sequence of the
enqueued values, in enqueue order. -/
theorem dequeued_prefix (ops : List Op) (fuel : Nat) (h : (-1 : Int) ∉ enqueued ops) :
    ∃ rs, deq_results (fuel + 2) ops = some rs ∧ not_sentinel rs <+: enqueued ops := by
  obtain ⟨s1, rs, m, vs1, taken, h1, _, h3, _, h5⟩ :=
    run_spec fuel ops createMSQueue [] represents_create
  refine ⟨rs, by simp [deq_results, h1], ?_⟩
  rw [h5 (fun x hx e => h (by rw [← e]; simpa using hx))]
  rw [List.nil_append] at h3
  rw [h3]
  exact List.prefix_append _ _

/-- A witness for `dequeued_prefix`: a history with a `deq` on the empty queue. -/
theorem dequeued_prefix_witness :
    ∃ rs, deq_results 2 [Op.deq, Op.enq 10, Op.enq 20, Op.deq, Op.enq 30, Op.deq] = some rs ∧
      not_sentinel rs <+: enqueued [Op.deq, Op.enq 10, Op.enq 20, Op.deq, Op.enq 30, Op.deq] :=
  dequeued_prefix [Op.deq, Op.enq 10, Op.enq 20, Op.deq, Op.enq 30, Op.deq] 0 (by decide)

theorem enqueued_replicate (v : Int) (n : Nat) :
    enqueued (List.replicate n (Op.enq v)) = List.replicate n v := by
  induction n with
  | zero => rfl
  | succ n ih => simp only [List.replicate_succ, enqueued, ih]

/-- A history of `n` calls of `enq` and no call of `deq`. -/
theorem run_enqs (fuel : Nat) (v : Int) :
    ∀ (n : Nat) (s : State) (vs : List Int), Represents s vs →
      ∃ s1, run (fuel + 2) s (List.replicate n (Op.enq v)) = some (s1, [], 0) ∧
        Represents s1 (vs ++ List.replicate n v) := by
  intro n
  induction n with
  | zero =>
    intro s vs h
    exact ⟨s, rfl, by simpa using h⟩
  | succ n ih =>
    intro s vs h
    obtain ⟨s1, h1, h2⟩ := enq_refines s vs v (fuel + 2) h (by omega)
    obtain ⟨s2, h3, h4⟩ := ih s1 (vs ++ [v]) h2
    refine ⟨s2, ?_, ?_⟩
    · simp only [List.replicate_succ, run, h1]
      exact h3
    · rw [List.replicate_succ]
      simpa using h4

/-- C17 as stated fails: after `2^31` calls of `enq` and no call of `deq` on a new
queue, `k - m` is `2^31`, which is no value of the `int` counter of `countQueue`:
the last `count++` of the walk overflows, so the call has no defined result,
whatever the number of loop evaluations allowed. -/
theorem count_overflows :
    ∃ s, run 2 createMSQueue (List.replicate (2 ^ 31) (Op.enq 7)) = some (s, [], 0) ∧
      (enqueued (List.replicate (2 ^ 31) (Op.enq 7))).length = 2 ^ 31 ∧
      ∀ cf, countQueue cf s = none := by
  obtain ⟨s1, h1, h2⟩ := run_enqs 0 7 (2 ^ 31) createMSQueue [] represents_create
  refine ⟨s1, h1, ?_, ?_⟩
  · rw [enqueued_replicate, List.length_replicate]
  · intro cf
    exact countQueue_overflow h2 cf (by rw [List.nil_append, List.length_replicate])

/-- C17, amended (queue count).  For every sequential history on a new queue, with
`k` the number of `enq` calls and `m` the number of `deq` calls made while an element
was there: the history runs to its end and the final state represents a list of
`k - m` user elements.  When `k - m` is below `2^31`, `countQueue`, given more than
`k - m` evaluations of its loop condition, returns `k - m` (the dummy is not
counted) and the state it was given; when `k - m` is `2^31` or more the counter
overflows and the call has no result. -/
theorem count_spec (ops : List Op) (fuel : Nat) :
    ∃ s rs m, run (fuel + 2) createMSQueue ops = some (s, rs, m) ∧
      m ≤ (enqueued ops).length ∧
      (∃ vs, Represents s vs ∧ vs.length = (enqueued ops).length - m) ∧
      ((enqueued ops).length - m < 2 ^ 31 → ∀ cf, (enqueued ops).length - m < cf →
        countQueue cf s = some (s, (((enqueued ops).length - m : Nat) : Int))) ∧
      (2 ^ 31 ≤ (enqueued ops).length - m → ∀ cf, countQueue cf s = none) := by
  obtain ⟨s1, rs, m, vs1, taken, h1, h2, h3, h4, _⟩ :=
    run_spec fuel ops createMSQueue [] represents_create
  rw [List.nil_append] at h3
  have hlen : (enqueued ops).length = m + vs1.length := by
    rw [h3, List.length_append, h4]
  refine ⟨s1, rs, m, h1, by omega, ⟨vs1, h2, by omega⟩, ?_, ?_⟩
  · intro hb cf hcf
    rw [countQueue_represents h2 cf (by omega) (by omega)]
    congr 2
    omega
  · intro hb cf
    exact countQueue_overflow h2 cf (by omega)

/-- A witness for `count_spec`: two elements are left after three calls of `enq`
and two of `deq`, the first of them on the empty queue. -/
theorem count_spec_witness :
    ∃ s rs m, run 2 createMSQueue [Op.deq, Op.enq 10, Op.enq 20, Op.deq, Op.enq 30] =
        some (s, rs, m) ∧
      m = 1 ∧ countQueue 3 s = some (s, 2) := by
  obtain ⟨s, rs, m, h1, _, _, h2, _⟩ :=
    count_spec [Op.deq, Op.enq 10, Op.enq 20, Op.deq, Op.enq 30] 0
  have hm : m = 1 := by
    have e : run 2 createMSQueue [Op.deq, Op.enq 10, Op.enq 20, Op.deq, Op.enq 30] =
        some (s, rs, m) := h1
    have hd : (run 2 createMSQueue [Op.deq, Op.enq 10, Op.enq 20, Op.deq, Op.enq 30]).map
        (fun r => r.2.2) = some 1 := by decide
    rw [e] at hd
    exact Option.some.inj hd
  subst hm
  exact ⟨s, rs, 1, h1, rfl, h2 (by decide) 3 (by decide)⟩

/-! ### The structure of the queue -/

/-- C30 (queue structural invariant).  `Represents` holds of the state made by
`createMSQueue` and is kept by every `enq` and `deq` run alone (with at least two
loop iterations allowed).  In a state that represents `vs`: `head` and `tail` are
not null; the nodes linked from `head` up to the null link are a dummy followed by
nodes that carry exactly `vs`, in order; the `next` link of the last node is null;
`tail` refers to one of these nodes, the last one or the one before it. -/
theorem structural_invariant :
    Represents createMSQueue [] ∧
    ∀ (s : State) (vs : List Int), Represents s vs →
      (s.head.ptr ≠ 0 ∧ s.tail.ptr ≠ 0 ∧
        ∃ (dummy : Nat × Node) (rest front back : List (Nat × Node)) (t last : Nat × Node),
          Linked s.heap s.head.ptr (dummy :: rest) ∧
          rest.map (fun c => c.2.value) = vs ∧
          (dummy :: rest).getLast? = some last ∧ last.2.next.ptr = 0 ∧
          dummy :: rest = front ++ t :: back ∧ back.length ≤ 1 ∧ s.tail.ptr = t.1) ∧
      (∀ (v : Int) (fuel : Nat), 2 ≤ fuel →
        ∃ s1, enq fuel s v = some (s1, true) ∧ Represents s1 (vs ++ [v])) ∧
      (∀ fuel : Nat, 2 ≤ fuel →
        ∃ s1 r vs1, deq fuel s = some (s1, r) ∧ Represents s1 vs1) := by
  refine ⟨represents_create, ?_⟩
  intro s vs h
  refine ⟨?_, fun v fuel hf => enq_refines s vs v fuel h hf, ?_⟩
  · obtain ⟨front, t, back, hb, hl, hnd, hlt, htail, hvals⟩ := h
    have hmem : t ∈ front ++ t :: back := by simp
    have ht0 : t.1 ≠ 0 := by
      have hafter : Linked s.heap t.1 (t :: back) := by
        clear hnd hlt hvals hmem
        induction front generalizing s with
        | nil => exact ⟨rfl, hl.2.1, hl.2.2.1, hl.2.2.2⟩
        | cons c fr ih =>
          exact ih { s with head := { ptr := c.2.next.ptr, count := 0 } } hl.2.2.2 htail
      exact hafter.2.1
    have hlast : ∃ pre last, front ++ t :: back = pre ++ [last] := by
      match back, hb with
      | [], _ => exact ⟨front, t, rfl⟩
      | [l], _ => exact ⟨front ++ [t], l, by simp⟩
    obtain ⟨pre, last, hpl⟩ := hlast
    have hnull : last.2.next.ptr = 0 := by
      rw [hpl] at hl
      exact hl.after
    have hhead : ∃ dummy rest, front ++ t :: back = dummy :: rest := by
      cases front with
      | nil => exact ⟨t, back, rfl⟩
      | cons d fr => exact ⟨d, fr ++ t :: back, rfl⟩
    obtain ⟨dummy, rest, hdr⟩ := hhead
    rw [hdr] at hl hvals
    refine ⟨by rw [hl.1]; exact hl.2.1, by rw [htail]; exact ht0, dummy, rest, front, back, t,
      last, hl, hvals, ?_, hnull, hdr.symm, hb, htail⟩
    rw [← hdr, hpl]
    simp
  · intro fuel hf
    obtain ⟨s1, h1, h2, _⟩ := deq_refines s vs fuel h hf
    exact ⟨s1, _, _, h1, h2⟩

/-! ### Allocation and release of nodes -/

/-- What `deq` does to the heap: nothing, with `head` as it was, or the node that
`head` referred to, which was allocated, is released. -/
theorem deq_heap (fuel : Nat) :
    ∀ (s s1 : State) (r : Int), deq fuel s = some (s1, r) →
      (s1.heap = s.heap ∧ s1.head = s.head ∧ s1.next_addr = s.next_addr) ∨
      (s.heap s.head.ptr ≠ none ∧ s1.heap = Function.update s.heap s.head.ptr none ∧
        s1.next_addr = s.next_addr) := by
  induction fuel with
  | zero => intro s s1 r h; simp [deq] at h
  | succ f ih =>
    intro s s1 r h
    rw [deq] at h
    simp only [cas_same] at h
    cases hh : s.heap s.head.ptr with
    | none => simp [hh] at h
    | some hnode =>
      simp only [hh, if_true] at h
      by_cases e1 : s.head.ptr = s.tail.ptr
      · simp only [e1, if_true] at h
        by_cases e2 : hnode.next.ptr = 0
        · simp only [e2, if_true, Option.some.injEq, Prod.mk.injEq] at h
          exact Or.inl ⟨by rw [← h.1], by rw [← h.1], by rw [← h.1]⟩
        · simp only [e2, if_false] at h
          have := ih _ s1 r h
          simpa [hh] using this
      · simp only [e1, if_false] at h
        cases hn : s.heap hnode.next.ptr with
        | none => simp [hn] at h
        | some nnode =>
          simp only [hn, if_true, Option.some.injEq, Prod.mk.injEq] at h
          refine Or.inr ⟨by simp, ?_, ?_⟩
          · rw [← h.1]
          · rw [← h.1]

theorem enq_loop_heap (a : Nat) (fuel : Nat) :
    ∀ (s s2 : State) (t : CountedNodePtr), enq_loop a fuel s = some (s2, t) →
      (∀ x, s2.heap x ≠ none → s.heap x ≠ none) ∧ s2.next_addr = s.next_addr := by
  induction fuel with
  | zero => intro s s2 t h; simp [enq_loop] at h
  | succ f ih =>
    intro s s2 t h
    rw [enq_loop] at h
    simp only [cas_same] at h
    cases hh : s.heap s.tail.ptr with
    | none => simp [hh] at h
    | some tnode =>
      simp only [hh, if_true] at h
      by_cases e2 : tnode.next.ptr = 0
      · simp only [e2, if_true, Option.some.injEq, Prod.mk.injEq] at h
        refine ⟨?_, by rw [← h.1]⟩
        intro x hx
        rw [← h.1] at hx
        by_cases ex : x = s.tail.ptr
        · rw [ex, hh]; simp
        · simpa [Function.update_noteq ex] using hx
      · simp only [e2, if_false] at h
        have := ih _ s2 t h
        exact this

theorem enq_heap (fuel : Nat) (s s1 : State) (v : Int) (b : Bool)
    (h : enq fuel s v = some (s1, b)) :
    (∀ x, s1.heap x ≠ none → s.heap x ≠ none ∨ x = s.next_addr) ∧
    s1.next_addr = s.next_addr + 1 := by
  unfold enq at h
  cases hl : enq_loop s.next_addr fuel (new_node s v) with
  | none => simp [hl] at h
  | some p =>
    obtain ⟨s2, t⟩ := p
    simp only [hl, Option.map_some', Option.some.injEq, enq_finish, Prod.mk.injEq] at h
    obtain ⟨h1, h2⟩ := enq_loop_heap _ _ _ _ _ hl
    refine ⟨?_, by rw [← h.1]; exact h2⟩
    intro x hx
    rw [← h.1] at hx
    have := h1 x hx
    by_cases ex : x = s.next_addr
    · exact Or.inr ex
    · left
      simpa [new_node, Function.update_noteq ex] using this

theorem atMost_create : AtMost createMSQueue 1 := by
  refine ⟨[1], by simp, ?_⟩
  intro a ha
  by_cases e : a = 1
  · simp [e]
  · simp [createMSQueue, e] at ha

theorem enq_atMost {s s1 : State} {v : Int} {b : Bool} {fuel n : Nat}
    (h : enq fuel s v = some (s1, b)) (ha : AtMost s n) : AtMost s1 (n + 1) := by
  obtain ⟨live, hlen, hlive⟩ := ha
  refine ⟨s.next_addr :: live, by simp; omega, ?_⟩
  intro x hx
  rcases (enq_heap fuel s s1 v b h).1 x hx with e | e
  · exact List.mem_cons_of_mem _ (hlive x e)
  · rw [e]; exact List.mem_cons_self _ _

theorem deq_atMost {s s1 : State} {x r : Int} {xs : List Int} {fuel : Nat}
    (hr : Represents s (x :: xs)) (ha : AtMost s (xs.length + 2))
    (h : deq fuel s = some (s1, r)) (hr1 : Represents s1 xs) :
    AtMost s1 (xs.length + 1) ∧ s1.next_addr = s.next_addr := by
  rcases deq_heap fuel s s1 r h with ⟨e1, e2, e3⟩ | ⟨e1, e2, e3⟩
  · exfalso
    obtain ⟨c0, rest, a1, _, a3, a4, a5⟩ := represents_cells hr
    obtain ⟨d0, rest1, b1, _, b3, b4, b5⟩ := represents_cells hr1
    rw [e1] at b3 b4
    have hc : d0.1 = c0.1 := by rw [← b1, ← a1, e2]
    rw [hc, a3] at b3
    have hd : d0.2 = c0.2 := (Option.some.inj b3).symm
    rw [hd] at b4
    have := Linked.unique a4 b4
    rw [this, b5] at a5
    have hl := congrArg List.length a5
    simp at hl
  · obtain ⟨live, hlen, hlive⟩ := ha
    refine ⟨⟨live.erase s.head.ptr, ?_, ?_⟩, e3⟩
    · rw [List.length_erase_of_mem (hlive _ e1)]
      omega
    · intro a hx
      rw [e2] at hx
      by_cases e : a = s.head.ptr
      · rw [e] at hx
        simp at hx
      · rw [Function.update_noteq e] at hx
        exact (List.mem_erase_of_ne e).mpr (hlive a hx)

/-- A history keeps the invariants of the queue: the final state represents a list
of values that were in the queue or were enqueued, no more nodes are allocated than
that list has elements plus the dummy, and the allocator has handed out one address
per `enq`. -/
theorem run_inv (fuel : Nat) :
    ∀ (ops : List Op) (s : State) (vs : List Int), Represents s vs →
      AtMost s (vs.length + 1) →
      ∃ (s1 : State) (rs : List Int) (m : Nat) (vs1 : List Int),
        run (fuel + 2) s ops = some (s1, rs, m) ∧ Represents s1 vs1 ∧
        AtMost s1 (vs1.length + 1) ∧ (∀ x ∈ vs1, x ∈ vs ++ enqueued ops) ∧
        s1.next_addr = s.next_addr + (enqueued ops).length := by
  intro ops
  induction ops with
  | nil =>
    intro s vs h ha
    exact ⟨s, [], 0, vs, rfl, h, ha, fun x hx => by simpa [enqueued] using hx, rfl⟩
  | cons op rest ih =>
    intro s vs h ha
    cases op with
    | enq v =>
      obtain ⟨s1, h1, h2⟩ := enq_refines s vs v (fuel + 2) h (by omega)
      have ha1 : AtMost s1 ((vs ++ [v]).length + 1) := by
        simpa using enq_atMost h1 ha
      obtain ⟨s2, rs, m, vs1, h3, h4, h5, h6, h7⟩ := ih s1 (vs ++ [v]) h2 ha1
      refine ⟨s2, rs, m, vs1, ?_, h4, h5, ?_, ?_⟩
      · simp only [run, h1]
        exact h3
      · intro x hx
        simpa [enqueued] using h6 x hx
      · rw [h7, (enq_heap _ _ _ _ _ h1).2]
        simp only [enqueued, List.length_cons]
        omega
    | deq =>
      obtain ⟨s1, h1, h2, h2e⟩ := deq_refines s vs (fuel + 2) h (by omega)
      cases vs with
      | nil =>
        have hs1 : s1 = s := h2e rfl
        subst hs1
        obtain ⟨s2, rs, m, vs1, h3, h4, h5, h6, h7⟩ := ih s1 [] h ha
        have h1a : deq (fuel + 2) s1 = some (s1, -1) := h1
        refine ⟨s2, -1 :: rs, if has_element s1 then m + 1 else m, vs1, ?_, h4, h5, ?_, ?_⟩
        · simp [run, h1a, h3]
        · intro x hx
          simpa [enqueued] using h6 x hx
        · simpa [enqueued] using h7
      | cons x xs =>
        have h1a : deq (fuel + 2) s = some (s1, x) := h1
        have h2a : Represents s1 xs := h2
        obtain ⟨ha1, hn1⟩ := deq_atMost h (by simpa using ha) h1a h2a
        obtain ⟨s2, rs, m, vs1, h3, h4, h5, h6, h7⟩ := ih s1 xs h2a ha1
        refine ⟨s2, x :: rs, if has_element s then m + 1 else m, vs1, ?_, h4, h5, ?_, ?_⟩
        · simp [run, h1a, h3]
        · intro y hy
          have := h6 y hy
          simp only [enqueued, List.cons_append, List.mem_cons]
          exact Or.inr this
        · rw [h7, hn1]
          simp [enqueued]

theorem drain_spec (fuel : Nat) (hf : 2 ≤ fuel) :
    ∀ (vs : List Int) (s : State) (n : Nat), Represents s vs → AtMost s (vs.length + 1) →
      (-1 : Int) ∉ vs → vs.length < n →
      ∃ s1, drain fuel n s = some s1 ∧ Represents s1 [] ∧ AtMost s1 1 ∧
        s1.next_addr = s.next_addr := by
  intro vs
  induction vs with
  | nil =>
    intro s n h ha _ hn
    obtain ⟨n1, rfl⟩ : ∃ n1, n = n1 + 1 := ⟨n - 1, by simp at hn; omega⟩
    obtain ⟨s1, h1, _, h2e⟩ := deq_refines s [] fuel h hf
    have hs1 : s1 = s := h2e rfl
    subst hs1
    have h1a : deq fuel s1 = some (s1, -1) := h1
    exact ⟨s1, by simp [drain, h1a], h, by simpa using ha, rfl⟩
  | cons x xs ih =>
    intro s n h ha hno hn
    obtain ⟨n1, rfl⟩ : ∃ n1, n = n1 + 1 := ⟨n - 1, by simp at hn; omega⟩
    obtain ⟨s1, h1, h2, _⟩ := deq_refines s (x :: xs) fuel h hf
    have h1a : deq fuel s = some (s1, x) := h1
    have h2a : Represents s1 xs := h2
    obtain ⟨ha1, hn1⟩ := deq_atMost h (by simpa using ha) h1a h2a
    have hx : x ≠ -1 := fun e => hno (by rw [e]; exact List.mem_cons_self _ _)
    obtain ⟨s2, h3, h4, h5, h6⟩ := ih s1 n1 h2a ha1
      (fun hm => hno (List.mem_cons_of_mem _ hm)) (by simp at hn; omega)
    exact ⟨s2, by simp [drain, h1a, hx, h3], h4, h5, h6.trans hn1⟩

theorem deleteMSQueue_spec {s : State} {vs : List Int} (h : Represents s vs)
    (ha : AtMost s (vs.length + 1)) (hno : (-1 : Int) ∉ vs) (fuel : Nat) (hf : 2 ≤ fuel)
    (hlen : vs.length < fuel) :
    ∃ s1, deleteMSQueue fuel s = some s1 ∧ (∀ a, s1.heap a = none) ∧
      s1.next_addr = s.next_addr := by
  obtain ⟨s1, h1, h2, ⟨live, hlen1, hlive⟩, h4⟩ := drain_spec fuel hf vs s fuel h ha hno hlen
  obtain ⟨c0, rest, a1, a2, a3, _, _⟩ := represents_cells h2
  have hne : s1.head.ptr ≠ 0 := by rw [a1]; exact a2
  have hheap : s1.heap s1.head.ptr = some c0.2 := by rw [a1]; exact a3
  refine ⟨{ s1 with heap := Function.update s1.heap s1.head.ptr none }, ?_, ?_, h4⟩
  · simp [deleteMSQueue, h1, hne, hheap]
  · intro a
    by_cases e : a = s1.head.ptr
    · show Function.update s1.heap s1.head.ptr none a = none
      rw [e, Function.update_same]
    · show Function.update s1.heap s1.head.ptr none a = none
      rw [Function.update_noteq e]
      by_contra hx
      have hin := hlive a hx
      have hin0 := hlive s1.head.ptr (by rw [hheap]; simp)
      match live, hlen1, hin, hin0 with
      | [y], _, hin, hin0 =>
        simp only [List.mem_singleton] at hin hin0
        exact e (hin.trans hin0.symm)

/-- C23 as stated fails: after enq(-1), enq(5) on a new queue, `deleteMSQueue`
stops draining at the first result -1, which is the element -1, deletes the node
that `head` then refers to, and returns while the node of the value 5, at address 3,
is still allocated. -/
theorem teardown_leaks :
    ((run 2 createMSQueue [Op.enq (-1), Op.enq 5]).bind
        (fun r => deleteMSQueue 5 r.1)).map (fun s => s.heap 3) =
      some (some { value := 5, next := { ptr := 0, count := 0 } }) := by
  decide

/-- C23, amended (queue teardown).  For every sequential history of `enq` and `deq`
calls on a new queue in which no call enqueues -1: the history runs to its end, the
allocator has then handed out one node for the dummy and one per `enq`, and
`deleteMSQueue`, given fuel for its loops, returns in a state in which no node is
allocated any more.  Every release acts on a node that is allocated at that moment
(the model yields `none` otherwise), so every node was freed once. -/
theorem teardown_frees_all (ops : List Op) (fuel : Nat) (h : (-1 : Int) ∉ enqueued ops) :
    ∃ s rs m, run (fuel + 2) createMSQueue ops = some (s, rs, m) ∧
      s.next_addr = (enqueued ops).length + 2 ∧
      ∀ tf, (enqueued ops).length + 2 ≤ tf →
        ∃ s1, deleteMSQueue tf s = some s1 ∧ (∀ a, s1.heap a = none) ∧
          s1.next_addr = s.next_addr := by
  obtain ⟨s1, rs, m, vs1, h1, h2, h3, h4, h5⟩ :=
    run_inv fuel ops createMSQueue [] represents_create (by simpa using atMost_create)
  have hno : (-1 : Int) ∉ vs1 := fun hm => h (by simpa using h4 _ hm)
  have hlen : vs1.length ≤ (enqueued ops).length := by
    obtain ⟨s2, rs2, m2, vs2, taken, g1, g2, g3, _, _⟩ :=
      run_spec fuel ops createMSQueue [] represents_create
    rw [h1] at g1
    have hs : s1 = s2 := by
      have := Option.some.inj g1
      exact congrArg Prod.fst this
    have hv : vs1 = vs2 := represents_unique h2 (hs ▸ g2)
    rw [List.nil_append] at g3
    rw [hv, g3, List.length_append]
    omega
  refine ⟨s1, rs, m, h1, ?_, ?_⟩
  · rw [h5]
    simp [createMSQueue]
    omega
  · intro tf htf
    exact deleteMSQueue_spec h2 h3 hno tf (by omega) (by omega)

/-- A witness for `teardown_frees_all`: a history that leaves two elements in the
queue. -/
theorem teardown_frees_all_witness :
    ∃ s rs m, run 2 createMSQueue [Op.enq 10, Op.enq 20, Op.deq, Op.enq 30] = some (s, rs, m) ∧
      s.next_addr = (enqueued [Op.enq 10, Op.enq 20, Op.deq, Op.enq 30]).length + 2 ∧
      ∀ tf, (enqueued [Op.enq 10, Op.enq 20, Op.deq, Op.enq 30]).length + 2 ≤ tf →
        ∃ s1, deleteMSQueue tf s = some s1 ∧ (∀ a, s1.heap a = none) ∧
          s1.next_addr = s.next_addr :=
  teardown_frees_all [Op.enq 10, Op.enq 20, Op.deq, Op.enq 30] 0 (by decide)

/-- C25 (linearisability under interleavings), a run in which it fails: two
threads call `deq` on the queue that holds the one value 10.  The first thread
loads `head` and `tail`; the second thread then runs its whole call, which returns
10 and deletes the old dummy node (address 1); at that point the first thread is
about to load `head.ptr->next` with `head.ptr = 1`, a node that is not allocated
any more, and its next access is to that deleted node.  A call of `deq` that runs
alone makes the same accesses as the sequential `deq` and returns 10. -/
theorem deq_reads_deleted_node :
    ((two_deqs [0, 0, 1, 1, 1, 1, 1, 1, 1]).map
        (fun r => (r.2.map (fun l => (l.pc, l.head.ptr, l.result)), (r.1.heap 1).isNone))) =
      some ([(DeqPc.load_next, 1, 0), (DeqPc.returned, 1, 10)], true) ∧
    (two_deqs [0, 0, 1, 1, 1, 1, 1, 1, 1, 0]).isNone = true ∧
    ((two_deqs [0, 0, 0, 0, 0, 0, 0]).map (fun r => (r.2.map (fun l => (l.pc, l.result)), r.1.head))) =
      some ([(DeqPc.returned, 10), (DeqPc.load_head, 0)], { ptr := 2, count := 1 }) ∧
    ((enq 2 createMSQueue 10).bind (fun r => deq 1 r.1)).map (fun r => (r.2, r.1.head)) =
      some (10, { ptr := 2, count := 1 }) := by
  decide

/-! ### Tags and the lagging tail -/

theorem settled_represents {s : State} {vs : List Int} (h : Settled s vs) :
    Represents s vs := by
  obtain ⟨front, t, hl, hnd, hlt, htail, hvals⟩ := h
  exact ⟨front, t, [], by simp, hl, hnd, hlt, htail, hvals⟩

theorem settled_create : Settled createMSQueue [] :=
  ⟨[], (1, { value := 0, next := { ptr := 0, count := 0 } }),
    ⟨rfl, by decide, rfl, rfl⟩, by decide, by decide, rfl, rfl⟩

/-- The loop and the final compare-and-swap of `enq` when `tail` refers to the last
node and the new node `a` is already allocated: the state that results. -/
theorem enq_core_tail (s1 : State) (a : Nat) (n : Node) (front : List (Nat × Node))
    (t : Nat × Node) (fuel : Nat)
    (hl : Linked s1.heap s1.head.ptr (front ++ [t]))
    (hnd : ((front ++ [t]).map Prod.fst).Nodup)
    (hlt : ∀ c ∈ front ++ [t], c.1 < a)
    (ha : s1.heap a = some n) (hn : n.next.ptr = 0) (hnext : s1.next_addr = a + 1)
    (htail : s1.tail.ptr = t.1) :
    ∃ s2, (enq_loop a (fuel + 1) s1).map (enq_finish a) = some (s2, true) ∧
      Settled s2 (((front ++ [t]).tail).map (fun c => c.2.value) ++ [n.value]) ∧
      s2.head = s1.head ∧ s2.tail = { ptr := a, count := bump s1.tail.count } ∧
      s2.next_addr = s1.next_addr ∧
      s2.heap = Function.update s1.heap t.1
        (some { value := t.2.value, next := { ptr := a, count := bump t.2.next.count } }) := by
  have hmem : t ∈ front ++ [t] := by simp
  have ht : s1.heap s1.tail.ptr = some t.2 := by
    rw [htail]; exact hl.lookup t hmem
  have ht0 : t.2.next.ptr = 0 := hl.after
  have hat : a ≠ t.1 := fun e => by
    have := hlt t hmem
    omega
  have ha0 : a ≠ 0 := fun e => by
    have := hlt t hmem
    omega
  have hfront : ∀ c ∈ front, c.1 ≠ t.1 := by
    intro c hc e
    rw [List.map_append, List.nodup_append] at hnd
    exact hnd.2.2 (List.mem_map.mpr ⟨c, hc, rfl⟩) (by simp [e])
  rw [enq_loop_link a fuel s1 t.2 ht ht0]
  refine ⟨{ head := s1.head, tail := { ptr := a, count := bump s1.tail.count },
            next_addr := s1.next_addr,
            heap := Function.update s1.heap s1.tail.ptr
              (some { value := t.2.value, next := { ptr := a, count := bump t.2.next.count } }) },
    by simp [enq_finish, cas_same], ?_, rfl, rfl, rfl, by simp only [htail]⟩
  refine ⟨front ++ [(t.1, { value := t.2.value, next := { ptr := a, count := bump t.2.next.count } })],
    (a, n), ?_, ?_, ?_, rfl, ?_⟩
  · have := Linked.snoc a n { value := t.2.value, next := { ptr := a, count := bump t.2.next.count } }
      hl hfront ha0 hat ha hn rfl
    simpa [htail] using this
  · have hnot : a ∉ (front ++ [t]).map Prod.fst := by
      intro hm
      obtain ⟨c, hc, e⟩ := List.mem_map.mp hm
      have := hlt c hc
      omega
    have : ((front ++ [t]).map Prod.fst ++ [a]).Nodup := by
      rw [List.nodup_append]
      refine ⟨hnd, by simp, ?_⟩
      intro x hx hx1
      rw [List.mem_singleton] at hx1
      exact hnot (hx1 ▸ hx)
    simpa using this
  · intro c hc
    simp only [hnext]
    simp only [List.append_assoc, List.mem_append, List.mem_cons, List.mem_singleton,
      List.not_mem_nil, or_false] at hc
    rcases hc with hc | hc | hc
    · have := hlt c (List.mem_append_left _ hc); omega
    · subst hc
      have := hlt t hmem
      simp only
      omega
    · subst hc
      simp only
      omega
  · cases front with
    | nil => simp
    | cons c rest => simp

/-- A call of `enq` in a state without lag: one loop iteration is enough, `tail` is
swung to the new node with the next tag, `head` is as it was. -/
theorem enq_settled (s : State) (vs : List Int) (v : Int) (fuel : Nat)
    (h : Settled s vs) :
    ∃ s1, enq (fuel + 1) s v = some (s1, true) ∧ Settled s1 (vs ++ [v]) ∧
      s1.head = s.head ∧ s1.tail = { ptr := s.next_addr, count := bump s.tail.count } := by
  obtain ⟨front, t, hl, hnd, hlt, htail, hvals⟩ := h
  have hl1 : Linked (new_node s v).heap (new_node s v).head.ptr (front ++ [t]) :=
    hl.frame _ _ (fun c hc => Nat.ne_of_lt (hlt c hc))
  have ha : (new_node s v).heap s.next_addr =
      some { value := v, next := { ptr := 0, count := 0 } } := by
    simp [new_node]
  obtain ⟨s2, h1, h2, h3, h4, _, _⟩ := enq_core_tail (new_node s v) s.next_addr _ front t fuel
    hl1 hnd hlt ha rfl rfl htail
  exact ⟨s2, h1, by rw [← hvals]; exact h2, h3, h4⟩

/-- A call of `deq` in a state without lag: one loop iteration is enough, `tail` is
as it was, and the tag of `head` is the next one when an element is taken. -/
theorem deq_settled (s : State) (vs : List Int) (fuel : Nat) (h : Settled s vs) :
    ∃ s1, deq (fuel + 1) s = some (s1, (Fifo.deq vs).2) ∧ Settled s1 (Fifo.deq vs).1 ∧
      s1.tail = s.tail ∧
      s1.head.count = (if vs = [] then s.head.count else bump s.head.count) := by
  obtain ⟨front, t, hl, hnd, hlt, htail, hvals⟩ := h
  cases front with
  | nil =>
    have hhead : s.head.ptr = t.1 := hl.1
    have ht : s.heap s.head.ptr = some t.2 := by rw [hhead]; exact hl.2.2.1
    have hafter : t.2.next.ptr = 0 := hl.2.2.2
    have hvs : vs = [] := by rw [← hvals]; rfl
    subst hvs
    refine ⟨s, deq_empty _ s t.2 ht (hhead.trans htail.symm) hafter, ?_, rfl, by simp⟩
    exact ⟨[], t, hl, hnd, hlt, htail, rfl⟩
  | cons d fr =>
    have hhead : s.head.ptr = d.1 := hl.1
    have hd : s.heap s.head.ptr = some d.2 := by rw [hhead]; exact hl.2.2.1
    have hrest : Linked s.heap d.2.next.ptr (fr ++ [t]) := hl.2.2.2
    have hdt : d.1 ≠ t.1 := by
      intro e
      simp [e] at hnd
    have hdrest : ∀ c ∈ fr ++ [t], c.1 ≠ d.1 := by
      intro c hc e
      have hnd1 : (d.1 :: (fr ++ [t]).map Prod.fst).Nodup := by simpa using hnd
      exact (List.nodup_cons.mp hnd1).1 (List.mem_map.mpr ⟨c, hc, e⟩)
    cases hx : fr ++ [t] with
    | nil => simp at hx
    | cons x rest =>
      rw [hx] at hrest
      have hvs : vs = x.2.value :: rest.map (fun c => c.2.value) := by
        rw [← hvals]
        simp [hx]
      subst hvs
      rw [deq_take _ s d.2 x.2 hd (by rw [hhead, htail]; exact hdt)
        (by rw [hrest.1]; exact hrest.2.2.1)]
      refine ⟨_, rfl, ?_, rfl, by simp⟩
      refine ⟨fr, t, ?_, ?_, ?_, htail, ?_⟩
      · have := hl.2.2.2.frame s.head.ptr none (by
          intro c hc
          rw [hhead]; exact hdrest c hc)
        exact this
      · have hnd1 : (d.1 :: (fr ++ [t]).map Prod.fst).Nodup := by simpa using hnd
        exact (List.nodup_cons.mp hnd1).2
      · intro c hc
        exact hlt c (List.mem_cons_of_mem _ hc)
      · simp [Fifo.deq, hx]

theorem bump_lt (c : Nat) : bump c < 2 ^ 32 := Nat.mod_lt _ (by norm_num)

/-- The tags of `tail` and `head` along a sequential history that starts in a state
without lag: every call returns within one loop iteration, `tail` has been advanced
once per `enq` and `head` once per `deq` made while an element was there. -/
theorem run_tags (fuel : Nat) :
    ∀ (ops : List Op) (s : State) (vs : List Int), Settled s vs →
      s.tail.count < 2 ^ 32 → s.head.count < 2 ^ 32 →
      ∃ (s1 : State) (rs : List Int) (m : Nat) (vs1 : List Int),
        run (fuel + 1) s ops = some (s1, rs, m) ∧ Settled s1 vs1 ∧
        s1.tail.count = (s.tail.count + (enqueued ops).length) % 2 ^ 32 ∧
        s1.head.count = (s.head.count + m) % 2 ^ 32 := by
  intro ops
  induction ops with
  | nil =>
    intro s vs h ht hh
    refine ⟨s, [], 0, vs, rfl, h, ?_, ?_⟩
    · simp only [enqueued, List.length_nil]
      omega
    · omega
  | cons op rest ih =>
    intro s vs h ht hh
    cases op with
    | enq v =>
      obtain ⟨s1, h1, h2, h3, h4⟩ := enq_settled s vs v fuel h
      have ht1 : s1.tail.count = bump s.tail.count := by rw [h4]
      obtain ⟨s2, rs, m, vs1, h5, h6, h7, h8⟩ := ih s1 (vs ++ [v]) h2
        (by rw [ht1]; exact bump_lt _) (by rw [h3]; exact hh)
      refine ⟨s2, rs, m, vs1, ?_, h6, ?_, ?_⟩
      · simp only [run, h1]
        exact h5
      · rw [h7, ht1]
        simp only [enqueued, List.length_cons, bump]
        omega
      · rw [h8, h3]
    | deq =>
      obtain ⟨s1, h1, h2, h3, h4⟩ := deq_settled s vs fuel h
      cases vs with
      | nil =>
        have hno : has_element s = false := by
          cases hb : has_element s with
          | false => rfl
          | true => exact absurd rfl ((has_element_iff (settled_represents h)).mp hb)
        have h4a : s1.head.count = s.head.count := by simpa using h4
        obtain ⟨s2, rs, m, vs1, h5, h6, h7, h8⟩ := ih s1 _ h2
          (by rw [h3]; exact ht) (by rw [h4a]; exact hh)
        refine ⟨s2, (Fifo.deq ([] : List Int)).2 :: rs, m, vs1, ?_, h6, ?_, ?_⟩
        · simp [run, h1, h5, hno]
        · rw [h7, h3]
          simp [enqueued]
        · rw [h8, h4a]
      | cons x xs =>
        have hyes : has_element s = true :=
          (has_element_iff (settled_represents h)).mpr (by simp)
        have h4a : s1.head.count = bump s.head.count := by simpa using h4
        obtain ⟨s2, rs, m, vs1, h5, h6, h7, h8⟩ := ih s1 _ h2
          (by rw [h3]; exact ht) (by rw [h4a]; exact bump_lt _)
        refine ⟨s2, (Fifo.deq (x :: xs)).2 :: rs, m + 1, vs1, ?_, h6, ?_, ?_⟩
        · simp [run, h1, h5, hyes]
        · rw [h7, h3]
          simp [enqueued]
        · rw [h8, h4a]
          simp only [bump]
          omega

theorem enqueued_pairs (v : Int) (n : Nat) :
    (enqueued (List.replicate n [Op.enq v, Op.deq]).flatten).length = n := by
  induction n with
  | zero => rfl
  | succ n ih =>
    show (enqueued (Op.enq v :: Op.deq :: (List.replicate n [Op.enq v, Op.deq]).flatten)).length =
      n + 1
    simp only [enqueued, List.length_cons, ih]

/-- The history `enq(v); deq()` repeated `n` times from an empty queue without lag:
every `deq` takes the element just enqueued, and both tags advance `n` times. -/
theorem run_pairs (fuel : Nat) (v : Int) :
    ∀ (n : Nat) (s : State), Settled s [] → s.tail.count < 2 ^ 32 → s.head.count < 2 ^ 32 →
      ∃ (s1 : State) (rs : List Int),
        run (fuel + 1) s (List.replicate n [Op.enq v, Op.deq]).flatten = some (s1, rs, n) ∧
        s1.tail.count = (s.tail.count + n) % 2 ^ 32 ∧
        s1.head.count = (s.head.count + n) % 2 ^ 32 := by
  intro n
  induction n with
  | zero =>
    intro s _ ht hh
    refine ⟨s, [], rfl, ?_, ?_⟩ <;> omega
  | succ n ih =>
    intro s h ht hh
    obtain ⟨s1, h1, h2, h3, h4⟩ := enq_settled s [] v fuel h
    obtain ⟨s2, h5, h6, h7, h8⟩ := deq_settled s1 [v] fuel h2
    have hyes : has_element s1 = true :=
      (has_element_iff (settled_represents h2)).mpr (by simp)
    have ht2 : s2.tail.count = bump s.tail.count := by rw [h7, h4]
    have hh2 : s2.head.count = bump s.head.count := by
      rw [h8, h3]
      simp
    obtain ⟨s3, rs, h9, h10, h11⟩ := ih s2 h6 (by rw [ht2]; exact bump_lt _)
      (by rw [hh2]; exact bump_lt _)
    refine ⟨s3, (Fifo.deq [v]).2 :: rs, ?_, ?_, ?_⟩
    · simp only [List.replicate_succ, List.flatten_cons, List.cons_append, List.nil_append]
      have h1a : enq (fuel + 1) s v = some (s1, true) := h1
      simp [run, h1a, h5, h9, hyes]
    · rw [h10, ht2]
      simp only [bump]
      omega
    · rw [h11, hh2]
      simp only [bump]
      omega

/-- C31 as stated fails: after the history `enq(7); deq()` repeated `2^32` times on a
new queue, `2^32` calls of `enq` and `2^32` calls of `deq` that returned an element
have been made, and the tags of `tail` and of `head` are 0. -/
theorem tags_wrap :
    ∃ (s : State) (rs : List Int) (m : Nat),
      run 1 createMSQueue (List.replicate (2 ^ 32) [Op.enq 7, Op.deq]).flatten = some (s, rs, m) ∧
      (enqueued (List.replicate (2 ^ 32) [Op.enq 7, Op.deq]).flatten).length = 2 ^ 32 ∧
      m = 2 ^ 32 ∧ s.tail.count = 0 ∧ s.head.count = 0 := by
  obtain ⟨s1, rs, h1, h2, h3⟩ := run_pairs 0 7 (2 ^ 32) createMSQueue settled_create
    (by decide) (by decide)
  refine ⟨s1, rs, 2 ^ 32, h1, enqueued_pairs 7 (2 ^ 32), rfl, ?_, ?_⟩
  · rw [h2]
    show (0 + 2 ^ 32) % 2 ^ 32 = 0
    norm_num
  · rw [h3]
    show (0 + 2 ^ 32) % 2 ^ 32 = 0
    norm_num

/-- C31, amended (tag increments).  A compare-and-swap that succeeds replaces the
expected content by the desired one.  At each of the five exchanges of `enq` and
`deq` the desired tag is the tag of the expected content plus one modulo `2^32`: on
the `next` slot of the last node in the linking iteration of `enq`, on `tail` in the
helping iterations of `enq` and `deq`, on `tail` at the end of `enq`, and on `head`
when `deq` takes an element.  On a new queue every sequential history of calls
returns, each call within one loop iteration, and afterwards the tag of `tail` is
the number of `enq` calls modulo `2^32` and the tag of `head` is the number of `deq`
calls that found an element, modulo `2^32`. -/
theorem tag_increments :
    (∀ cur expected desired : CountedNodePtr, (cas cur expected desired).2 = true →
      cur = expected ∧ (cas cur expected desired).1 = desired) ∧
    (∀ (a fuel : Nat) (s : State) (tnode : Node), s.heap s.tail.ptr = some tnode →
      tnode.next.ptr = 0 →
      ∃ r, enq_loop a (fuel + 1) s = some r ∧ r.1.tail = s.tail ∧ r.1.head = s.head ∧
        (r.1.heap s.tail.ptr).map (fun n => n.next) =
          some { ptr := a, count := (tnode.next.count + 1) % 2 ^ 32 }) ∧
    (∀ (a fuel : Nat) (s : State) (tnode : Node), s.heap s.tail.ptr = some tnode →
      tnode.next.ptr ≠ 0 →
      enq_loop a (fuel + 1) s = enq_loop a fuel
        { s with tail := { ptr := tnode.next.ptr, count := (s.tail.count + 1) % 2 ^ 32 } }) ∧
    (∀ (a : Nat) (r : State × CountedNodePtr),
      (enq_finish a r).1.tail =
        if r.1.tail = r.2 then { ptr := a, count := (r.1.tail.count + 1) % 2 ^ 32 }
        else r.1.tail) ∧
    (∀ (fuel : Nat) (s : State) (hnode : Node), s.heap s.head.ptr = some hnode →
      s.head.ptr = s.tail.ptr → hnode.next.ptr ≠ 0 →
      deq (fuel + 1) s = deq fuel
        { s with tail := { ptr := hnode.next.ptr, count := (s.tail.count + 1) % 2 ^ 32 } }) ∧
    (∀ (fuel : Nat) (s : State) (hnode nnode : Node), s.heap s.head.ptr = some hnode →
      s.head.ptr ≠ s.tail.ptr → s.heap hnode.next.ptr = some nnode →
      ∃ s1 r, deq (fuel + 1) s = some (s1, r) ∧ s1.tail = s.tail ∧
        s1.head = { ptr := hnode.next.ptr, count := (s.head.count + 1) % 2 ^ 32 }) ∧
    (∀ (ops : List Op) (fuel : Nat),
      ∃ (s : State) (rs : List Int) (m : Nat),
        run (fuel + 1) createMSQueue ops = some (s, rs, m) ∧
        s.tail.count = (enqueued ops).length % 2 ^ 32 ∧ s.head.count = m % 2 ^ 32) := by
  refine ⟨?_, ?_, ?_, ?_, ?_, ?_, ?_⟩
  · intro cur expected desired h
    unfold cas at h ⊢
    by_cases e : cur = expected
    · simp [e]
    · simp [e] at h
  · intro a fuel s tnode h1 h2
    rw [enq_loop_link a fuel s tnode h1 h2]
    exact ⟨_, rfl, rfl, rfl, by simp [bump]⟩
  · intro a fuel s tnode h1 h2
    exact enq_loop_help a fuel s tnode h1 h2
  · intro a r
    unfold enq_finish cas
    by_cases e : r.1.tail = r.2
    · simp [e, bump]
    · simp [e]
  · intro fuel s hnode h1 h2 h3
    exact deq_help fuel s hnode h1 h2 h3
  · intro fuel s hnode nnode h1 h2 h3
    rw [deq_take fuel s hnode nnode h1 h2 h3]
    exact ⟨_, _, rfl, rfl, rfl⟩
  · intro ops fuel
    obtain ⟨s1, rs, m, _, h1, _, h2, h3⟩ := run_tags fuel ops createMSQueue [] settled_create
      (by decide) (by decide)
    refine ⟨s1, rs, m, h1, ?_, ?_⟩
    · rw [h2]
      show (0 + (enqueued ops).length) % 2 ^ 32 = _
      rw [Nat.zero_add]
    · rw [h3]
      show (0 + m) % 2 ^ 32 = _
      rw [Nat.zero_add]

theorem state_ext {s t : State} (h1 : s.head = t.head) (h2 : s.tail = t.tail)
    (h3 : s.heap = t.heap) (h4 : s.next_addr = t.next_addr) : s = t := by
  cases s
  cases t
  simp only at h1 h2 h3 h4
  subst h1 h2 h3 h4
  rfl

/-- In a state that represents a list, a `tail` node with a non-null `next` is the
node before the last one. -/
theorem represents_lagging {s : State} {vs : List Int} {tnode : Node}
    (h : Represents s vs) (ht : s.heap s.tail.ptr = some tnode) (hn : tnode.next.ptr ≠ 0) :
    ∃ (front : List (Nat × Node)) (t l : Nat × Node),
      Linked s.heap s.head.ptr (front ++ [t, l]) ∧
      ((front ++ [t, l]).map Prod.fst).Nodup ∧
      (∀ c ∈ front ++ [t, l], c.1 < s.next_addr) ∧
      s.tail.ptr = t.1 ∧ t.2 = tnode ∧
      ((front ++ [t, l]).tail).map (fun c => c.2.value) = vs := by
  obtain ⟨front, t, back, hb, hl, hnd, hlt, htail, hvals⟩ := h
  have hmem : t ∈ front ++ t :: back := by simp
  have ht2 : t.2 = tnode := by
    have := hl.lookup t hmem
    rw [← htail, ht] at this
    exact (Option.some.inj this).symm
  match back, hb with
  | [], _ =>
    have h0 : t.2.next.ptr = 0 := hl.after
    rw [ht2] at h0
    exact absurd h0 hn
  | [l], _ => exact ⟨front, t, l, hl, hnd, hlt, htail, ht2, hvals⟩

/-- C32 (enqueue with a lagging tail).  In a state that represents `vs` and in which
the node that `tail` refers to has a non-null `next`, a call `enq(v)` run alone does
not return within one loop iteration; its first iteration advances `tail` to that
next node with the tag incremented; with two iterations or more it returns true in
a state `s1` that represents `vs ++ [v]` without lag: the new node, at the address
handed out by the allocator, is linked after the node that was last, with the tag
of that `next` slot incremented, `tail` refers to the new node with its tag
incremented twice, and `head` is as it was. -/
theorem enq_lagging_tail (s : State) (vs : List Int) (v : Int) (tnode : Node)
    (h : Represents s vs) (ht : s.heap s.tail.ptr = some tnode) (hn : tnode.next.ptr ≠ 0) :
    enq 1 s v = none ∧
    enq_loop s.next_addr 2 (new_node s v) =
      enq_loop s.next_addr 1
        { new_node s v with tail := { ptr := tnode.next.ptr, count := bump s.tail.count } } ∧
    ∃ (s1 : State) (last : Node),
      (∀ fuel, enq (fuel + 2) s v = some (s1, true)) ∧
      Settled s1 (vs ++ [v]) ∧ Represents s1 (vs ++ [v]) ∧
      s.heap tnode.next.ptr = some last ∧ last.next.ptr = 0 ∧
      s1.heap tnode.next.ptr =
        some { value := last.value,
               next := { ptr := s.next_addr, count := bump last.next.count } } ∧
      s1.heap s.next_addr = some { value := v, next := { ptr := 0, count := 0 } } ∧
      s1.tail = { ptr := s.next_addr, count := bump (bump s.tail.count) } ∧
      s1.head = s.head := by
  obtain ⟨front, t, l, hl, hnd, hlt, htail, ht2, hvals⟩ := represents_lagging h ht hn
  subst ht2
  have hl1 : Linked (new_node s v).heap (new_node s v).head.ptr (front ++ [t, l]) :=
    hl.frame _ _ (fun c hc => Nat.ne_of_lt (hlt c hc))
  have ha : (new_node s v).heap s.next_addr =
      some { value := v, next := { ptr := 0, count := 0 } } := by
    simp [new_node]
  have hmem : t ∈ front ++ [t, l] := by simp
  have hmeml : l ∈ front ++ [t, l] := by simp
  have ht1 : (new_node s v).heap (new_node s v).tail.ptr = some t.2 := by
    have : (new_node s v).tail.ptr = t.1 := htail
    rw [this]; exact hl1.lookup t hmem
  have hafter : Linked s.heap t.2.next.ptr [l] := hl.after
  have hafter1 : Linked (new_node s v).heap t.2.next.ptr [l] := hl1.after
  have hstep : ∀ fuel, enq_loop s.next_addr (fuel + 1) (new_node s v) =
      enq_loop s.next_addr fuel
        { new_node s v with tail := { ptr := t.2.next.ptr, count := bump s.tail.count } } :=
    fun fuel => enq_loop_help _ fuel _ t.2 ht1 hn
  have hsplit : front ++ [t, l] = (front ++ [t]) ++ [l] := by simp
  rw [hsplit] at hl1 hnd hlt hvals
  have hcore := fun fuel => enq_core_tail
    { new_node s v with tail := { ptr := t.2.next.ptr, count := bump s.tail.count } }
    s.next_addr _ (front ++ [t]) l fuel hl1 hnd hlt ha rfl rfl hafter.1
  obtain ⟨s1, h1, h2, h3, h4, h5, h6⟩ := hcore 0
  have hla : l.1 ≠ s.next_addr := Nat.ne_of_lt (hlt l (by simp))
  refine ⟨?_, hstep 1, s1, l.2, ?_, ?_, ?_, ?_, hafter.2.2.2, ?_, ?_, h4, h3⟩
  · unfold enq
    rw [hstep 0]
    rfl
  · intro fuel
    obtain ⟨s2, g1, _, g3, g4, g5, g6⟩ := hcore fuel
    have e : s2 = s1 := state_ext (g3.trans h3.symm) (g4.trans h4.symm) (g6.trans h6.symm)
      (g5.trans h5.symm)
    unfold enq
    rw [hstep (fuel + 1), g1, e]
  · rw [← hvals]; exact h2
  · rw [← hvals]; exact settled_represents h2
  · rw [hafter.1]; exact hafter.2.2.1
  · rw [h6, hafter.1, Function.update_same]
  · rw [h6, Function.update_noteq hla.symm]
    exact ha

theorem lagging_state_represents (v : Int) : Represents (lagging_state v) [v] :=
  ⟨[], (1, { value := 0, next := { ptr := 2, count := 1 } }),
    [(2, { value := v, next := { ptr := 0, count := 0 } })], by simp,
    ⟨rfl, by decide, rfl, rfl, by simp, rfl, rfl⟩, by simp,
    by
      intro c hc
      have h3 : (lagging_state v).next_addr = 3 := rfl
      simp only [List.nil_append, List.mem_cons, List.mem_singleton, List.not_mem_nil,
        or_false] at hc
      rcases hc with e | e <;> rw [e, h3] <;> simp,
    rfl, rfl⟩

/-- A witness for `enq_lagging_tail`: `enq(20)` in the state in which `enq(10)` on a
new queue has linked its node and not yet swung `tail`. -/
theorem enq_lagging_tail_witness :
    Represents (lagging_state 10) [10] ∧
    enq 1 (lagging_state 10) 20 = none ∧
    ∃ s1, enq 2 (lagging_state 10) 20 = some (s1, true) ∧ Represents s1 [10, 20] ∧
      s1.tail = { ptr := 3, count := 2 } := by
  obtain ⟨h1, _, s1, _, h2, _, h3, _, _, _, _, h4, _⟩ :=
    enq_lagging_tail (lagging_state 10) [10] 20 { value := 0, next := { ptr := 2, count := 1 } }
      (lagging_state_represents 10) rfl (by decide)
  exact ⟨lagging_state_represents 10, h1, s1, h2 0, h3, h4⟩

/-- C33 as stated fails: in the state in which `enq(-1)` on a new queue has linked
its node and not yet swung `tail`, `head` and `tail` refer to the dummy, whose
`next` is not null, the state represents the list with the one element -1, and
`deq` returns -1. -/
theorem deq_lagging_returns_sentinel :
    Represents (lagging_state (-1)) [-1] ∧
    (lagging_state (-1)).head.ptr = (lagging_state (-1)).tail.ptr ∧
    ((lagging_state (-1)).heap (lagging_state (-1)).head.ptr).map (fun n => n.next.ptr) =
      some 2 ∧
    (deq 2 (lagging_state (-1))).map Prod.snd = some (-1) :=
  ⟨lagging_state_represents (-1), by decide, by decide, by decide⟩

/-- C33, amended (dequeue with a lagging tail).  In a state that represents `vs` and
in which `head` and `tail` refer to the same node, whose `next` is not null: `vs`
has exactly one element `x`; a call of `deq` run alone does not return within one
loop iteration; its first iteration advances `tail` to the next node with the tag
incremented; with two iterations or more it returns `x`, so a value other than -1
whenever `x` is not -1, in the state in which `head` and `tail` both refer to the
node that held `x`, each with its tag incremented, and the node that was the dummy
is released; that node is not the one `head` and `tail` refer to, and the new state
represents the empty list without lag. -/
theorem deq_lagging_tail (s : State) (vs : List Int) (hnode : Node)
    (h : Represents s vs) (hh : s.heap s.head.ptr = some hnode)
    (ht : s.head.ptr = s.tail.ptr) (hn : hnode.next.ptr ≠ 0) :
    deq 1 s = none ∧
    deq 2 s = deq 1 { s with tail := { ptr := hnode.next.ptr, count := bump s.tail.count } } ∧
    ∃ (x : Int) (nnode : Node),
      vs = [x] ∧ s.heap hnode.next.ptr = some nnode ∧ nnode.value = x ∧
      (∀ fuel, deq (fuel + 2) s =
        some ({ head := { ptr := hnode.next.ptr, count := bump s.head.count },
                tail := { ptr := hnode.next.ptr, count := bump s.tail.count },
                heap := Function.update s.heap s.head.ptr none,
                next_addr := s.next_addr }, x)) ∧
      (x ≠ -1 → ∀ fuel s1 r, deq (fuel + 2) s = some (s1, r) → r ≠ -1) ∧
      hnode.next.ptr ≠ s.head.ptr ∧
      Settled { head := { ptr := hnode.next.ptr, count := bump s.head.count },
                tail := { ptr := hnode.next.ptr, count := bump s.tail.count },
                heap := Function.update s.heap s.head.ptr none,
                next_addr := s.next_addr } [] := by
  have htn : s.heap s.tail.ptr = some hnode := by rw [← ht]; exact hh
  obtain ⟨front, t, l, hl, hnd, hlt, htail, ht2, hvals⟩ := represents_lagging h htn hn
  subst ht2
  cases front with
  | cons d fr =>
    have hhead : s.head.ptr = d.1 := hl.1
    have : d.1 = t.1 := by rw [← hhead, ht, htail]
    simp [this] at hnd
  | nil =>
    have hhead : s.head.ptr = t.1 := hl.1
    have hafter : Linked s.heap t.2.next.ptr [l] := hl.2.2.2
    have htl : t.1 ≠ l.1 := by
      intro e
      simp [e] at hnd
    have hstep : ∀ fuel, deq (fuel + 1) s =
        deq fuel { s with tail := { ptr := t.2.next.ptr, count := bump s.tail.count } } :=
      fun fuel => deq_help fuel s t.2 hh ht hn
    have htake : ∀ fuel,
        deq (fuel + 1) { s with tail := { ptr := t.2.next.ptr, count := bump s.tail.count } } =
          some ({ head := { ptr := t.2.next.ptr, count := bump s.head.count },
                  tail := { ptr := t.2.next.ptr, count := bump s.tail.count },
                  heap := Function.update s.heap s.head.ptr none,
                  next_addr := s.next_addr }, l.2.value) :=
      fun fuel => deq_take fuel
        { s with tail := { ptr := t.2.next.ptr, count := bump s.tail.count } }
        t.2 l.2 hh (by simp only [hhead, hafter.1]; exact htl)
        (by simp only [hafter.1]; exact hafter.2.2.1)
    have hall : ∀ fuel, deq (fuel + 2) s =
        some ({ head := { ptr := t.2.next.ptr, count := bump s.head.count },
                tail := { ptr := t.2.next.ptr, count := bump s.tail.count },
                heap := Function.update s.heap s.head.ptr none,
                next_addr := s.next_addr }, l.2.value) :=
      fun fuel => by rw [hstep (fuel + 1), htake fuel]
    refine ⟨?_, hstep 1, l.2.value, l.2, ?_, ?_, rfl, hall, ?_, ?_, ?_⟩
    · rw [hstep 0]
      rfl
    · rw [← hvals]; rfl
    · rw [hafter.1]; exact hafter.2.2.1
    · intro hx fuel s1 r hr
      rw [hall fuel] at hr
      have := (Prod.mk.inj (Option.some.inj hr)).2
      rw [← this]
      exact hx
    · rw [hafter.1, hhead]
      exact fun e => htl e.symm
    · refine ⟨[], l, ?_, by simp, ?_, hafter.1, rfl⟩
      · have := hafter.frame s.head.ptr none (by
          intro c hc
          rw [List.mem_singleton] at hc
          rw [hc, hhead]; exact fun e => htl e.symm)
        exact this
      · intro c hc
        exact hlt c (List.mem_cons_of_mem _ hc)

/-- A witness for `deq_lagging_tail`: `deq` in the state in which `enq(10)` on a new
queue has linked its node and not yet swung `tail`. -/
theorem deq_lagging_tail_witness :
    Represents (lagging_state 10) [10] ∧
    deq 1 (lagging_state 10) = none ∧
    ∃ s1, deq 2 (lagging_state 10) = some (s1, 10) ∧
      s1.head = { ptr := 2, count := 1 } ∧ s1.tail = { ptr := 2, count := 1 } ∧
      s1.heap 1 = none := by
  obtain ⟨h1, _, x, _, hx, _, _, h2, _⟩ :=
    deq_lagging_tail (lagging_state 10) [10] { value := 0, next := { ptr := 2, count := 1 } }
      (lagging_state_represents 10) rfl (by decide) (by decide)
  have e : x = 10 := (List.cons.inj hx).1.symm
  subst e
  exact ⟨lagging_state_represents 10, h1, _, h2 0, rfl, rfl, by decide⟩

end MSQ

/-! ## Bloom filter: proofs -/

namespace Bloom

theorem test_bit_iff (f : BloomFilter) (pos : Nat) : test_bit f pos = true ↔ bit_set f pos := by
  unfold test_bit bit_set getBitPosition BITS_PER_WORD
  simp only [Nat.one_shiftLeft, Nat.and_two_pow, decide_eq_true_eq]
  cases h : (f.bitArray (pos / 64)).testBit (pos % 64) <;> simp

theorem bit_set_set_bit (f : BloomFilter) (pos q : Nat) :
    bit_set (set_bit f pos) q ↔ q = pos ∨ bit_set f q := by
  unfold bit_set set_bit getBitPosition BITS_PER_WORD
  simp only
  by_cases hw : q / 64 = pos / 64
  · rw [if_pos hw, Nat.testBit_or, Nat.one_shiftLeft, Nat.testBit_two_pow, hw]
    by_cases hb : pos % 64 = q % 64
    · have : q = pos := by omega
      simp [hb, this]
    · have : q ≠ pos := fun e => hb (by rw [e])
      simp [hb, this]
  · rw [if_neg hw]
    have : q ≠ pos := fun e => hw (by rw [e])
    simp [this]

theorem bit_set_add_loop (value : Nat) (cnt : Nat) :
    ∀ (i : Nat) (f : BloomFilter) (q : Nat),
      bit_set (add_loop value cnt i f) q ↔
        (∃ j, i ≤ j ∧ j < i + cnt ∧ q = hash value (seeds[j]?.getD 0)) ∨ bit_set f q := by
  induction cnt with
  | zero =>
    intro i f q
    simp only [add_loop]
    constructor
    · exact fun h => Or.inr h
    · rintro (⟨j, a, b, _⟩ | h)
      · omega
      · exact h
  | succ cnt ih =>
    intro i f q
    simp only [add_loop]
    rw [ih, bit_set_set_bit]
    constructor
    · rintro (⟨j, a, b, c⟩ | h | h)
      · exact Or.inl ⟨j, by omega, by omega, c⟩
      · exact Or.inl ⟨i, le_rfl, by omega, h⟩
      · exact Or.inr h
    · rintro (⟨j, a, b, c⟩ | h)
      · rcases Nat.eq_or_lt_of_le a with e | e
        · subst e; exact Or.inr (Or.inl c)
        · exact Or.inl ⟨j, e, by omega, c⟩
      · exact Or.inr (Or.inr h)

/-- The bits that are set after `add(v)`: the three bits selected by the seeds and
the bits that were set before. -/
theorem bit_set_add (f : BloomFilter) (v : Int) (q : Nat) :
    bit_set (add f v) q ↔
      (q = hash (to_uint32 v) 0x1234ABCD ∨ q = hash (to_uint32 v) 0xF0F0F0F0 ∨
        q = hash (to_uint32 v) 0xAAAA5555) ∨ bit_set f q := by
  unfold add HASH_COUNT
  rw [bit_set_add_loop]
  constructor
  · rintro (⟨j, _, b, c⟩ | h)
    · left
      have : j = 0 ∨ j = 1 ∨ j = 2 := by omega
      rcases this with e | e | e <;> subst e
      · exact Or.inl c
      · exact Or.inr (Or.inl c)
      · exact Or.inr (Or.inr c)
    · exact Or.inr h
  · rintro ((h | h | h) | h)
    · exact Or.inl ⟨0, le_rfl, by omega, h⟩
    · exact Or.inl ⟨1, by omega, by omega, h⟩
    · exact Or.inl ⟨2, by omega, by omega, h⟩
    · exact Or.inr h

theorem contains_loop_iff (f : BloomFilter) (value : Nat) (cnt : Nat) :
    ∀ i, contains_loop f value cnt i = true ↔
      ∀ j, i ≤ j → j < i + cnt → bit_set f (hash value (seeds[j]?.getD 0)) := by
  induction cnt with
  | zero =>
    intro i
    simp only [contains_loop, true_iff]
    intro j a b
    omega
  | succ cnt ih =>
    intro i
    simp only [contains_loop]
    by_cases h : test_bit f (hash value (seeds[i]?.getD 0)) = true
    · simp only [h, not_true_eq_false, if_false, ih]
      constructor
      · intro hall j a b
        rcases Nat.eq_or_lt_of_le a with e | e
        · subst e; exact (test_bit_iff _ _).mp h
        · exact hall j e (by omega)
      · intro hall j a b
        exact hall j (by omega) (by omega)
    · simp only [h, not_false_eq_true, if_true]
      constructor
      · intro hf; cases hf
      · intro hall
        exact absurd ((test_bit_iff _ _).mpr (hall i le_rfl (by omega))) h

theorem contains_iff (f : BloomFilter) (v : Int) :
    contains f v = true ↔
      bit_set f (hash (to_uint32 v) 0x1234ABCD) ∧ bit_set f (hash (to_uint32 v) 0xF0F0F0F0) ∧
        bit_set f (hash (to_uint32 v) 0xAAAA5555) := by
  unfold contains HASH_COUNT
  rw [contains_loop_iff]
  constructor
  · intro h
    exact ⟨h 0 le_rfl (by omega), h 1 (by omega) (by omega), h 2 (by omega) (by omega)⟩
  · rintro ⟨h0, h1, h2⟩ j _ b
    have : j = 0 ∨ j = 1 ∨ j = 2 := by omega
    rcases this with e | e | e <;> subst e
    · exact h0
    · exact h1
    · exact h2

theorem bit_set_foldl_add (vs : List Int) :
    ∀ (f : BloomFilter) (q : Nat), bit_set f q → bit_set (vs.foldl add f) q := by
  induction vs with
  | nil => intro f q h; exact h
  | cons x rest ih =>
    intro f q h
    rw [List.foldl_cons]
    exact ih _ q ((bit_set_add f x q).mpr (Or.inr h))

theorem contains_foldl_add (vs : List Int) (v : Int) :
    ∀ f : BloomFilter, v ∈ vs → contains (vs.foldl add f) v = true := by
  induction vs with
  | nil => intro f h; cases h
  | cons x rest ih =>
    intro f h
    rw [List.foldl_cons]
    rcases List.mem_cons.mp h with e | e
    · subst e
      rw [contains_iff]
      refine ⟨?_, ?_, ?_⟩ <;> apply bit_set_foldl_add <;> rw [bit_set_add]
      · exact Or.inl (Or.inl rfl)
      · exact Or.inl (Or.inr (Or.inl rfl))
      · exact Or.inl (Or.inr (Or.inr rfl))
    · exact ih _ e

/-- C5 (no false negatives).  For every value `v` and every sequence `vs` of values
added one after the other to a new filter, if `v` is among them (anything may be
added before or after it), `contains(v)` returns true afterwards. -/
theorem no_false_negatives (vs : List Int) (v : Int) (h : v ∈ vs) :
    contains (vs.foldl add BloomFilter.new) v = true :=
  contains_foldl_add vs v BloomFilter.new h

/-- A witness for `no_false_negatives`: the values of the first unit test. -/
theorem no_false_negatives_witness :
    contains (([42, 100, 255, 1000, 65535] : List Int).foldl add BloomFilter.new) 255 = true :=
  no_false_negatives [42, 100, 255, 1000, 65535] 255 (by decide)

/-- C10 (contains).  For every filter state and value, `contains(v)` returns true
exactly when the three bits at the bit indices `hash(v, 0x1234ABCD)`,
`hash(v, 0xF0F0F0F0)`, `hash(v, 0xAAAA5555)` are set, it returns false when one of
them is clear, and the call leaves the filter as it was. -/
theorem contains_spec (f : BloomFilter) (v : Int) :
    (contains f v = true ↔
      bit_set f (hash (to_uint32 v) 0x1234ABCD) ∧ bit_set f (hash (to_uint32 v) 0xF0F0F0F0) ∧
        bit_set f (hash (to_uint32 v) 0xAAAA5555)) ∧
    (¬ (bit_set f (hash (to_uint32 v) 0x1234ABCD) ∧ bit_set f (hash (to_uint32 v) 0xF0F0F0F0) ∧
        bit_set f (hash (to_uint32 v) 0xAAAA5555)) → contains f v = false) ∧
    (run_op f (Op.contains v)).2 = some (contains f v) ∧
    (run_op f (Op.contains v)).1.bitArray = f.bitArray := by
  refine ⟨contains_iff f v, ?_, rfl, rfl⟩
  intro h
  cases hc : contains f v with
  | false => rfl
  | true => exact absurd ((contains_iff f v).mp hc) h

/-! ### The words of the array -/

theorem testBit_set_bit (f : BloomFilter) (pos w b : Nat) :
    ((set_bit f pos).bitArray w).testBit b =
      (decide (w = pos / 64 ∧ b = pos % 64) || (f.bitArray w).testBit b) := by
  unfold set_bit getBitPosition BITS_PER_WORD
  simp only
  by_cases hw : w = pos / 64
  · rw [if_pos hw, Nat.testBit_or, Nat.one_shiftLeft, Nat.testBit_two_pow, hw, Bool.or_comm]
    by_cases hb : pos % 64 = b
    · simp [hb]
    · have : ¬ b = pos % 64 := fun e => hb e.symm
      simp [hb, this]
  · rw [if_neg hw]
    simp [hw]

theorem testBit_add_loop (value : Nat) (cnt : Nat) :
    ∀ (i : Nat) (f : BloomFilter) (w b : Nat),
      ((add_loop value cnt i f).bitArray w).testBit b = true ↔
        (∃ j, i ≤ j ∧ j < i + cnt ∧
          (w, b) = getBitPosition (hash value (seeds[j]?.getD 0))) ∨
        (f.bitArray w).testBit b = true := by
  induction cnt with
  | zero =>
    intro i f w b
    simp only [add_loop]
    constructor
    · exact fun h => Or.inr h
    · rintro (⟨j, a, c, _⟩ | h)
      · omega
      · exact h
  | succ cnt ih =>
    intro i f w b
    simp only [add_loop]
    rw [ih, testBit_set_bit]
    have hpos : (w, b) = getBitPosition (hash value (seeds[i]?.getD 0)) ↔
        (w = hash value (seeds[i]?.getD 0) / 64 ∧ b = hash value (seeds[i]?.getD 0) % 64) := by
      simp [getBitPosition, BITS_PER_WORD]
    constructor
    · rintro (⟨j, a, c, e⟩ | h)
      · exact Or.inl ⟨j, by omega, by omega, e⟩
      · rcases Bool.or_eq_true_iff.mp h with h1 | h1
        · exact Or.inl ⟨i, le_rfl, by omega, hpos.mpr (of_decide_eq_true h1)⟩
        · exact Or.inr h1
    · rintro (⟨j, a, c, e⟩ | h)
      · rcases Nat.eq_or_lt_of_le a with e1 | e1
        · subst e1
          exact Or.inr (Bool.or_eq_true_iff.mpr (Or.inl (decide_eq_true (hpos.mp e))))
        · exact Or.inl ⟨j, e1, by omega, e⟩
      · exact Or.inr (Bool.or_eq_true_iff.mpr (Or.inr h))

/-- The bits of every word after `add(v)`: the three selected bits and the bits
that were set before. -/
theorem testBit_add (f : BloomFilter) (v : Int) (w b : Nat) :
    ((add f v).bitArray w).testBit b = true ↔
      ((w, b) = getBitPosition (hash (to_uint32 v) 0x1234ABCD) ∨
        (w, b) = getBitPosition (hash (to_uint32 v) 0xF0F0F0F0) ∨
        (w, b) = getBitPosition (hash (to_uint32 v) 0xAAAA5555)) ∨
      (f.bitArray w).testBit b = true := by
  unfold add HASH_COUNT
  rw [testBit_add_loop]
  constructor
  · rintro (⟨j, _, c, e⟩ | h)
    · left
      have : j = 0 ∨ j = 1 ∨ j = 2 := by omega
      rcases this with e1 | e1 | e1 <;> subst e1
      · exact Or.inl e
      · exact Or.inr (Or.inl e)
      · exact Or.inr (Or.inr e)
    · exact Or.inr h
  · rintro ((h | h | h) | h)
    · exact Or.inl ⟨0, le_rfl, by omega, h⟩
    · exact Or.inl ⟨1, by omega, by omega, h⟩
    · exact Or.inl ⟨2, by omega, by omega, h⟩
    · exact Or.inr h

/-- C11 (Bloom add).  For every filter state and value, after `add(v)` the three
bits at the bit indices `hash(v, seed)` of the three seeds are set, and every other
bit has the value it had before: stated for the bit indices, and for every bit
`b` of every word `w` whose position is none of the three selected positions. -/
theorem add_spec (f : BloomFilter) (v : Int) :
    bit_set (add f v) (hash (to_uint32 v) 0x1234ABCD) ∧
    bit_set (add f v) (hash (to_uint32 v) 0xF0F0F0F0) ∧
    bit_set (add f v) (hash (to_uint32 v) 0xAAAA5555) ∧
    (∀ q, q ≠ hash (to_uint32 v) 0x1234ABCD → q ≠ hash (to_uint32 v) 0xF0F0F0F0 →
      q ≠ hash (to_uint32 v) 0xAAAA5555 → (bit_set (add f v) q ↔ bit_set f q)) ∧
    (∀ w b, (w, b) ≠ getBitPosition (hash (to_uint32 v) 0x1234ABCD) →
      (w, b) ≠ getBitPosition (hash (to_uint32 v) 0xF0F0F0F0) →
      (w, b) ≠ getBitPosition (hash (to_uint32 v) 0xAAAA5555) →
      ((add f v).bitArray w).testBit b = (f.bitArray w).testBit b) := by
  refine ⟨?_, ?_, ?_, ?_, ?_⟩
  · exact (bit_set_add f v _).mpr (Or.inl (Or.inl rfl))
  · exact (bit_set_add f v _).mpr (Or.inl (Or.inr (Or.inl rfl)))
  · exact (bit_set_add f v _).mpr (Or.inl (Or.inr (Or.inr rfl)))
  · intro q h1 h2 h3
    rw [bit_set_add]
    constructor
    · rintro ((h | h | h) | h)
      · exact absurd h h1
      · exact absurd h h2
      · exact absurd h h3
      · exact h
    · exact fun h => Or.inr h
  · intro w b h1 h2 h3
    rw [Bool.eq_iff_iff, testBit_add]
    constructor
    · rintro ((h | h | h) | h)
      · exact absurd h h1
      · exact absurd h h2
      · exact absurd h h3
      · exact h
    · exact fun h => Or.inr h

/-- C13 (Bloom add is idempotent).  For every filter state and value, the bit array
after `add(v); add(v)` is the bit array after one `add(v)`. -/
theorem add_idempotent (f : BloomFilter) (v : Int) :
    (add (add f v) v).bitArray = (add f v).bitArray := by
  funext w
  apply Nat.eq_of_testBit_eq
  intro b
  rw [Bool.eq_iff_iff, testBit_add, testBit_add]
  constructor
  · rintro (h | h)
    · exact Or.inl h
    · exact h
  · exact fun h => Or.inr h

theorem bit_set_run_op (f : BloomFilter) (op : Op) (q : Nat) (h : bit_set f q) :
    bit_set (run_op f op).1 q := by
  cases op with
  | add v => exact (bit_set_add f v q).mpr (Or.inr h)
  | contains v => exact h

theorem bit_set_run_ops (ops : List Op) :
    ∀ (f : BloomFilter) (q : Nat), bit_set f q → bit_set (run_ops f ops) q := by
  induction ops with
  | nil => intro f q h; exact h
  | cons op rest ih =>
    intro f q h
    exact ih _ q (bit_set_run_op f op q h)

/-- C14 (Bloom bits are monotone).  For every filter state and every call (`add`
or `contains` of any value), a bit that is set before the call is set after it;
and a `contains(w)` that returns true still returns true after any sequence of
later calls. -/
theorem bits_monotone (f : BloomFilter) :
    (∀ (op : Op) (q : Nat), bit_set f q → bit_set (run_op f op).1 q) ∧
    (∀ (ops : List Op) (w : Int), contains f w = true → contains (run_ops f ops) w = true) := by
  refine ⟨fun op q h => bit_set_run_op f op q h, ?_⟩
  intro ops w h
  rw [contains_iff] at h ⊢
  exact ⟨bit_set_run_ops ops f _ h.1, bit_set_run_ops ops f _ h.2.1,
    bit_set_run_ops ops f _ h.2.2⟩

/-! ### The hash function -/

theorem hash_eq_mix (value seed : Nat) : hash value seed = mix value seed % SIZE := rfl

theorem shiftRight_lt {a : Nat} (n k : Nat) (h : a < 2 ^ n) : a >>> k < 2 ^ n := by
  rw [Nat.shiftRight_eq_div_pow]
  exact lt_of_le_of_lt (Nat.div_le_self _ _) h

theorem mix_lt (value seed : Nat) : mix value seed < 2 ^ 32 := by
  unfold mix
  simp only
  have h4 : ((seed ^^^ value) * 0x5bd1e995 % 2 ^ 32 ^^^
      ((seed ^^^ value) * 0x5bd1e995 % 2 ^ 32) >>> 15) * 0x27d4eb2d % 2 ^ 32 < 2 ^ 32 :=
    Nat.mod_lt _ (by norm_num)
  exact Nat.xor_lt_two_pow h4 (shiftRight_lt 32 15 h4)

/-- C12 (Bloom hash).  For 32-bit `value` and `seed`, `hash(value, seed)` is the
formula of the specification evaluated in wrapping 32-bit unsigned arithmetic; it is
the low 24 bits of the mixed 32-bit word; and it is below `2^24`. -/
theorem hash_spec (value seed : Nat) (hv : value < 2 ^ 32) (hs : seed < 2 ^ 32) :
    hash value seed = hash_formula value seed ∧
    hash value seed = mix value seed &&& (2 ^ 24 - 1) ∧
    mix value seed < 2 ^ 32 ∧
    hash value seed < 2 ^ 24 := by
  have h1 : seed ^^^ value < 2 ^ 32 := Nat.xor_lt_two_pow hs hv
  have h2 : (seed ^^^ value) * 0x5bd1e995 % 2 ^ 32 < 2 ^ 32 := Nat.mod_lt _ (by norm_num)
  have h3 : (seed ^^^ value) * 0x5bd1e995 % 2 ^ 32 ^^^
      ((seed ^^^ value) * 0x5bd1e995 % 2 ^ 32) >>> 15 < 2 ^ 32 :=
    Nat.xor_lt_two_pow h2 (shiftRight_lt 32 15 h2)
  have h4 : ((seed ^^^ value) * 0x5bd1e995 % 2 ^ 32 ^^^
      ((seed ^^^ value) * 0x5bd1e995 % 2 ^ 32) >>> 15) * 0x27d4eb2d % 2 ^ 32 < 2 ^ 32 :=
    Nat.mod_lt _ (by norm_num)
  have h5 := Nat.xor_lt_two_pow h4 (shiftRight_lt 32 15 h4)
  refine ⟨?_, ?_, mix_lt value seed, ?_⟩
  · unfold hash hash_formula wrap32 SIZE
    simp only
    rw [Nat.mod_eq_of_lt hs, Nat.mod_eq_of_lt h1, Nat.mod_eq_of_lt h3, Nat.mod_eq_of_lt h5]
    rfl
  · rw [Nat.and_pow_two_sub_one_eq_mod]
    rfl
  · rw [hash_eq_mix]
    exact Nat.mod_lt _ (by decide)

/-- A witness for `hash_spec`: value 42 with the first seed. -/
theorem hash_spec_witness :
    hash 42 0x1234ABCD = hash_formula 42 0x1234ABCD ∧
    hash 42 0x1234ABCD = mix 42 0x1234ABCD &&& (2 ^ 24 - 1) ∧
    mix 42 0x1234ABCD < 2 ^ 32 ∧
    hash 42 0x1234ABCD < 2 ^ 24 :=
  hash_spec 42 0x1234ABCD (by decide) (by decide)

/-! ### Index bounds -/

theorem hash_lt (value seed : Nat) : hash value seed < 2 ^ 24 := by
  rw [hash_eq_mix]
  exact Nat.mod_lt _ (by decide)

theorem getBitPosition_lt (value seed : Nat) :
    (getBitPosition (hash value seed)).1 < WORD_COUNT ∧
    (getBitPosition (hash value seed)).2 < 64 := by
  have h := hash_lt value seed
  have hw : WORD_COUNT = 262144 := by decide
  simp only [getBitPosition, BITS_PER_WORD, hw]
  omega

/-- C34 (Bloom index safety).  The array has `WORD_COUNT = 262144` words, the ceiling
of `2^24 / 64`.  For every value and seed the bit index is below `2^24`, its word
index is the quotient by 64 and is below `WORD_COUNT`, its bit offset is the
remainder and is below 64, and the mask `1 << offset` fits in 64 bits.  `add` leaves
every word at an index from `WORD_COUNT` on as it was, and a word that fits in 64
bits still does so after `add`. -/
theorem index_safety (v seed : Nat) :
    WORD_COUNT = 262144 ∧ WORD_COUNT = (2 ^ 24 + 64 - 1) / 64 ∧
    hash v seed < 2 ^ 24 ∧
    (getBitPosition (hash v seed)).1 = hash v seed / 64 ∧
    (getBitPosition (hash v seed)).1 < WORD_COUNT ∧
    (getBitPosition (hash v seed)).2 = hash v seed % 64 ∧
    (getBitPosition (hash v seed)).2 < 64 ∧
    1 <<< (getBitPosition (hash v seed)).2 < 2 ^ 64 ∧
    (∀ (f : BloomFilter) (x : Int) (i : Nat), WORD_COUNT ≤ i →
      (add f x).bitArray i = f.bitArray i) ∧
    (∀ (f : BloomFilter) (x : Int) (i : Nat), f.bitArray i < 2 ^ 64 →
      (add f x).bitArray i < 2 ^ 64) := by
  obtain ⟨h1, h2⟩ := getBitPosition_lt v seed
  refine ⟨by decide, by decide, hash_lt v seed, rfl, h1, rfl, h2, ?_, ?_, ?_⟩
  · rw [Nat.one_shiftLeft]
    exact Nat.pow_lt_pow_right (by norm_num) h2
  · intro f x i hi
    apply Nat.eq_of_testBit_eq
    intro b
    rw [Bool.eq_iff_iff, testBit_add]
    constructor
    · rintro ((h | h | h) | h)
      · have := (getBitPosition_lt (to_uint32 x) 0x1234ABCD).1
        rw [← h] at this
        exact absurd this (by simp only; omega)
      · have := (getBitPosition_lt (to_uint32 x) 0xF0F0F0F0).1
        rw [← h] at this
        exact absurd this (by simp only; omega)
      · have := (getBitPosition_lt (to_uint32 x) 0xAAAA5555).1
        rw [← h] at this
        exact absurd this (by simp only; omega)
      · exact h
    · exact fun h => Or.inr h
  · intro f x i hi
    apply Nat.lt_pow_two_of_testBit
    intro b hb
    rw [← Bool.not_eq_true]
    rw [testBit_add]
    rintro ((h | h | h) | h)
    · have := (getBitPosition_lt (to_uint32 x) 0x1234ABCD).2
      rw [← h] at this
      exact absurd this (by simp only; omega)
    · have := (getBitPosition_lt (to_uint32 x) 0xF0F0F0F0).2
      rw [← h] at this
      exact absurd this (by simp only; omega)
    · have := (getBitPosition_lt (to_uint32 x) 0xAAAA5555).2
      rw [← h] at this
      exact absurd this (by simp only; omega)
    · rw [Nat.testBit_eq_false_of_lt (lt_of_lt_of_le hi (Nat.pow_le_pow_right (by norm_num) hb))] at h
      exact Bool.noConfusion h

/-! ### The new filter, the order of the adds and a false positive -/

/-- C39 (new filter).  Every word of a newly constructed filter is 0 and no bit is
set, so `contains` returns false for every value; after one `add(v)` on a new
filter every bit that is set is at one of the three positions computed for `v`. -/
theorem new_filter_clear (v : Int) :
    (∀ w, BloomFilter.new.bitArray w = 0) ∧
    (∀ q, ¬ bit_set BloomFilter.new q) ∧
    contains BloomFilter.new v = false ∧
    (∀ w b, ((add BloomFilter.new v).bitArray w).testBit b = true →
      (w, b) ∈ seeds.map (fun s => getBitPosition (hash (to_uint32 v) s))) ∧
    (seeds.map (fun s => getBitPosition (hash (to_uint32 v) s))).length = 3 := by
  have hclear : ∀ q, ¬ bit_set BloomFilter.new q := by
    intro q h
    simp [bit_set, BloomFilter.new] at h
  refine ⟨fun _ => rfl, hclear, ?_, ?_, rfl⟩
  · rw [← Bool.not_eq_true, contains_iff]
    exact fun h => hclear _ h.1
  · intro w b h
    rw [testBit_add] at h
    rcases h with (h | h | h) | h
    · simp [seeds, h]
    · simp [seeds, h]
    · simp [seeds, h]
    · simp [BloomFilter.new] at h

theorem testBit_foldl_add (vs : List Int) :
    ∀ (f : BloomFilter) (w b : Nat),
      ((vs.foldl add f).bitArray w).testBit b = true ↔
        (∃ v ∈ vs, (w, b) = getBitPosition (hash (to_uint32 v) 0x1234ABCD) ∨
          (w, b) = getBitPosition (hash (to_uint32 v) 0xF0F0F0F0) ∨
          (w, b) = getBitPosition (hash (to_uint32 v) 0xAAAA5555)) ∨
        (f.bitArray w).testBit b = true := by
  induction vs with
  | nil => intro f w b; simp
  | cons x rest ih =>
    intro f w b
    rw [List.foldl_cons, ih, testBit_add]
    constructor
    · rintro (⟨v, hv, h⟩ | h | h)
      · exact Or.inl ⟨v, List.mem_cons_of_mem _ hv, h⟩
      · exact Or.inl ⟨x, List.mem_cons_self _ _, h⟩
      · exact Or.inr h
    · rintro (⟨v, hv, h⟩ | h)
      · rcases List.mem_cons.mp hv with e | e
        · subst e
          exact Or.inr (Or.inl h)
        · exact Or.inl ⟨v, e, h⟩
      · exact Or.inr (Or.inr h)

/-- C38 (adds commute).  From any filter, `add(a); add(b)` and `add(b); add(a)` give
the same bit array; and two sequences of adds with the same set of values give the
same bit array, whatever the order and the number of repetitions. -/
theorem adds_commute (f : BloomFilter) (a b : Int) :
    (add (add f a) b).bitArray = (add (add f b) a).bitArray ∧
    ∀ l1 l2 : List Int, (∀ x, x ∈ l1 ↔ x ∈ l2) →
      (l1.foldl add f).bitArray = (l2.foldl add f).bitArray := by
  have hgen : ∀ l1 l2 : List Int, (∀ x, x ∈ l1 ↔ x ∈ l2) →
      (l1.foldl add f).bitArray = (l2.foldl add f).bitArray := by
    intro l1 l2 h
    funext w
    apply Nat.eq_of_testBit_eq
    intro i
    rw [Bool.eq_iff_iff, testBit_foldl_add, testBit_foldl_add]
    constructor
    · rintro (⟨v, hv, hp⟩ | hp)
      · exact Or.inl ⟨v, (h v).mp hv, hp⟩
      · exact Or.inr hp
    · rintro (⟨v, hv, hp⟩ | hp)
      · exact Or.inl ⟨v, (h v).mpr hv, hp⟩
      · exact Or.inr hp
  refine ⟨?_, hgen⟩
  have := hgen [a, b] [b, a] (fun x => by simp [or_comm])
  simpa using this

theorem hash_congr {x s y s1 : Nat} (h : s ^^^ x = s1 ^^^ y) : hash x s = hash y s1 := by
  unfold hash
  simp only [h]

theorem xor_swap (x s t : Nat) : s ^^^ (x ^^^ s ^^^ t) = t ^^^ x := by
  apply Nat.eq_of_testBit_eq
  intro i
  simp only [Nat.testBit_xor]
  cases x.testBit i <;> cases s.testBit i <;> cases t.testBit i <;> rfl

theorem xor_swap_right (x s t : Nat) : t ^^^ (x ^^^ s ^^^ t) = s ^^^ x := by
  apply Nat.eq_of_testBit_eq
  intro i
  simp only [Nat.testBit_xor]
  cases x.testBit i <;> cases s.testBit i <;> cases t.testBit i <;> rfl

theorem xor_rotate (x s t u : Nat) : u ^^^ (x ^^^ s ^^^ t) = s ^^^ (x ^^^ t ^^^ u) := by
  apply Nat.eq_of_testBit_eq
  intro i
  simp only [Nat.testBit_xor]
  cases x.testBit i <;> cases s.testBit i <;> cases t.testBit i <;> cases u.testBit i <;> rfl

theorem xor_cancel_left {x a b : Nat} (h : x ^^^ a = x ^^^ b) : a = b := by
  have h1 : x ^^^ (x ^^^ a) = x ^^^ (x ^^^ b) := by rw [h]
  rw [← Nat.xor_assoc, ← Nat.xor_assoc, Nat.xor_self, Nat.zero_xor, Nat.zero_xor] at h1
  exact h1

/-- C37 (structured false positive).  `hash(x, s)` depends on `x xor s` only.  For
values `a`, `b`, `c` whose 32-bit words satisfy `b = a xor 0xF0F0F0F0 xor 0xAAAA5555`
and `c = a xor 0x1234ABCD xor 0xF0F0F0F0`: on a new filter after `add(a)` and
`add(b)`, `contains(c)` returns true, and `c` is neither `a` nor `b`. -/
theorem structured_false_positive (a b c : Int)
    (hb : to_uint32 b = to_uint32 a ^^^ 0xF0F0F0F0 ^^^ 0xAAAA5555)
    (hc : to_uint32 c = to_uint32 a ^^^ 0x1234ABCD ^^^ 0xF0F0F0F0) :
    (∀ x s s1 : Nat, hash x s = hash (x ^^^ s ^^^ s1) s1) ∧
    contains (add (add BloomFilter.new a) b) c = true ∧ c ≠ a ∧ c ≠ b := by
  refine ⟨fun x s s1 => hash_congr (xor_swap_right x s s1).symm, ?_, ?_, ?_⟩
  · rw [contains_iff]
    have e1 : hash (to_uint32 c) 0x1234ABCD = hash (to_uint32 a) 0xF0F0F0F0 := by
      rw [hc]; exact hash_congr (xor_swap _ _ _)
    have e2 : hash (to_uint32 c) 0xF0F0F0F0 = hash (to_uint32 a) 0x1234ABCD := by
      rw [hc]; exact hash_congr (xor_swap_right _ _ _)
    have e3 : hash (to_uint32 c) 0xAAAA5555 = hash (to_uint32 b) 0x1234ABCD := by
      rw [hc, hb]; exact hash_congr (xor_rotate _ _ _ _)
    rw [e1, e2, e3]
    refine ⟨?_, ?_, ?_⟩
    · rw [bit_set_add, bit_set_add]
      exact Or.inr (Or.inl (Or.inr (Or.inl rfl)))
    · rw [bit_set_add, bit_set_add]
      exact Or.inr (Or.inl (Or.inl rfl))
    · rw [bit_set_add]
      exact Or.inl (Or.inl rfl)
  · intro e
    rw [e, Nat.xor_assoc] at hc
    have h0 : to_uint32 a ^^^ 0 = to_uint32 a ^^^ (0x1234ABCD ^^^ 0xF0F0F0F0) := by
      rw [Nat.xor_zero]; exact hc
    exact absurd (xor_cancel_left h0) (by decide)
  · intro e
    rw [e, hb, Nat.xor_assoc, Nat.xor_assoc] at hc
    exact absurd (xor_cancel_left hc) (by decide)

/-- A witness for `structured_false_positive`: `a = 5`. -/
theorem structured_false_positive_witness :
    contains (add (add BloomFilter.new 5) 1515890080) (-490448072) = true ∧
    (-490448072 : Int) ≠ 5 ∧ (-490448072 : Int) ≠ 1515890080 :=
  (structured_false_positive 5 1515890080 (-490448072) (by decide) (by decide)).2

/-! ### The mixing is a bijection -/

theorem mul_inj_of_inverse (c d : Nat) (hinv : c * d % 2 ^ 32 = 1) {a b : Nat}
    (ha : a < 2 ^ 32) (hb : b < 2 ^ 32) (h : a * c % 2 ^ 32 = b * c % 2 ^ 32) : a = b := by
  have key : ∀ u, u < 2 ^ 32 → (u * c % 2 ^ 32) * d % 2 ^ 32 = u := by
    intro u hu
    rw [Nat.mod_mul_mod, Nat.mul_assoc, Nat.mul_mod, hinv, Nat.mul_one, Nat.mod_mod,
      Nat.mod_eq_of_lt hu]
  rw [← key a ha, ← key b hb, h]

theorem mul_first_inj {a b : Nat} (ha : a < 2 ^ 32) (hb : b < 2 ^ 32)
    (h : a * 0x5bd1e995 % 2 ^ 32 = b * 0x5bd1e995 % 2 ^ 32) : a = b :=
  mul_inj_of_inverse 0x5bd1e995 3852147133 (by norm_num) ha hb h

theorem mul_second_inj {a b : Nat} (ha : a < 2 ^ 32) (hb : b < 2 ^ 32)
    (h : a * 0x27d4eb2d % 2 ^ 32 = b * 0x27d4eb2d % 2 ^ 32) : a = b :=
  mul_inj_of_inverse 0x27d4eb2d 4218002597 (by norm_num) ha hb h

theorem xorshift_inj {x y : Nat} (k : Nat) (hk : 0 < k)
    (h : x ^^^ (x >>> k) = y ^^^ (y >>> k)) : x = y := by
  obtain ⟨n, hx, hy⟩ : ∃ n, x < 2 ^ n ∧ y < 2 ^ n :=
    ⟨max x y, lt_of_le_of_lt (le_max_left _ _) (Nat.lt_two_pow _),
      lt_of_le_of_lt (le_max_right _ _) (Nat.lt_two_pow _)⟩
  have key : ∀ m i, n ≤ i + m → x.testBit i = y.testBit i := by
    intro m
    induction m using Nat.strong_induction_on with
    | _ m ih =>
      intro i hi
      by_cases hn : n ≤ i
      · rw [Nat.testBit_eq_false_of_lt (lt_of_lt_of_le hx (Nat.pow_le_pow_right (by norm_num) hn)),
          Nat.testBit_eq_false_of_lt (lt_of_lt_of_le hy (Nat.pow_le_pow_right (by norm_num) hn))]
      · have hup : x.testBit (k + i) = y.testBit (k + i) := ih (m - 1) (by omega) (k + i) (by omega)
        have hbit := congrArg (fun z => z.testBit i) h
        simp only [Nat.testBit_xor, Nat.testBit_shiftRight, hup] at hbit
        revert hbit
        cases x.testBit i <;> cases y.testBit i <;> cases y.testBit (k + i) <;> simp
  exact Nat.eq_of_testBit_eq (fun i => key n i (by omega))

theorem mix_inj {seed v w : Nat} (hs : seed < 2 ^ 32) (hv : v < 2 ^ 32) (hw : w < 2 ^ 32)
    (h : mix v seed = mix w seed) : v = w := by
  unfold mix at h
  simp only at h
  have h4 := xorshift_inj 15 (by norm_num) h
  have b1 : ∀ u, u < 2 ^ 32 → (seed ^^^ u) * 0x5bd1e995 % 2 ^ 32 ^^^
      ((seed ^^^ u) * 0x5bd1e995 % 2 ^ 32) >>> 15 < 2 ^ 32 := fun u _ =>
    Nat.xor_lt_two_pow (Nat.mod_lt _ (by norm_num))
      (shiftRight_lt 32 15 (Nat.mod_lt _ (by norm_num)))
  have h3 := mul_second_inj (b1 v hv) (b1 w hw) h4
  have h2 := xorshift_inj 15 (by norm_num) h3
  have h1 := mul_first_inj (Nat.xor_lt_two_pow hs hv) (Nat.xor_lt_two_pow hs hw) h2
  exact xor_cancel_left h1

theorem mix_surj {seed y : Nat} (hs : seed < 2 ^ 32) (hy : y < 2 ^ 32) :
    ∃ v, v < 2 ^ 32 ∧ mix v seed = y := by
  have himg : (Finset.range (2 ^ 32)).image (fun v => mix v seed) = Finset.range (2 ^ 32) := by
    apply Finset.eq_of_subset_of_card_le
    · intro z hz
      obtain ⟨v, _, rfl⟩ := Finset.mem_image.mp hz
      exact Finset.mem_range.mpr (mix_lt v seed)
    · rw [Finset.card_image_of_injOn]
      intro v hv w hw e
      exact mix_inj hs (Finset.mem_range.mp (Finset.mem_coe.mp hv))
        (Finset.mem_range.mp (Finset.mem_coe.mp hw)) e
  have : y ∈ (Finset.range (2 ^ 32)).image (fun v => mix v seed) := by
    rw [himg]; exact Finset.mem_range.mpr hy
  obtain ⟨v, hv, e⟩ := Finset.mem_image.mp this
  exact ⟨v, Finset.mem_range.mp hv, e⟩

/-- C40 (uniform bit positions).  For every 32-bit seed the word that `hash` has
computed before its final reduction, as a function of the 32-bit value, is injective
and onto the 32-bit words; and for every bit index `b < 2^24` exactly 256 of the
`2^32` values `v` have `hash(v, seed) = b`. -/
theorem uniform_positions (seed : Nat) (hs : seed < 2 ^ 32) :
    (∀ v w, v < 2 ^ 32 → w < 2 ^ 32 → mix v seed = mix w seed → v = w) ∧
    (∀ y, y < 2 ^ 32 → ∃ v, v < 2 ^ 32 ∧ mix v seed = y) ∧
    (∀ b, b < 2 ^ 24 →
      ((Finset.range (2 ^ 32)).filter (fun v => hash v seed = b)).card = 256) := by
  refine ⟨fun v w hv hw e => mix_inj hs hv hw e, fun y hy => mix_surj hs hy, ?_⟩
  intro b hb
  have hS : SIZE = 2 ^ 24 := by decide
  rw [← Finset.card_range 256]
  apply Finset.card_bij (fun v _ => mix v seed / 2 ^ 24)
  · intro v _
    have := mix_lt v seed
    exact Finset.mem_range.mpr (by omega)
  · intro v hv w hw e
    simp only [Finset.mem_filter, Finset.mem_range, hash_eq_mix, hS] at hv hw
    exact mix_inj hs hv.1 hw.1 (by omega)
  · intro j hj
    have hj1 := Finset.mem_range.mp hj
    obtain ⟨v, hv, e⟩ := mix_surj hs (show b + 2 ^ 24 * j < 2 ^ 32 by omega)
    refine ⟨v, ?_, ?_⟩
    · simp only [Finset.mem_filter, Finset.mem_range, hash_eq_mix, hS, e]
      exact ⟨hv, by omega⟩
    · simp only [e]
      omega

/-- A witness for `uniform_positions`: the first seed and the bit index 5. -/
theorem uniform_positions_witness :
    ((Finset.range (2 ^ 32)).filter (fun v => hash v 0x1234ABCD = 5)).card = 256 :=
  (uniform_positions 0x1234ABCD (by norm_num)).2.2 5 (by norm_num)

end Bloom
